import Mathlib

/-!
Verification of the graphlib library (Go): a shallow embedding of the
graph data model, the priority queue, the MST algorithm, the retry
helper and the DAG execution engine, together with proofs of the
behavioural claims about them.

Go maps are modelled as association lists, Go linked chains as lists,
Go channels as closed-flags, goroutine interleavings as explicit event
sequences, and unbounded loops as fuelled recursion.
-/

set_option linter.unusedSectionVars false

namespace Graphlib

/-- Association-list lookup, modelling a Go map read. -/
def alookup {K : Type} [DecidableEq K] {V : Type} (k : K) :
    List (K × V) → Option V
  | [] => none
  | (k', v) :: rest => if k = k' then some v else alookup k rest

/-- Association-list update or insert, modelling a Go map write. -/
def aset {K : Type} [DecidableEq K] {V : Type} (k : K) (v : V) :
    List (K × V) → List (K × V)
  | [] => [(k, v)]
  | (k', v') :: rest =>
      if k = k' then (k, v) :: rest else (k', v') :: aset k v rest

/-- Association-list removal, modelling a Go map delete. -/
def aremove {K : Type} [DecidableEq K] {V : Type} (k : K) :
    List (K × V) → List (K × V)
  | [] => []
  | (k', v') :: rest =>
      if k = k' then aremove k rest else (k', v') :: aremove k rest

/-- The key set of an association list. -/
def akeys {K : Type} {V : Type} (m : List (K × V)) : List K :=
  m.map Prod.fst

theorem alookup_aset_self {K : Type} [DecidableEq K] {V : Type}
    (k : K) (v : V) (m : List (K × V)) : alookup k (aset k v m) = some v := by
  induction m with
  | nil => simp [aset, alookup]
  | cons p rest ih =>
      by_cases h : k = p.1
      · simp [aset, h, alookup]
      · simp [aset, h, alookup, ih]

/-!
## The retry helper (src/util.go, runWithRetry / runWithTimeout)

The Go runner f is impure: successive invocations may differ.  We model
it as a map from the invocation counter to the outcome of that
invocation (none = the invocation returned a nil error).  The watchdog
of runWithTimeout races a timer against the runner; which select branch
wins is real-time behaviour, modelled by an oracle giving, for each
invocation, whether the timer fired first.  Results are paired with the
number of invocations actually performed.
-/

/-- Errors produced by the retry and timeout wrappers of util.go.
The user constructor carries an error returned by the runner itself;
runTimeout models the errRunTimeout sentinel; retryExceeded models the
error built by fmt.Errorf("function runs exceeds the retry limit %d, %v",
retry, err). -/
inductive RunErr (E : Type) where
  | user (e : E)
  | runTimeout
  | retryExceeded (limit : Int) (last : RunErr E)
  deriving DecidableEq, Repr

/-- Embeds runWithTimeout (src/util.go lines 30-48) for a single
invocation: if the timer fired first the result is errRunTimeout,
otherwise the runner's own result is returned. -/
def runWithTimeout {E : Type} (timerFired : Bool) (res : Option E) :
    Option (RunErr E) :=
  if timerFired then some RunErr.runTimeout else res.map RunErr.user

/-- The for-loop of runWithRetry (src/util.go lines 57-61 and 65-69):
performs up to n invocations starting at counter i, stopping at the
first success; returns the number of invocations made and none on
success, or the error of the last invocation when all n fail. -/
def retryLoop {E : Type} (attempt : Nat → Option (RunErr E)) (i : Nat) :
    Nat → Nat × Option (RunErr E)
  | 0 => (0, none)
  | 1 =>
      match attempt i with
      | none => (1, none)
      | some e => (1, some e)
  | m + 2 =>
      match attempt i with
      | none => (1, none)
      | some _ =>
          ((retryLoop attempt (i + 1) (m + 1)).1 + 1,
           (retryLoop attempt (i + 1) (m + 1)).2)

/-- Embeds runWithRetry (src/util.go lines 50-72).  The timeout
duration only matters through being zero or not, plus the timer oracle;
f gives the result of each invocation of the runner. -/
def runWithRetry {E : Type} (retry : Int) (timeout : Nat)
    (timerFired : Nat → Bool) (f : Nat → Option E) :
    Nat × Option (RunErr E) :=
  if retry ≤ 0 ∧ timeout = 0 then (1, (f 0).map RunErr.user)
  else if retry ≤ 0 then (1, runWithTimeout (timerFired 0) (f 0))
  else if timeout = 0 then
    let r := retryLoop (fun i => (f i).map RunErr.user) 0 (retry.toNat + 1)
    (r.1, r.2.map (RunErr.retryExceeded retry))
  else
    let r := retryLoop (fun i => runWithTimeout (timerFired i) (f i)) 0
      (retry.toNat + 1)
    (r.1, r.2.map (RunErr.retryExceeded retry))

theorem retryLoop_one {E : Type} (a : Nat → Option (RunErr E)) (i : Nat) :
    retryLoop a i 1 =
      match a i with
      | none => (1, none)
      | some e => (1, some e) := rfl

theorem retryLoop_step {E : Type} (a : Nat → Option (RunErr E))
    (i m : Nat) :
    retryLoop a i (m + 2) =
      match a i with
      | none => (1, none)
      | some _ =>
          ((retryLoop a (i + 1) (m + 1)).1 + 1,
           (retryLoop a (i + 1) (m + 1)).2) := rfl

theorem retryLoop_calls_le {E : Type} (a : Nat → Option (RunErr E))
    (i n : Nat) : (retryLoop a i n).1 ≤ n := by
  induction n generalizing i with
  | zero => simp [retryLoop]
  | succ m ih =>
      cases m with
      | zero =>
          rw [retryLoop_one]
          cases a i <;> simp
      | succ m' =>
          rw [retryLoop_step]
          cases a i with
          | none => simp
          | some e => simpa using Nat.succ_le_succ (ih (i + 1))

theorem retryLoop_success {E : Type} (a : Nat → Option (RunErr E))
    (i n j : Nat) (hj : j < n) (hs : a (i + j) = none)
    (hf : ∀ j' < j, (a (i + j')).isSome) :
    retryLoop a i n = (j + 1, none) := by
  induction n generalizing i j with
  | zero => omega
  | succ m ih =>
      cases j with
      | zero =>
          rw [show i + 0 = i from rfl] at hs
          cases m with
          | zero => rw [retryLoop_one, hs]
          | succ m' => rw [retryLoop_step, hs]
      | succ j' =>
          have h0 : (a (i + 0)).isSome := hf 0 (Nat.succ_pos _)
          rcases ho : a i with _ | e
          · rw [show i + 0 = i from rfl] at h0
            rw [ho] at h0
            simp at h0
          · cases m with
            | zero => omega
            | succ m' =>
                have hrec : retryLoop a (i + 1) (m' + 1) = (j' + 1, none) := by
                  refine ih (i + 1) j' (by omega) ?_ ?_
                  · rw [show i + 1 + j' = i + (j' + 1) by omega]
                    exact hs
                  · intro t ht
                    rw [show i + 1 + t = i + (t + 1) by omega]
                    exact hf (t + 1) (by omega)
                rw [retryLoop_step, ho, hrec]

theorem retryLoop_allfail {E : Type} (a : Nat → Option (RunErr E))
    (i n : Nat) (hn : 0 < n) (hf : ∀ j < n, (a (i + j)).isSome) :
    retryLoop a i n = (n, a (i + n - 1)) := by
  induction n generalizing i with
  | zero => omega
  | succ m ih =>
      have h0 : (a (i + 0)).isSome := hf 0 (Nat.succ_pos _)
      rcases ho : a i with _ | e
      · rw [show i + 0 = i from rfl] at h0
        rw [ho] at h0
        simp at h0
      · cases m with
        | zero =>
            rw [retryLoop_one, ho]
            simpa using ho.symm
        | succ m' =>
            have hrec := ih (i + 1) (Nat.succ_pos _) (fun j hj => by
              rw [show i + 1 + j = i + (j + 1) by omega]
              exact hf (j + 1) (by omega))
            rw [retryLoop_step, ho, hrec]
            simp only [Prod.mk.injEq, true_and]
            congr 1
            omega

/-- C5: with retry r > 0 and zero timeout, runWithRetry makes at most
r+1 invocations of the runner; if the first success is at invocation j
(all earlier ones failing) it stops right there returning success after
j+1 invocations; and if all r+1 invocations fail it returns the error
of the last invocation wrapped together with the retry limit. -/
theorem runWithRetry_retry_cases {E : Type} (r : Int) (hr : 0 < r)
    (tf : Nat → Bool) (f : Nat → Option E) :
    (runWithRetry r 0 tf f).1 ≤ r.toNat + 1 ∧
    (∀ j ≤ r.toNat, f j = none → (∀ j' < j, (f j').isSome) →
      runWithRetry r 0 tf f = (j + 1, none)) ∧
    ((∀ j ≤ r.toNat, (f j).isSome) →
      ∃ e, f r.toNat = some e ∧
        runWithRetry r 0 tf f =
          (r.toNat + 1, some (RunErr.retryExceeded r (RunErr.user e)))) := by
  have hnot : ¬ r ≤ 0 := not_le.mpr hr
  refine ⟨?_, ?_, ?_⟩
  · simp only [runWithRetry, hnot, false_and, if_false, if_neg hnot, if_pos rfl]
    exact retryLoop_calls_le _ 0 _
  · intro j hj hsucc hfail
    have hloop : retryLoop (fun i => (f i).map RunErr.user) 0 (r.toNat + 1)
        = (j + 1, none) := by
      refine retryLoop_success _ 0 _ j (by omega) ?_ ?_
      · simp [hsucc]
      · intro t ht
        have := hfail t ht
        simp only [Nat.zero_add]
        rcases ho : f t with _ | e
        · rw [ho] at this; simp at this
        · simp
    simp only [runWithRetry, hnot, false_and, if_false, if_neg hnot,
      if_pos rfl, hloop]
    rfl
  · intro hall
    have hloop : retryLoop (fun i => (f i).map RunErr.user) 0 (r.toNat + 1)
        = (r.toNat + 1, (f r.toNat).map RunErr.user) := by
      have := retryLoop_allfail (fun i => (f i).map RunErr.user) 0
        (r.toNat + 1) (Nat.succ_pos _) (fun j hj => by
          have := hall j (by omega)
          simp only [Nat.zero_add]
          rcases ho : f j with _ | e
          · rw [ho] at this; simp at this
          · simp)
      simpa using this
    have hsome := hall r.toNat (le_refl _)
    rcases ho : f r.toNat with _ | e
    · rw [ho] at hsome; simp at hsome
    · refine ⟨e, rfl, ?_⟩
      simp only [runWithRetry, hnot, false_and, if_false, if_neg hnot,
        if_pos rfl, hloop]
      simp [ho]

/-- Witness for C5 at retry = 1 with a runner failing once then
succeeding, and at a runner failing always. -/
theorem runWithRetry_retry_cases_witness :
    (0 : Int) < 1 ∧
    runWithRetry 1 0 (fun _ => false)
      (fun i => if i = 0 then some 7 else none) = (2, none) ∧
    runWithRetry 1 0 (fun _ => false) (fun _ => some (7 : Nat)) =
      (2, some (RunErr.retryExceeded 1 (RunErr.user 7))) := by
  refine ⟨by norm_num, ?_, ?_⟩
  · have h := (runWithRetry_retry_cases (E := Nat) 1 (by norm_num)
      (fun _ => false) (fun i => if i = 0 then some 7 else none)).2.1
    have := h 1 (by norm_num) (by simp) (by
      intro t ht
      interval_cases t
      simp)
    simpa using this
  · have h := (runWithRetry_retry_cases (E := Nat) 1 (by norm_num)
      (fun _ => false) (fun _ => some 7)).2.2
    obtain ⟨e, he, hrun⟩ := h (by intro j hj; simp)
    have he7 : e = 7 := by simpa using he.symm
    rw [he7] at hrun
    simpa using hrun

/-!
## The indexed binary heap and priority queue (src/heap.go)

The Go element carries an index field that the code keeps equal to the
element's position in the elems slice (push, pop, shiftUp and shiftDown
all restore it after every move).  We therefore model the heap as the
elems list alone, with the index of an element being its position, and
the items map of the priority queue as lookup-by-key in that list (the
code keeps items and elems in sync: every element is registered in
items under its key, and keys are unique).  Zero values of Go types are
modelled by Inhabited defaults.
-/

/-- The element record of heap.go (key, value, priority rank); the
index field is the position in the list. -/
structure Element (K V P : Type) where
  key : K
  value : V
  rank : P
  deriving DecidableEq, Repr

instance {K V P : Type} [Inhabited K] [Inhabited V] [Inhabited P] :
    Inhabited (Element K V P) := ⟨⟨default, default, default⟩⟩

/-- The binaryHeap record of heap.go; the comparator is passed to each
operation explicitly. -/
structure BinaryHeap (K V P : Type) where
  ready : Bool
  elems : List (Element K V P)
  deriving Repr

/-- Element at position j of the heap slice (Go index access). -/
def elAt {K V P : Type} [Inhabited K] [Inhabited V] [Inhabited P]
    (es : List (Element K V P)) (j : Nat) : Element K V P :=
  es.getD j default

/-- Swap of two in-range slice positions, as Go multiple assignment. -/
def lswap {K V P : Type} [Inhabited K] [Inhabited V] [Inhabited P]
    (es : List (Element K V P)) (i j : Nat) : List (Element K V P) :=
  if i < es.length ∧ j < es.length then
    (es.set i (elAt es j)).set j (elAt es i)
  else es

/-- Embeds binaryHeap.shiftUp (src/heap.go lines 80-92), fuelled: each
iteration moves from i to its parent, so fuel i+1 always suffices. -/
def shiftUpF {K V P : Type} [Inhabited K] [Inhabited V] [Inhabited P]
    (less : P → P → Bool) :
    Nat → List (Element K V P) → Nat → List (Element K V P)
  | 0, es, _ => es
  | fuel + 1, es, i =>
      if 0 < i then
        let p := (i - 1) / 2
        if less (elAt es p).rank (elAt es i).rank then es
        else shiftUpF less fuel (lswap es i p) p
      else es

/-- Embeds binaryHeap.shiftDown (src/heap.go lines 94-126), fuelled:
each iteration moves from i to a child, so fuel = length always
suffices. -/
def shiftDownF {K V P : Type} [Inhabited K] [Inhabited V] [Inhabited P]
    (less : P → P → Bool) :
    Nat → List (Element K V P) → Nat → List (Element K V P)
  | 0, es, _ => es
  | fuel + 1, es, i =>
      if i < es.length then
        let p1 := 2 * i + 1
        let p2 := 2 * i + 2
        if p2 < es.length then
          let p := if less (elAt es p1).rank (elAt es p2).rank then p1 else p2
          if less (elAt es i).rank (elAt es p).rank then es
          else shiftDownF less fuel (lswap es i p) p
        else if p1 < es.length then
          if less (elAt es i).rank (elAt es p1).rank then es
          else shiftDownF less fuel (lswap es i p1) p1
        else es
      else es

/-- Go shiftDown with enough fuel for its start position. -/
def shiftDown {K V P : Type} [Inhabited K] [Inhabited V] [Inhabited P]
    (less : P → P → Bool) (es : List (Element K V P)) (i : Nat) :
    List (Element K V P) :=
  shiftDownF less (es.length + 1) es i

/-- Embeds binaryHeap.shift (src/heap.go lines 75-78): shiftUp at idx
then shiftDown at the same idx. -/
def heapShift {K V P : Type} [Inhabited K] [Inhabited V] [Inhabited P]
    (less : P → P → Bool) (es : List (Element K V P)) (i : Nat) :
    List (Element K V P) :=
  shiftDown less (shiftUpF less (i + 1) es i) i

/-- Embeds binaryHeap.push (src/heap.go lines 43-51): append at the
tail and shift from there; a non-ready heap ignores the push. -/
def heapPush {K V P : Type} [Inhabited K] [Inhabited V] [Inhabited P]
    (less : P → P → Bool) (h : BinaryHeap K V P) (e : Element K V P) :
    BinaryHeap K V P :=
  if h.ready then
    ⟨h.ready, heapShift less (h.elems ++ [e]) h.elems.length⟩
  else h

/-- Embeds binaryHeap.pop (src/heap.go lines 53-72): swap head and
tail, remove the tail, sift the new head down. -/
def heapPop {K V P : Type} [Inhabited K] [Inhabited V] [Inhabited P]
    (less : P → P → Bool) (h : BinaryHeap K V P) :
    Option (Element K V P) × BinaryHeap K V P :=
  if !h.ready ∨ h.elems.isEmpty then (none, h)
  else
    let n := h.elems.length
    let es := lswap h.elems 0 (n - 1)
    let e := elAt es (n - 1)
    (some e, ⟨h.ready, shiftDown less (es.take (n - 1)) 0⟩)

/-- The loop of binaryHeap.init (src/heap.go lines 26-33): shiftDown
from length/2 down to 1 (position 0 is not processed; init is only
ever called on the empty heap by newPriorityQueue). -/
def heapInitLoop {K V P : Type} [Inhabited K] [Inhabited V] [Inhabited P]
    (less : P → P → Bool) (es : List (Element K V P)) :
    Nat → List (Element K V P)
  | 0 => es
  | i + 1 => heapInitLoop less (shiftDown less es (i + 1)) i

/-- Embeds binaryHeap.init (src/heap.go lines 26-33). -/
def heapInit {K V P : Type} [Inhabited K] [Inhabited V] [Inhabited P]
    (less : P → P → Bool) (h : BinaryHeap K V P) : BinaryHeap K V P :=
  if h.ready then h
  else ⟨true, heapInitLoop less h.elems (h.elems.length / 2)⟩

/-- The priorityQueue record of heap.go; the items map is realised as
key lookup in the heap slice (see the section comment). -/
structure PriorityQueue (K V P : Type) where
  heap : BinaryHeap K V P
  deriving Repr

/-- Embeds newPriorityQueue (src/heap.go lines 133-140). -/
def newPriorityQueue {K V P : Type} [Inhabited K] [Inhabited V]
    [Inhabited P] (less : P → P → Bool) : PriorityQueue K V P :=
  ⟨heapInit less ⟨false, []⟩⟩

/-- Position of the element registered under key k (the items map read
combined with the index field). -/
def pqFind {K V P : Type} [DecidableEq K]
    (es : List (Element K V P)) (k : K) : Option Nat :=
  match es with
  | [] => none
  | e :: rest =>
      if e.key = k then some 0 else (pqFind rest k).map (· + 1)

/-- Embeds priorityQueue.Update (src/heap.go lines 143-149). -/
def pqUpdate {K V P : Type} [DecidableEq K] [Inhabited K] [Inhabited V]
    [Inhabited P] (less : P → P → Bool) (q : PriorityQueue K V P)
    (k : K) (p : P) : PriorityQueue K V P :=
  match pqFind q.heap.elems k with
  | none => q
  | some i =>
      let es := q.heap.elems.set i { elAt q.heap.elems i with rank := p }
      ⟨⟨q.heap.ready, heapShift less es i⟩⟩

/-- Embeds priorityQueue.Push (src/heap.go lines 152-164). -/
def pqPush {K V P : Type} [DecidableEq K] [Inhabited K] [Inhabited V]
    [Inhabited P] (less : P → P → Bool) (q : PriorityQueue K V P)
    (k : K) (v : V) (p : P) : PriorityQueue K V P :=
  match pqFind q.heap.elems k with
  | some i =>
      let es := q.heap.elems.set i ⟨k, v, p⟩
      ⟨⟨q.heap.ready, heapShift less es i⟩⟩
  | none => ⟨heapPush less q.heap ⟨k, v, p⟩⟩

/-- Embeds priorityQueue.Pop (src/heap.go lines 166-178): on a
non-empty queue the popped element's fields with flag true, on an empty
queue zero values with flag false.  (When items is non-empty but the
inner pop yields nil -- impossible for a well-formed queue -- the Go
code would dereference nil; that unreachable branch is given default
values here.) -/
def pqPop {K V P : Type} [Inhabited K] [Inhabited V] [Inhabited P]
    (less : P → P → Bool) (q : PriorityQueue K V P) :
    (K × V × P × Bool) × PriorityQueue K V P :=
  if q.heap.elems.length ≠ 0 then
    match heapPop less q.heap with
    | (some e, h) => ((e.key, e.value, e.rank, true), ⟨h⟩)
    | (none, h) => ((default, default, default, true), ⟨h⟩)
  else ((default, default, default, false), q)

/-- Embeds priorityQueue.Get (src/heap.go lines 180-186). -/
def pqGet {K V P : Type} [DecidableEq K] [Inhabited P]
    (q : PriorityQueue K V P) (k : K) : P :=
  match q.heap.elems.find? (fun e => e.key = k) with
  | some e => e.rank
  | none => default

/-- Embeds priorityQueue.Len (src/heap.go lines 188-190). -/
def pqLen {K V P : Type} (q : PriorityQueue K V P) : Nat :=
  q.heap.elems.length

section HeapLemmas

variable {K V P : Type} [DecidableEq K] [Inhabited K] [Inhabited V]
  [Inhabited P]

/-- The contract of a comparator used with the heap: a strict order
whose negation is transitive (any strict weak order satisfies it). -/
structure LessOK (less : P → P → Bool) : Prop where
  asymm : ∀ a b, less a b = true → less b a = false
  negtrans : ∀ a b c, less a b = false → less b c = false →
    less a c = false

theorem LessOK.irrefl {less : P → P → Bool} (hl : LessOK less) (a : P) :
    less a a = false := by
  cases h : less a a with
  | false => rfl
  | true =>
      have h2 := hl.asymm a a h
      rw [h] at h2
      exact h2

/-- The min-heap shape invariant: no element is less than its parent. -/
def heapProp (less : P → P → Bool) (es : List (Element K V P)) : Prop :=
  ∀ j, 0 < j → j < es.length →
    less (elAt es j).rank (elAt es ((j - 1) / 2)).rank = false

/-- Precondition of shiftDown at i: every parent-child pair is in heap
order except possibly the pairs below i, and the children of i are not
below i's parent (the bridged condition). -/
def downOK (less : P → P → Bool) (es : List (Element K V P)) (i : Nat) :
    Prop :=
  (∀ j, 0 < j → j < es.length → (j - 1) / 2 ≠ i →
    less (elAt es j).rank (elAt es ((j - 1) / 2)).rank = false) ∧
  (0 < i → ∀ j, 0 < j → j < es.length → (j - 1) / 2 = i →
    less (elAt es j).rank (elAt es ((i - 1) / 2)).rank = false)

/-- Precondition of shiftUp at i: every parent-child pair not touching
i is in heap order, and the children of i are not below i's parent. -/
def upOK (less : P → P → Bool) (es : List (Element K V P)) (i : Nat) :
    Prop :=
  (∀ j, 0 < j → j < es.length → j ≠ i → (j - 1) / 2 ≠ i →
    less (elAt es j).rank (elAt es ((j - 1) / 2)).rank = false) ∧
  (0 < i → ∀ j, 0 < j → j < es.length → (j - 1) / 2 = i →
    less (elAt es j).rank (elAt es ((i - 1) / 2)).rank = false)

/-- Strengthening of upOK reached after the first swap of a shiftUp
run: additionally the children of i are not below i itself. -/
def upOKs (less : P → P → Bool) (es : List (Element K V P)) (i : Nat) :
    Prop :=
  upOK less es i ∧
  ∀ j, 0 < j → j < es.length → (j - 1) / 2 = i →
    less (elAt es j).rank (elAt es i).rank = false

theorem elAt_eq_get {es : List (Element K V P)} {j : Nat}
    (h : j < es.length) : elAt es j = es.get ⟨j, h⟩ := by
  simp [elAt, List.getD_eq_getElem?_getD, List.getElem?_eq_getElem h,
    List.get_eq_getElem]

theorem length_lswap (es : List (Element K V P)) (i j : Nat) :
    (lswap es i j).length = es.length := by
  unfold lswap
  split <;> simp

theorem lswap_of_ge (es : List (Element K V P)) {i j : Nat}
    (h : ¬(i < es.length ∧ j < es.length)) : lswap es i j = es := by
  unfold lswap
  simp [h]

theorem elAt_set_self {es : List (Element K V P)} (v : Element K V P)
    {i : Nat} (hi : i < es.length) : elAt (es.set i v) i = v := by
  simp [elAt, List.getD_eq_getElem?_getD, List.getElem?_set_eq hi]

theorem elAt_set_other {es : List (Element K V P)} (v : Element K V P)
    {i k : Nat} (h : i ≠ k) : elAt (es.set i v) k = elAt es k := by
  simp [elAt, List.getD_eq_getElem?_getD, List.getElem?_set_ne h]

theorem elAt_lswap_fst {es : List (Element K V P)} {i j : Nat}
    (hi : i < es.length) (hj : j < es.length) :
    elAt (lswap es i j) i = elAt es j := by
  unfold lswap
  rw [if_pos ⟨hi, hj⟩]
  by_cases hij : i = j
  · subst hij
    exact elAt_set_self _ (by simpa using hi)
  · rw [elAt_set_other _ (Ne.symm hij), elAt_set_self _ hi]

theorem elAt_lswap_snd {es : List (Element K V P)} {i j : Nat}
    (hi : i < es.length) (hj : j < es.length) :
    elAt (lswap es i j) j = elAt es i := by
  unfold lswap
  rw [if_pos ⟨hi, hj⟩]
  exact elAt_set_self _ (by simpa using hj)

theorem elAt_lswap_other {es : List (Element K V P)} {i j k : Nat}
    (hki : k ≠ i) (hkj : k ≠ j) :
    elAt (lswap es i j) k = elAt es k := by
  unfold lswap
  split
  · rw [elAt_set_other _ (Ne.symm hkj), elAt_set_other _ (Ne.symm hki)]
  · rfl

theorem child_of {j i : Nat} (hj : 0 < j) :
    (j - 1) / 2 = i ↔ j = 2 * i + 1 ∨ j = 2 * i + 2 := by omega

theorem parent_lt {j : Nat} (hj : 0 < j) : (j - 1) / 2 < j := by omega

theorem heapProp_downOK {less : P → P → Bool} (hl : LessOK less)
    {es : List (Element K V P)} (hp : heapProp less es) (i : Nat) :
    downOK less es i := by
  constructor
  · intro j hj hlen _
    exact hp j hj hlen
  · intro hi j hj hlen hpar
    have h1 : less (elAt es j).rank (elAt es i).rank = false := by
      have := hp j hj hlen
      rw [hpar] at this
      exact this
    have h2 : less (elAt es i).rank (elAt es ((i - 1) / 2)).rank = false :=
      hp i hi (by
        have : j ≥ 2 * i + 1 := by omega
        omega)
    exact hl.negtrans _ _ _ h1 h2

/-- The central sift-down lemma: from a downOK state, shiftDown with
enough fuel restores the full heap invariant. -/
theorem shiftDownF_heap {less : P → P → Bool} (hl : LessOK less) :
    ∀ (fuel : Nat) (es : List (Element K V P)) (i : Nat),
      es.length ≤ i + fuel → downOK less es i →
      heapProp less (shiftDownF less fuel es i) := by
  intro fuel
  induction fuel with
  | zero =>
      intro es i hfuel hok
      -- i is past the end: every in-range pair has a parent other
      -- than i, so the first clause of downOK is the full invariant.
      intro j hj hlen
      rw [shiftDownF] at hlen ⊢
      refine hok.1 j hj hlen ?_
      intro hpar
      have : j ≥ 2 * i + 1 := by omega
      omega
  | succ fuel ih =>
      intro es i hfuel hok
      rw [shiftDownF]
      by_cases hi : i < es.length
      · rw [if_pos hi]
        by_cases h2 : 2 * i + 2 < es.length
        · rw [if_pos h2]
          simp only
          set p : Nat :=
            if less (elAt es (2 * i + 1)).rank (elAt es (2 * i + 2)).rank
            then 2 * i + 1 else 2 * i + 2 with hp
          have hp_child : (p - 1) / 2 = i := by
            rw [hp]; split <;> omega
          have hp_range : p < es.length := by
            rw [hp]; split <;> omega
          have hp_pos : 0 < p := by
            rw [hp]; split <;> omega
          have hp_gt : i < p := by
            rw [hp]; split <;> omega
          -- the other child is not below the chosen child
          have hmin : ∀ q, 0 < q → q < es.length → (q - 1) / 2 = i →
              q ≠ p → less (elAt es q).rank (elAt es p).rank = false := by
            intro q hq hqlen hqpar hqp
            rcases (child_of hq).mp hqpar with h | h
            · -- q = 2i+1, so p = 2i+2 and the min test failed
              subst h
              by_cases hc : less (elAt es (2 * i + 1)).rank
                  (elAt es (2 * i + 2)).rank
              · exact absurd (by simp [hp, hc]) (Ne.symm hqp)
              · have hpe : p = 2 * i + 2 := by simp [hp, hc]
                rw [hpe]
                simpa using hc
            · subst h
              by_cases hc : less (elAt es (2 * i + 1)).rank
                  (elAt es (2 * i + 2)).rank
              · have hpe : p = 2 * i + 1 := by simp [hp, hc]
                rw [hpe]
                exact hl.asymm _ _ hc
              · exact absurd (by simp [hp, hc]) (Ne.symm hqp)
          by_cases hstop : less (elAt es i).rank (elAt es p).rank
          · rw [if_pos hstop]
            intro j hj hlen
            by_cases hpar : (j - 1) / 2 = i
            · by_cases hjp : j = p
              · subst hjp
                rw [hpar]
                exact hl.asymm _ _ hstop
              · rw [hpar]
                have hq := hmin j hj hlen hpar hjp
                have hpi : less (elAt es p).rank (elAt es i).rank = false :=
                  hl.asymm _ _ hstop
                exact hl.negtrans _ _ _ hq hpi
            · exact hok.1 j hj hlen hpar
          · rw [if_neg hstop]
            have hstop' : less (elAt es i).rank (elAt es p).rank = false := by
              simpa using hstop
            refine ih (lswap es i p) p
              (by rw [length_lswap]; omega) ?_
            have hlen' := length_lswap es i p
            have hAi : elAt (lswap es i p) i = elAt es p :=
              elAt_lswap_fst hi hp_range
            have hAp : elAt (lswap es i p) p = elAt es i :=
              elAt_lswap_snd hi hp_range
            have hAo : ∀ k, k ≠ i → k ≠ p →
                elAt (lswap es i p) k = elAt es k := fun k h1 h2 =>
              elAt_lswap_other h1 h2
            constructor
            · -- pairs whose parent is not p
              intro j hj hlen hpar
              rw [hlen'] at hlen
              by_cases hji : j = i
              · -- the pair (parent i, i), parent value unchanged
                subst hji
                have hjpos := hj
                have hparlt : (j - 1) / 2 < j := parent_lt hj
                rw [hAi, hAo _ (by omega) (by omega)]
                exact hok.2 hj p hp_pos hp_range hp_child
              · by_cases hjp : j = p
                · -- the pair (i, p) after the swap
                  subst hjp
                  rw [hAp, hp_child, hAi]
                  exact hstop'
                · -- j touches neither i nor p
                  rw [hAo _ hji hjp]
                  by_cases hparI : (j - 1) / 2 = i
                  · -- j is the sibling of p
                    rw [hparI, hAi]
                    exact hmin j hj hlen hparI hjp
                  · rw [hAo _ hparI hpar]
                    exact hok.1 j hj hlen hparI
            · -- bridge at p: children of p against p's parent (= i)
              intro _ j hj hlen hpar
              rw [hlen'] at hlen
              have hjq : 2 * p + 1 ≤ j := by
                rcases (child_of hj).mp hpar with h | h <;> omega
              have hjne_i : j ≠ i := by omega
              have hjne_p : j ≠ p := by omega
              rw [hp_child, hAi, hAo _ hjne_i hjne_p]
              have h := hok.1 j hj hlen (by omega)
              rw [hpar] at h
              exact h
        · rw [if_neg h2]
          by_cases h1 : 2 * i + 1 < es.length
          · rw [if_pos h1]
            by_cases hstop : less (elAt es i).rank (elAt es (2 * i + 1)).rank
            · rw [if_pos hstop]
              intro j hj hlen
              by_cases hpar : (j - 1) / 2 = i
              · have hj1 : j = 2 * i + 1 := by
                  rcases (child_of hj).mp hpar with h | h
                  · exact h
                  · omega
                subst hj1
                rw [hpar]
                exact hl.asymm _ _ hstop
              · exact hok.1 j hj hlen hpar
            · rw [if_neg hstop]
              have hstop' :
                  less (elAt es i).rank (elAt es (2 * i + 1)).rank = false := by
                simpa using hstop
              refine ih (lswap es i (2 * i + 1)) (2 * i + 1)
                (by rw [length_lswap]; omega) ?_
              have hlen' := length_lswap es i (2 * i + 1)
              have hAi : elAt (lswap es i (2 * i + 1)) i = elAt es (2 * i + 1) :=
                elAt_lswap_fst hi h1
              have hAp : elAt (lswap es i (2 * i + 1)) (2 * i + 1) = elAt es i :=
                elAt_lswap_snd hi h1
              have hAo : ∀ k, k ≠ i → k ≠ 2 * i + 1 →
                  elAt (lswap es i (2 * i + 1)) k = elAt es k := fun k a b =>
                elAt_lswap_other a b
              constructor
              · intro j hj hlen hpar
                rw [hlen'] at hlen
                by_cases hji : j = i
                · subst hji
                  rw [hAi, hAo _ (by omega) (by omega)]
                  exact hok.2 hj (2 * j + 1) (by omega) h1 (by omega)
                · by_cases hjp : j = 2 * i + 1
                  · subst hjp
                    rw [hAp, show (2 * i + 1 - 1) / 2 = i by omega, hAi]
                    exact hstop'
                  · rw [hAo _ hji hjp]
                    by_cases hparI : (j - 1) / 2 = i
                    · -- the sibling 2i+2 is out of range here
                      rcases (child_of hj).mp hparI with h | h
                      · exact absurd h hjp
                      · omega
                    · rw [hAo _ hparI hpar]
                      exact hok.1 j hj hlen hparI
              · intro _ j hj hlen hpar
                rw [hlen'] at hlen
                have hjq : 2 * (2 * i + 1) + 1 ≤ j := by
                  rcases (child_of hj).mp hpar with h | h <;> omega
                rw [show (2 * i + 1 - 1) / 2 = i by omega, hAi,
                  hAo _ (by omega) (by omega)]
                have h := hok.1 j hj hlen (by omega)
                rw [hpar] at h
                exact h
          · rw [if_neg h1]
            intro j hj hlen
            refine hok.1 j hj hlen ?_
            intro hpar
            have : j ≥ 2 * i + 1 := by omega
            omega
      · rw [if_neg hi]
        intro j hj hlen
        refine hok.1 j hj hlen ?_
        intro hpar
        have : j ≥ 2 * i + 1 := by omega
        omega

theorem shiftUpF_succ {less : P → P → Bool} (fuel : Nat)
    (es : List (Element K V P)) (i : Nat) :
    shiftUpF less (fuel + 1) es i =
      if 0 < i then
        if less (elAt es ((i - 1) / 2)).rank (elAt es i).rank then es
        else shiftUpF less fuel (lswap es i ((i - 1) / 2)) ((i - 1) / 2)
      else es := rfl

theorem shiftUpF_length {less : P → P → Bool} :
    ∀ (fuel : Nat) (es : List (Element K V P)) (i : Nat),
      (shiftUpF less fuel es i).length = es.length := by
  intro fuel
  induction fuel with
  | zero => intro es i; rfl
  | succ fuel ih =>
      intro es i
      rw [shiftUpF_succ]
      split
      · split
        · rfl
        · rw [ih, length_lswap]
      · rfl

theorem shiftDownF_length {less : P → P → Bool} :
    ∀ (fuel : Nat) (es : List (Element K V P)) (i : Nat),
      (shiftDownF less fuel es i).length = es.length := by
  intro fuel
  induction fuel with
  | zero => intro es i; rfl
  | succ fuel ih =>
      intro es i
      rw [shiftDownF]
      by_cases hi : i < es.length
      · rw [if_pos hi]
        by_cases h2 : 2 * i + 2 < es.length
        · rw [if_pos h2]
          simp only
          split_ifs <;> simp [ih, length_lswap]
        · rw [if_neg h2]
          by_cases h1 : 2 * i + 1 < es.length
          · rw [if_pos h1]
            split_ifs <;> simp [ih, length_lswap]
          · rw [if_neg h1]
      · rw [if_neg hi]

/-- After one productive swap of shiftUp, the parent position
satisfies the strengthened sift-up precondition. -/
theorem upOK_swap_step {less : P → P → Bool} (hl : LessOK less)
    {es : List (Element K V P)} {i : Nat} (hi0 : 0 < i)
    (hilen : i < es.length) (hup : upOK less es i)
    (hswap : less (elAt es ((i - 1) / 2)).rank (elAt es i).rank = false) :
    upOKs less (lswap es i ((i - 1) / 2)) ((i - 1) / 2) := by
  have hplt : (i - 1) / 2 < i := parent_lt hi0
  have hplen : (i - 1) / 2 < es.length := lt_trans hplt hilen
  have hAi : elAt (lswap es i ((i - 1) / 2)) i = elAt es ((i - 1) / 2) :=
    elAt_lswap_fst hilen hplen
  have hAp : elAt (lswap es i ((i - 1) / 2)) ((i - 1) / 2) = elAt es i :=
    elAt_lswap_snd hilen hplen
  have hAo : ∀ k, k ≠ i → k ≠ (i - 1) / 2 →
      elAt (lswap es i ((i - 1) / 2)) k = elAt es k := fun k a b =>
    elAt_lswap_other a b
  have hlen' := length_lswap es i ((i - 1) / 2)
  refine ⟨⟨?_, ?_⟩, ?_⟩
  · -- pairs not touching the parent position
    intro j hj hjlen hjne hjpar
    rw [hlen'] at hjlen
    by_cases hji : j = i
    · exact absurd (by rw [hji]) hjpar
    · by_cases hpj : (j - 1) / 2 = i
      · have hjgt : 2 * i + 1 ≤ j := by
          rcases (child_of hj).mp hpj with h | h <;> omega
        rw [hAo j hji (by omega), hpj, hAi]
        exact hup.2 hi0 j hj hjlen hpj
      · rw [hAo j hji hjne, hAo ((j - 1) / 2) hpj hjpar]
        exact hup.1 j hj hjlen hji hpj
  · -- bridge at the parent position
    intro hp0 j hj hjlen hjpar
    rw [hlen'] at hjlen
    have hpplt : ((i - 1) / 2 - 1) / 2 < (i - 1) / 2 := parent_lt hp0
    rw [hAo (((i - 1) / 2 - 1) / 2) (by omega) (by omega)]
    have h2 : less (elAt es ((i - 1) / 2)).rank
        (elAt es (((i - 1) / 2 - 1) / 2)).rank = false :=
      hup.1 ((i - 1) / 2) hp0 hplen (by omega) (by omega)
    by_cases hji : j = i
    · rw [hji, hAi]
      exact h2
    · have hjgt : 2 * ((i - 1) / 2) + 1 ≤ j := by
        rcases (child_of hj).mp hjpar with h | h <;> omega
      rw [hAo j hji (by omega)]
      have h1 : less (elAt es j).rank (elAt es ((i - 1) / 2)).rank = false := by
        have h := hup.1 j hj hjlen hji (by omega)
        rw [hjpar] at h
        exact h
      exact hl.negtrans _ _ _ h1 h2
  · -- children of the parent position against its new occupant
    intro j hj hjlen hjpar
    rw [hlen'] at hjlen
    rw [hAp]
    by_cases hji : j = i
    · rw [hji, hAi]
      exact hswap
    · have hjgt : 2 * ((i - 1) / 2) + 1 ≤ j := by
        rcases (child_of hj).mp hjpar with h | h <;> omega
      rw [hAo j hji (by omega)]
      have h1 : less (elAt es j).rank (elAt es ((i - 1) / 2)).rank = false := by
        have h := hup.1 j hj hjlen hji (by omega)
        rw [hjpar] at h
        exact h
      exact hl.negtrans _ _ _ h1 hswap

/-- A shiftUp run that has already performed a swap ends in a full
heap. -/
theorem shiftUpF_heap {less : P → P → Bool} (hl : LessOK less) :
    ∀ (fuel : Nat) (es : List (Element K V P)) (i : Nat),
      i < fuel → i < es.length → upOKs less es i →
      heapProp less (shiftUpF less fuel es i) := by
  intro fuel
  induction fuel with
  | zero => intro es i h; omega
  | succ fuel ih =>
      intro es i hfuel hilen hup
      rw [shiftUpF_succ]
      by_cases hi0 : 0 < i
      · rw [if_pos hi0]
        by_cases hstop : less (elAt es ((i - 1) / 2)).rank (elAt es i).rank
        · rw [if_pos hstop]
          intro j hj hjlen
          by_cases hji : j = i
          · rw [hji]
            exact hl.asymm _ _ hstop
          · by_cases hpj : (j - 1) / 2 = i
            · rw [hpj]
              exact hup.2 j hj hjlen hpj
            · exact hup.1.1 j hj hjlen hji hpj
        · rw [if_neg hstop]
          refine ih _ _ (by omega) (by rw [length_lswap]; omega) ?_
          exact upOK_swap_step hl hi0 hilen hup.1 (by simpa using hstop)
      · rw [if_neg hi0]
        have hieq : i = 0 := by omega
        intro j hj hjlen
        by_cases hpj : (j - 1) / 2 = i
        · rw [hpj]
          exact hup.2 j hj hjlen hpj
        · exact hup.1.1 j hj hjlen (by omega) hpj

/-- The sift-up contract feeding Go's shift: from an upOK state,
shiftUp leaves a state that shiftDown at the same index completes. -/
theorem shiftUpF_downOK {less : P → P → Bool} (hl : LessOK less) :
    ∀ (fuel : Nat) (es : List (Element K V P)) (i : Nat),
      i < fuel → i < es.length → upOK less es i →
      downOK less (shiftUpF less fuel es i) i := by
  intro fuel
  induction fuel with
  | zero => intro es i h; omega
  | succ fuel _ =>
      intro es i hfuel hilen hup
      rw [shiftUpF_succ]
      by_cases hi0 : 0 < i
      · rw [if_pos hi0]
        by_cases hstop : less (elAt es ((i - 1) / 2)).rank (elAt es i).rank
        · rw [if_pos hstop]
          refine ⟨?_, ?_⟩
          · intro j hj hjlen hjpar
            by_cases hji : j = i
            · rw [hji]
              exact hl.asymm _ _ hstop
            · exact hup.1 j hj hjlen hji hjpar
          · intro _ j hj hjlen hjpar
            exact hup.2 hi0 j hj hjlen hjpar
        · rw [if_neg hstop]
          have hfull := shiftUpF_heap hl fuel (lswap es i ((i - 1) / 2))
            ((i - 1) / 2) (by omega) (by rw [length_lswap]; omega)
            (upOK_swap_step hl hi0 hilen hup (by simpa using hstop))
          exact heapProp_downOK hl hfull i
      · rw [if_neg hi0]
        refine ⟨?_, ?_⟩
        · intro j hj hjlen hjpar
          exact hup.1 j hj hjlen (by omega) hjpar
        · intro h0
          exact absurd h0 (by omega)

/-- Go's shift (shiftUp then shiftDown at the same index) restores
the full heap invariant from an upOK state. -/
theorem heapShift_heap {less : P → P → Bool} (hl : LessOK less)
    {es : List (Element K V P)} {i : Nat} (hi : i < es.length)
    (hup : upOK less es i) : heapProp less (heapShift less es i) := by
  unfold heapShift shiftDown
  refine shiftDownF_heap hl _ _ i (by omega) ?_
  exact shiftUpF_downOK hl (i + 1) es i (by omega) hi hup

theorem heapShift_length {less : P → P → Bool}
    (es : List (Element K V P)) (i : Nat) :
    (heapShift less es i).length = es.length := by
  unfold heapShift shiftDown
  rw [shiftDownF_length, shiftUpF_length]

/-- Entry condition for shift after replacing the element at an
in-range position of a heap (the Update and existing-key Push paths). -/
theorem heapProp_upOK_set {less : P → P → Bool} (hl : LessOK less)
    {es : List (Element K V P)} {i : Nat} (hi : i < es.length)
    (hp : heapProp less es) (x : Element K V P) :
    upOK less (es.set i x) i := by
  have hlen : (es.set i x).length = es.length := List.length_set es i x
  constructor
  · intro j hj hjlen hji hjpar
    rw [hlen] at hjlen
    rw [elAt_set_other _ (Ne.symm hji), elAt_set_other _ (Ne.symm hjpar)]
    exact hp j hj hjlen
  · intro hi0 j hj hjlen hjpar
    rw [hlen] at hjlen
    have hjgt : 2 * i + 1 ≤ j := by
      rcases (child_of hj).mp hjpar with h | h <;> omega
    rw [elAt_set_other _ (by omega), elAt_set_other _ (by omega)]
    have h1 : less (elAt es j).rank (elAt es i).rank = false := by
      have h := hp j hj hjlen
      rw [hjpar] at h
      exact h
    have h2 : less (elAt es i).rank (elAt es ((i - 1) / 2)).rank = false :=
      hp i hi0 (by omega)
    exact hl.negtrans _ _ _ h1 h2

theorem elAt_append_lt {es : List (Element K V P)} {j : Nat}
    (x : Element K V P) (h : j < es.length) :
    elAt (es ++ [x]) j = elAt es j := by
  simp [elAt, List.getD_eq_getElem?_getD, List.getElem?_append, h]

theorem elAt_append_self (es : List (Element K V P))
    (x : Element K V P) : elAt (es ++ [x]) es.length = x := by
  simp [elAt, List.getD_eq_getElem?_getD, List.getElem?_concat_length]

/-- Entry condition for shift after appending a fresh element at the
tail of a heap (the push path). -/
theorem heapProp_upOK_append {less : P → P → Bool}
    {es : List (Element K V P)} (hp : heapProp less es)
    (x : Element K V P) : upOK less (es ++ [x]) es.length := by
  constructor
  · intro j hj hjlen hji hjpar
    rw [List.length_append] at hjlen
    have hjlt : j < es.length := by
      simp only [List.length_singleton] at hjlen
      omega
    have hplt : (j - 1) / 2 < es.length := by omega
    rw [elAt_append_lt x hjlt, elAt_append_lt x hplt]
    exact hp j hj hjlt
  · intro hi0 j hj hjlen hjpar
    rw [List.length_append] at hjlen
    simp only [List.length_singleton] at hjlen
    have : 2 * es.length + 1 ≤ j := by
      rcases (child_of hj).mp hjpar with h | h <;> omega
    omega

/-- In a heap, no element is less than the root. -/
theorem heapProp_min {less : P → P → Bool} (hl : LessOK less)
    {es : List (Element K V P)} (hp : heapProp less es) :
    ∀ j, j < es.length → less (elAt es j).rank (elAt es 0).rank = false := by
  intro j
  induction j using Nat.strong_induction_on with
  | _ j ih =>
      intro hj
      rcases Nat.eq_zero_or_pos j with h0 | h0
      · subst h0
        exact hl.irrefl _
      · have h1 := hp j h0 hj
        have h2 := ih ((j - 1) / 2) (parent_lt h0)
          (lt_trans (parent_lt h0) hj)
        exact hl.negtrans _ _ _ h1 h2

theorem mem_of_elAt {es : List (Element K V P)} {n : Nat}
    (h : n < es.length) : elAt es n ∈ es := by
  rw [elAt_eq_get h]
  exact List.get_mem es n h

theorem mem_iff_elAt {es : List (Element K V P)} {e : Element K V P} :
    e ∈ es ↔ ∃ n, ∃ _ : n < es.length, elAt es n = e := by
  rw [List.mem_iff_get]
  constructor
  · rintro ⟨⟨n, hn⟩, he⟩
    exact ⟨n, hn, by rw [elAt_eq_get hn]; exact he⟩
  · rintro ⟨n, hn, he⟩
    exact ⟨⟨n, hn⟩, by rw [← elAt_eq_get hn]; exact he⟩

theorem mem_lswap {es : List (Element K V P)} {i j : Nat}
    (e : Element K V P) : e ∈ lswap es i j ↔ e ∈ es := by
  by_cases hr : i < es.length ∧ j < es.length
  · obtain ⟨hi, hj⟩ := hr
    constructor
    · intro h
      obtain ⟨n, hn, he⟩ := mem_iff_elAt.mp h
      rw [length_lswap] at hn
      by_cases hni : n = i
      · rw [hni, elAt_lswap_fst hi hj] at he
        exact he ▸ mem_of_elAt hj
      · by_cases hnj : n = j
        · rw [hnj, elAt_lswap_snd hi hj] at he
          exact he ▸ mem_of_elAt hi
        · rw [elAt_lswap_other hni hnj] at he
          exact he ▸ mem_of_elAt hn
    · intro h
      obtain ⟨n, hn, he⟩ := mem_iff_elAt.mp h
      by_cases hni : n = i
      · refine mem_iff_elAt.mpr ⟨j, by rw [length_lswap]; exact hj, ?_⟩
        rw [elAt_lswap_snd hi hj, ← hni, he]
      · by_cases hnj : n = j
        · refine mem_iff_elAt.mpr ⟨i, by rw [length_lswap]; exact hi, ?_⟩
          rw [elAt_lswap_fst hi hj, ← hnj, he]
        · refine mem_iff_elAt.mpr ⟨n, by rw [length_lswap]; exact hn, ?_⟩
          rw [elAt_lswap_other hni hnj, he]
  · rw [lswap_of_ge es hr]

theorem mem_shiftUpF {less : P → P → Bool} :
    ∀ (fuel : Nat) (es : List (Element K V P)) (i : Nat)
      (e : Element K V P), e ∈ shiftUpF less fuel es i ↔ e ∈ es := by
  intro fuel
  induction fuel with
  | zero => intro es i e; rfl
  | succ fuel ih =>
      intro es i e
      rw [shiftUpF_succ]
      split_ifs
      · rfl
      · rw [ih, mem_lswap]
      · rfl

theorem mem_shiftDownF {less : P → P → Bool} :
    ∀ (fuel : Nat) (es : List (Element K V P)) (i : Nat)
      (e : Element K V P), e ∈ shiftDownF less fuel es i ↔ e ∈ es := by
  intro fuel
  induction fuel with
  | zero => intro es i e; rfl
  | succ fuel ih =>
      intro es i e
      rw [shiftDownF]
      by_cases hi : i < es.length
      · rw [if_pos hi]
        by_cases h2 : 2 * i + 2 < es.length
        · rw [if_pos h2]
          simp only
          split_ifs <;> simp [ih, mem_lswap]
        · rw [if_neg h2]
          by_cases h1 : 2 * i + 1 < es.length
          · rw [if_pos h1]
            split_ifs <;> simp [ih, mem_lswap]
          · rw [if_neg h1]
      · rw [if_neg hi]

theorem mem_heapShift {less : P → P → Bool}
    (es : List (Element K V P)) (i : Nat) (e : Element K V P) :
    e ∈ heapShift less es i ↔ e ∈ es := by
  unfold heapShift shiftDown
  rw [mem_shiftDownF, mem_shiftUpF]

/-- Key uniqueness stated positionally: distinct heap positions hold
distinct keys. -/
def keysInj (es : List (Element K V P)) : Prop :=
  ∀ m n, m < es.length → n < es.length → m ≠ n →
    (elAt es m).key ≠ (elAt es n).key

theorem keysInj_lswap {es : List (Element K V P)} {i j : Nat}
    (h : keysInj es) : keysInj (lswap es i j) := by
  by_cases hr : i < es.length ∧ j < es.length
  · obtain ⟨hi, hj⟩ := hr
    have key_at : ∀ m, m < es.length → elAt (lswap es i j) m =
        elAt es (if m = i then j else if m = j then i else m) := by
      intro m hm
      by_cases h1 : m = i
      · rw [if_pos h1, h1, elAt_lswap_fst hi hj]
      · rw [if_neg h1]
        by_cases h2 : m = j
        · rw [if_pos h2, h2, elAt_lswap_snd hi hj]
        · rw [if_neg h2, elAt_lswap_other h1 h2]
    intro m n hm hn hmn
    rw [length_lswap] at hm hn
    rw [key_at m hm, key_at n hn]
    refine h _ _ ?_ ?_ ?_
    · split_ifs <;> omega
    · split_ifs <;> omega
    · split_ifs <;> omega
  · rwa [lswap_of_ge es hr]

theorem keysInj_shiftUpF {less : P → P → Bool} :
    ∀ (fuel : Nat) (es : List (Element K V P)) (i : Nat),
      keysInj es → keysInj (shiftUpF less fuel es i) := by
  intro fuel
  induction fuel with
  | zero => intro es i h; exact h
  | succ fuel ih =>
      intro es i h
      rw [shiftUpF_succ]
      split_ifs
      · exact h
      · exact ih _ _ (keysInj_lswap h)
      · exact h

theorem keysInj_shiftDownF {less : P → P → Bool} :
    ∀ (fuel : Nat) (es : List (Element K V P)) (i : Nat),
      keysInj es → keysInj (shiftDownF less fuel es i) := by
  intro fuel
  induction fuel with
  | zero => intro es i h; exact h
  | succ fuel ih =>
      intro es i h
      rw [shiftDownF]
      by_cases hi : i < es.length
      · rw [if_pos hi]
        by_cases h2 : 2 * i + 2 < es.length
        · rw [if_pos h2]
          simp only
          split_ifs <;> first
            | exact h
            | exact ih _ _ (keysInj_lswap h)
        · rw [if_neg h2]
          by_cases h1 : 2 * i + 1 < es.length
          · rw [if_pos h1]
            split_ifs <;> first
              | exact h
              | exact ih _ _ (keysInj_lswap h)
          · rw [if_neg h1]
            exact h
      · rw [if_neg hi]
        exact h

theorem keysInj_heapShift {less : P → P → Bool}
    {es : List (Element K V P)} {i : Nat} (h : keysInj es) :
    keysInj (heapShift less es i) := by
  unfold heapShift shiftDown
  exact keysInj_shiftDownF _ _ _ (keysInj_shiftUpF _ _ _ h)

theorem keysInj_set_samekey {es : List (Element K V P)} {i : Nat}
    {x : Element K V P} (hi : i < es.length)
    (hkey : x.key = (elAt es i).key) (h : keysInj es) :
    keysInj (es.set i x) := by
  have hlen : (es.set i x).length = es.length := List.length_set es i x
  intro m n hm hn hmn
  rw [hlen] at hm hn
  by_cases hmi : m = i
  · subst hmi
    rw [elAt_set_self _ hm, elAt_set_other _ hmn, hkey]
    exact h m n hm hn hmn
  · rw [elAt_set_other _ (Ne.symm hmi)]
    by_cases hni : n = i
    · subst hni
      rw [elAt_set_self _ hn, hkey]
      exact h m n hm hn hmn
    · rw [elAt_set_other _ (Ne.symm hni)]
      exact h m n hm hn hmn

theorem keysInj_append {es : List (Element K V P)} {x : Element K V P}
    (h : keysInj es) (hfresh : ∀ m, m < es.length →
      (elAt es m).key ≠ x.key) : keysInj (es ++ [x]) := by
  intro m n hm hn hmn
  rw [List.length_append, List.length_singleton] at hm hn
  by_cases hmx : m = es.length
  · subst hmx
    have hnlt : n < es.length := by omega
    rw [elAt_append_self, elAt_append_lt x hnlt]
    exact fun he => hfresh n hnlt he.symm
  · have hmlt : m < es.length := by omega
    rw [elAt_append_lt x hmlt]
    by_cases hnx : n = es.length
    · subst hnx
      rw [elAt_append_self]
      exact hfresh m hmlt
    · have hnlt : n < es.length := by omega
      rw [elAt_append_lt x hnlt]
      exact h m n hmlt hnlt hmn

theorem elAt_take {es : List (Element K V P)} {k m : Nat} (h : m < k) :
    elAt (es.take k) m = elAt es m := by
  simp [elAt, List.getD_eq_getElem?_getD, List.getElem?_take, h]

theorem keysInj_take {es : List (Element K V P)} (k : Nat)
    (h : keysInj es) : keysInj (es.take k) := by
  intro m n hm hn hmn
  rw [List.length_take] at hm hn
  have hml : m < es.length := lt_of_lt_of_le hm (min_le_right _ _)
  have hnl : n < es.length := lt_of_lt_of_le hn (min_le_right _ _)
  have hmk : m < k := lt_of_lt_of_le hm (min_le_left _ _)
  have hnk : n < k := lt_of_lt_of_le hn (min_le_left _ _)
  rw [elAt_take hmk, elAt_take hnk]
  exact h m n hml hnl hmn

theorem elAt_cons_zero (e : Element K V P)
    (rest : List (Element K V P)) : elAt (e :: rest) 0 = e := rfl

theorem elAt_cons_succ (e : Element K V P)
    (rest : List (Element K V P)) (n : Nat) :
    elAt (e :: rest) (n + 1) = elAt rest n := rfl

theorem pqFind_some {es : List (Element K V P)} {k : K} :
    ∀ {i : Nat}, pqFind es k = some i →
      i < es.length ∧ (elAt es i).key = k := by
  induction es with
  | nil => intro i h; exact absurd h (by simp [pqFind])
  | cons e rest ih =>
      intro i h
      rw [pqFind] at h
      by_cases hk : e.key = k
      · rw [if_pos hk] at h
        cases h
        exact ⟨Nat.succ_pos _, hk⟩
      · rw [if_neg hk] at h
        rcases ho : pqFind rest k with _ | m
        · rw [ho] at h
          exact absurd h (by simp)
        · rw [ho] at h
          have him : m + 1 = i := Option.some.inj h
          obtain ⟨h1, h2⟩ := ih ho
          refine ⟨?_, ?_⟩
          · rw [← him]
            simpa using Nat.succ_lt_succ h1
          · rw [← him, elAt_cons_succ]
            exact h2

theorem pqFind_none {es : List (Element K V P)} {k : K}
    (h : pqFind es k = none) :
    ∀ m, m < es.length → (elAt es m).key ≠ k := by
  induction es with
  | nil => intro m hm; simp at hm
  | cons e rest ih =>
      rw [pqFind] at h
      by_cases hk : e.key = k
      · rw [if_pos hk] at h
        exact absurd h (by simp)
      · rw [if_neg hk] at h
        intro m hm
        cases m with
        | zero => simpa [elAt_cons_zero] using hk
        | succ m =>
            rw [elAt_cons_succ]
            exact ih (by simpa using h) m (by simpa using hm)

/-- The implementation invariant of the priority queue: ready heap,
heap-ordered slice, pairwise distinct keys. -/
def pqInv (less : P → P → Bool) (q : PriorityQueue K V P) : Prop :=
  q.heap.ready = true ∧ heapProp less q.heap.elems ∧ keysInj q.heap.elems

theorem pqInv_new (less : P → P → Bool) :
    pqInv less (newPriorityQueue (K := K) (V := V) less) := by
  have hnil : (newPriorityQueue (K := K) (V := V) less).heap.elems =
      ([] : List (Element K V P)) := by
    simp [newPriorityQueue, heapInit, heapInitLoop]
  refine ⟨rfl, ?_, ?_⟩
  · intro j hj hlen
    rw [hnil] at hlen
    simp at hlen
  · intro m n hm hn
    rw [hnil] at hm
    simp at hm

theorem pqInv_update {less : P → P → Bool} (hl : LessOK less)
    {q : PriorityQueue K V P} (hq : pqInv less q) (k : K) (p : P) :
    pqInv less (pqUpdate less q k p) := by
  rw [pqUpdate]
  rcases hfind : pqFind q.heap.elems k with _ | i
  · exact hq
  · obtain ⟨hlt, hkey⟩ := pqFind_some hfind
    simp only
    refine ⟨hq.1, ?_, ?_⟩
    · refine heapShift_heap hl ?_ ?_
      · rw [List.length_set]; exact hlt
      · exact heapProp_upOK_set hl hlt hq.2.1 _
    · refine keysInj_heapShift (keysInj_set_samekey hlt ?_ hq.2.2)
      simp

theorem pqInv_push {less : P → P → Bool} (hl : LessOK less)
    {q : PriorityQueue K V P} (hq : pqInv less q) (k : K) (v : V)
    (p : P) : pqInv less (pqPush less q k v p) := by
  rw [pqPush]
  rcases hfind : pqFind q.heap.elems k with _ | i
  · unfold heapPush
    rw [if_pos hq.1]
    refine ⟨hq.1, ?_, ?_⟩
    · refine heapShift_heap hl ?_ ?_
      · rw [List.length_append, List.length_singleton]
        omega
      · exact heapProp_upOK_append hq.2.1 _
    · refine keysInj_heapShift (keysInj_append hq.2.2 ?_)
      exact fun m hm => pqFind_none hfind m hm
  · obtain ⟨hlt, hkey⟩ := pqFind_some hfind
    simp only
    refine ⟨hq.1, ?_, ?_⟩
    · refine heapShift_heap hl ?_ ?_
      · rw [List.length_set]; exact hlt
      · exact heapProp_upOK_set hl hlt hq.2.1 _
    · refine keysInj_heapShift (keysInj_set_samekey hlt ?_ hq.2.2)
      rw [hkey]

/-- The behaviour of Pop on a non-empty well-formed queue: it returns
the fields of the root element, which is minimal, and the remaining
elements are exactly the others; the invariant is preserved. -/
theorem pqPop_spec {less : P → P → Bool} (hl : LessOK less)
    {q : PriorityQueue K V P} (hq : pqInv less q)
    (hne : q.heap.elems ≠ []) :
    ∃ e : Element K V P,
      e = elAt q.heap.elems 0 ∧
      (pqPop less q).1 = (e.key, e.value, e.rank, true) ∧
      (∀ x ∈ q.heap.elems, less x.rank e.rank = false) ∧
      (pqPop less q).2.heap.elems.length = q.heap.elems.length - 1 ∧
      (∀ x, x ∈ (pqPop less q).2.heap.elems ↔
        (x ∈ q.heap.elems ∧ x.key ≠ e.key)) ∧
      pqInv less (pqPop less q).2 := by
  obtain ⟨hready, hheap, hkeys⟩ := hq
  rcases q with ⟨⟨ready, es⟩⟩
  simp only at hready hheap hkeys hne
  subst hready
  have hlen0 : 0 < es.length := List.length_pos.mpr hne
  have hpop : heapPop less (⟨true, es⟩ : BinaryHeap K V P) =
      (some (elAt (lswap es 0 (es.length - 1)) (es.length - 1)),
       ⟨true,
        shiftDown less ((lswap es 0 (es.length - 1)).take (es.length - 1))
          0⟩) := by
    rw [heapPop]
    rw [if_neg (by simp [List.isEmpty_iff, hne])]
  have helast : elAt (lswap es 0 (es.length - 1)) (es.length - 1) =
      elAt es 0 :=
    elAt_lswap_snd hlen0 (by omega)
  have hq' : pqPop less (⟨⟨true, es⟩⟩ : PriorityQueue K V P) = ((
      (elAt es 0).key, (elAt es 0).value, (elAt es 0).rank, true),
      ⟨⟨true,
        shiftDown less ((lswap es 0 (es.length - 1)).take (es.length - 1))
          0⟩⟩) := by
    rw [pqPop, if_pos (by show es.length ≠ 0; omega), hpop, helast]
  have hlen_sw := length_lswap es 0 (es.length - 1)
  have htake_len :
      ((lswap es 0 (es.length - 1)).take (es.length - 1)).length =
        es.length - 1 := by
    rw [List.length_take, hlen_sw]
    omega
  -- heap order of the remaining elements
  have hdown : downOK less
      ((lswap es 0 (es.length - 1)).take (es.length - 1)) 0 := by
    constructor
    · intro j hj hjlen hjpar
      rw [htake_len] at hjlen
      have hppos : (j - 1) / 2 < j := parent_lt hj
      rw [elAt_take (by omega), elAt_take (by omega),
        elAt_lswap_other (by omega) (by omega),
        elAt_lswap_other (by omega) (by omega)]
      exact hheap j hj (by omega)
    · intro h0
      exact absurd h0 (by omega)
  have hheap' : heapProp less
      (shiftDown less ((lswap es 0 (es.length - 1)).take (es.length - 1))
        0) := by
    unfold shiftDown
    exact shiftDownF_heap hl _ _ 0 (by omega) hdown
  have hkeys_rest : keysInj
      ((lswap es 0 (es.length - 1)).take (es.length - 1)) :=
    keysInj_take _ (keysInj_lswap hkeys)
  have hmem_rest : ∀ x,
      x ∈ shiftDown less
        ((lswap es 0 (es.length - 1)).take (es.length - 1)) 0 ↔
      (x ∈ es ∧ x.key ≠ (elAt es 0).key) := by
    intro x
    unfold shiftDown
    rw [mem_shiftDownF]
    constructor
    · intro hx
      obtain ⟨n, hn, he⟩ := mem_iff_elAt.mp hx
      rw [htake_len] at hn
      rw [elAt_take (by omega)] at he
      by_cases hn0 : n = 0
      · subst hn0
        rw [elAt_lswap_fst hlen0 (by omega)] at he
        constructor
        · exact he ▸ mem_of_elAt (by omega)
        · rw [← he]
          exact hkeys (es.length - 1) 0 (by omega) hlen0 (by omega)
      · rw [elAt_lswap_other hn0 (by omega)] at he
        constructor
        · exact he ▸ mem_of_elAt (by omega)
        · rw [← he]
          exact hkeys n 0 (by omega) hlen0 hn0
    · rintro ⟨hx, hxkey⟩
      obtain ⟨n, hn, he⟩ := mem_iff_elAt.mp hx
      have hn0 : n ≠ 0 := by
        intro h
        subst h
        exact hxkey (by rw [← he])
      by_cases hnlast : n = es.length - 1
      · refine mem_iff_elAt.mpr ⟨0, by rw [htake_len]; omega, ?_⟩
        rw [elAt_take (by omega), elAt_lswap_fst hlen0 (by omega),
          ← hnlast, he]
      · refine mem_iff_elAt.mpr ⟨n, by rw [htake_len]; omega, ?_⟩
        rw [elAt_take (by omega), elAt_lswap_other hn0 hnlast, he]
  refine ⟨elAt es 0, rfl, by rw [hq'], ?_, ?_, ?_, ?_⟩
  · intro x hx
    obtain ⟨n, hn, he⟩ := mem_iff_elAt.mp hx
    rw [← he]
    exact heapProp_min hl hheap n hn
  · rw [hq']
    simp only
    unfold shiftDown
    rw [shiftDownF_length, htake_len]
  · intro x
    rw [hq']
    simp only
    exact hmem_rest x
  · rw [hq']
    exact ⟨rfl, hheap', by
      unfold shiftDown
      exact keysInj_shiftDownF _ _ _ hkeys_rest⟩

/-- Pop on an empty queue returns zero values and the absent flag. -/
theorem pqPop_empty {less : P → P → Bool} {q : PriorityQueue K V P}
    (h : q.heap.elems = []) :
    pqPop less q = ((default, default, default, false), q) := by
  rw [pqPop, if_neg (by simp [h])]

end HeapLemmas

/-- A client-visible mutation of the priority queue. -/
inductive PQOp (K V P : Type) where
  | push (k : K) (v : V) (p : P)
  | update (k : K) (p : P)

/-- Performs one Push or Update call. -/
def pqApply {K V P : Type} [DecidableEq K] [Inhabited K] [Inhabited V]
    [Inhabited P] (less : P → P → Bool) (q : PriorityQueue K V P) :
    PQOp K V P → PriorityQueue K V P
  | .push k v p => pqPush less q k v p
  | .update k p => pqUpdate less q k p

/-- The queue obtained from newPriorityQueue by a sequence of Push and
Update calls. -/
def pqApplyAll {K V P : Type} [DecidableEq K] [Inhabited K] [Inhabited V]
    [Inhabited P] (less : P → P → Bool) (ops : List (PQOp K V P)) :
    PriorityQueue K V P :=
  ops.foldl (pqApply less) (newPriorityQueue less)

theorem pqInv_applyAll {K V P : Type} [DecidableEq K] [Inhabited K]
    [Inhabited V] [Inhabited P] {less : P → P → Bool} (hl : LessOK less)
    (ops : List (PQOp K V P)) : pqInv less (pqApplyAll less ops) := by
  suffices h : ∀ (ops : List (PQOp K V P)) (q : PriorityQueue K V P),
      pqInv less q → pqInv less (ops.foldl (pqApply less) q) by
    exact h ops _ (pqInv_new less)
  intro ops
  induction ops with
  | nil => intro q hq; exact hq
  | cons op rest ih =>
      intro q hq
      rw [List.foldl_cons]
      refine ih _ ?_
      cases op with
      | push k v p => exact pqInv_push hl hq k v p
      | update k p => exact pqInv_update hl hq k p

/-- C8: for every queue built with a comparator (satisfying the usual
strict-weak-order contract) and every sequence of Push and Update
operations, Pop on a non-empty queue removes and returns an element of
minimal priority among the current elements, and Pop on an empty queue
returns zero values with the absent flag. -/
theorem pqPop_min_after_ops {K V P : Type} [DecidableEq K] [Inhabited K]
    [Inhabited V] [Inhabited P] (less : P → P → Bool) (hl : LessOK less)
    (ops : List (PQOp K V P)) :
    (pqLen (pqApplyAll less ops) = 0 →
      pqPop less (pqApplyAll less ops) =
        ((default, default, default, false), pqApplyAll less ops)) ∧
    (pqLen (pqApplyAll less ops) ≠ 0 →
      ∃ e : Element K V P,
        e ∈ (pqApplyAll less ops).heap.elems ∧
        (pqPop less (pqApplyAll less ops)).1 =
          (e.key, e.value, e.rank, true) ∧
        (∀ x ∈ (pqApplyAll less ops).heap.elems,
          less x.rank e.rank = false) ∧
        pqLen (pqPop less (pqApplyAll less ops)).2 =
          pqLen (pqApplyAll less ops) - 1 ∧
        (∀ x, x ∈ (pqPop less (pqApplyAll less ops)).2.heap.elems ↔
          (x ∈ (pqApplyAll less ops).heap.elems ∧ x.key ≠ e.key))) := by
  have hinv := pqInv_applyAll hl ops
  constructor
  · intro h0
    exact pqPop_empty (List.length_eq_zero.mp h0)
  · intro hne
    have hne' : (pqApplyAll less ops).heap.elems ≠ [] := by
      intro h
      exact hne (by simp [pqLen, h])
    obtain ⟨e, he0, h1, h2, h3, h4, _⟩ := pqPop_spec hl hinv hne'
    refine ⟨e, ?_, h1, h2, h3, h4⟩
    rw [he0]
    refine mem_of_elAt ?_
    have := List.length_pos.mpr hne'
    omega

/-- Witness for C8 on the natural-number comparator with a concrete
Push and Update sequence. -/
theorem pqPop_min_after_ops_witness :
    ∃ e : Element Nat Nat Nat,
      e ∈ (pqApplyAll (fun a b : Nat => decide (a < b))
        [PQOp.push 1 10 5, PQOp.push 2 20 3, PQOp.update 1 2]).heap.elems ∧
      (pqPop (fun a b : Nat => decide (a < b))
        (pqApplyAll (fun a b : Nat => decide (a < b))
          [PQOp.push 1 10 5, PQOp.push 2 20 3, PQOp.update 1 2])).1 =
        (e.key, e.value, e.rank, true) ∧
      (∀ x ∈ (pqApplyAll (fun a b : Nat => decide (a < b))
          [PQOp.push 1 10 5, PQOp.push 2 20 3, PQOp.update 1 2]).heap.elems,
        (fun a b : Nat => decide (a < b)) x.rank e.rank = false) ∧
      pqLen (pqPop (fun a b : Nat => decide (a < b))
        (pqApplyAll (fun a b : Nat => decide (a < b))
          [PQOp.push 1 10 5, PQOp.push 2 20 3, PQOp.update 1 2])).2 =
        pqLen (pqApplyAll (fun a b : Nat => decide (a < b))
          [PQOp.push 1 10 5, PQOp.push 2 20 3, PQOp.update 1 2]) - 1 ∧
      (∀ x, x ∈ (pqPop (fun a b : Nat => decide (a < b))
          (pqApplyAll (fun a b : Nat => decide (a < b))
            [PQOp.push 1 10 5, PQOp.push 2 20 3,
              PQOp.update 1 2])).2.heap.elems ↔
        (x ∈ (pqApplyAll (fun a b : Nat => decide (a < b))
          [PQOp.push 1 10 5, PQOp.push 2 20 3,
            PQOp.update 1 2]).heap.elems ∧ x.key ≠ e.key)) := by
  have hl : LessOK (fun a b : Nat => decide (a < b)) := by
    constructor
    · intro a b h
      simp only [decide_eq_true_eq] at h
      simp only [decide_eq_false_iff_not]
      omega
    · intro a b c h1 h2
      simp only [decide_eq_false_iff_not] at h1 h2
      simp only [decide_eq_false_iff_not]
      omega
  exact (pqPop_min_after_ops (fun a b : Nat => decide (a < b)) hl
    [PQOp.push 1 10 5, PQOp.push 2 20 3, PQOp.update 1 2]).2 (by decide)

/-!
## The adjacency store (src/representation.go)

Go maps become association lists, the endpoint linked chains become
lists (prepending at the chain head is consing), nil chains are empty
lists.  Weights are embedded as integers.  Errors are drawn from one
inductive type covering both the fmt.Errorf messages of the adjacency
store and the sentinel errors of error.go.
-/

/-- Error values of the library (error.go sentinels and the formatted
not-exists errors of representation.go, which IsNotExists treats
alike). -/
inductive GErr where
  | vertexNotExists
  | vertexExists
  | edgeNotExists
  | edgeExists
  | unknownProperty
  | notDigraph
  | notConnected
  | emptyGraph
  deriving DecidableEq, Repr

/-- The endpoint chain node of representation.go (neighbour vertex
key, edge key, weight); the next pointer is the list structure. -/
structure EndP (K : Type) where
  key : K
  edge : K
  weight : Int
  deriving DecidableEq, Repr

/-- The adjacencyList record: out-adjacency map, and in-adjacency map
used only when the graph is directed. -/
structure AdjList (K : Type) where
  digraph : Bool
  outAdj : List (K × List (EndP K))
  inAdj : List (K × List (EndP K))
  deriving Repr

/-- Embeds newAdjacencyLis (representation.go lines 224-233). -/
def newAdjacencyLis (K : Type) (digraph : Bool) : AdjList K :=
  ⟨digraph, [], []⟩

/-- Embeds adjacencyList.addVertexes for one vertex
(representation.go lines 272-284). -/
def adjAddVertex {K : Type} [DecidableEq K] (l : AdjList K) (v : K) :
    AdjList K :=
  let out := if (alookup v l.outAdj).isSome then l.outAdj
             else aset v [] l.outAdj
  let inA := if l.digraph then
               (if (alookup v l.inAdj).isSome then l.inAdj
                else aset v [] l.inAdj)
             else l.inAdj
  ⟨l.digraph, out, inA⟩

/-- The in-place weight update scan of the insert closure inside
adjacencyList.addEdge (representation.go lines 344-351): updates the
first chain node matching both the neighbour and the edge key, and
reports whether one was found. -/
def chainUpdate {K : Type} [DecidableEq K] (v2 edg : K) (w : Int) :
    List (EndP K) → Bool × List (EndP K)
  | [] => (false, [])
  | q :: rest =>
      if q.key = v2 ∧ q.edge = edg then (true, { q with weight := w } :: rest)
      else
        let r := chainUpdate v2 edg w rest
        (r.1, q :: r.2)

/-- The insert closure of adjacencyList.addEdge (representation.go
lines 339-364): fails when the source vertex is missing, otherwise
updates an existing chain node in place or prepends a fresh one. -/
def adjInsert {K : Type} [DecidableEq K] (v1 v2 edg : K) (w : Int)
    (adj : List (K × List (EndP K))) :
    Except GErr (List (K × List (EndP K))) :=
  match alookup v1 adj with
  | none => Except.error GErr.vertexNotExists
  | some chain =>
      let r := chainUpdate v2 edg w chain
      if r.1 then Except.ok (aset v1 r.2 adj)
      else Except.ok (aset v1 (⟨v2, edg, w⟩ :: chain) adj)

/-- Embeds adjacencyList.addEdge (representation.go lines 338-380).
The Go receiver mutates its maps in place, so a failing second insert
leaves the first insert visible; the returned state reflects that. -/
def adjAddEdge {K : Type} [DecidableEq K] (l : AdjList K)
    (head tail key : K) (w : Int) : Option GErr × AdjList K :=
  match adjInsert head tail key w l.outAdj with
  | Except.error e => (some e, l)
  | Except.ok out1 =>
      if l.digraph then
        match adjInsert tail head key w l.inAdj with
        | Except.error e => (some e, { l with outAdj := out1 })
        | Except.ok in1 => (none, { l with outAdj := out1, inAdj := in1 })
      else
        match adjInsert tail head key w out1 with
        | Except.error e => (some e, { l with outAdj := out1 })
        | Except.ok out2 => (none, { l with outAdj := out2 })

/-- The removal scan of the del closure inside adjacencyList.delEdge
(representation.go lines 391-410): removes the first chain node
matching the neighbour and edge key, failing when none matches. -/
def chainDel {K : Type} [DecidableEq K] (v2 edg : K) :
    List (EndP K) → Except GErr (List (EndP K))
  | [] => Except.error GErr.edgeNotExists
  | q :: rest =>
      if q.key = v2 ∧ q.edge = edg then Except.ok rest
      else (chainDel v2 edg rest).map (q :: ·)

/-- The del closure of adjacencyList.delEdge (representation.go lines
383-411). -/
def adjDel {K : Type} [DecidableEq K] (v1 v2 edg : K)
    (adj : List (K × List (EndP K))) :
    Except GErr (List (K × List (EndP K))) :=
  match alookup v1 adj with
  | none => Except.error GErr.vertexNotExists
  | some chain =>
      (chainDel v2 edg chain).map (fun c => aset v1 c adj)

/-- Embeds adjacencyList.delEdge (representation.go lines 382-426),
with the same visible-partial-mutation behaviour as addEdge. -/
def adjDelEdge {K : Type} [DecidableEq K] (l : AdjList K)
    (head tail key : K) : Option GErr × AdjList K :=
  match adjDel head tail key l.outAdj with
  | Except.error e => (some e, l)
  | Except.ok out1 =>
      if l.digraph then
        match adjDel tail head key l.inAdj with
        | Except.error e => (some e, { l with outAdj := out1 })
        | Except.ok in1 => (none, { l with outAdj := out1, inAdj := in1 })
      else
        match adjDel tail head key out1 with
        | Except.error e => (some e, { l with outAdj := out1 })
        | Except.ok out2 => (none, { l with outAdj := out2 })

/-- Embeds adjacencyList.delVertex (representation.go lines 286-322):
removes the vertex entry and splices every chain node that references
it out of the remaining chains. -/
def adjDelVertex {K : Type} [DecidableEq K] (l : AdjList K) (v : K) :
    AdjList K :=
  let del := fun (adj : List (K × List (EndP K))) =>
    (aremove v adj).map (fun p => (p.1, p.2.filter (fun q => ¬ q.key = v)))
  ⟨l.digraph, del l.outAdj, if l.digraph then del l.inAdj else l.inAdj⟩

/-- Embeds adjacencyList.outDegree (representation.go lines 469-479):
the length of the out-chain. -/
def adjOutDegree {K : Type} [DecidableEq K] (l : AdjList K) (v : K) :
    Except GErr Nat :=
  match alookup v l.outAdj with
  | none => Except.error GErr.vertexNotExists
  | some chain => Except.ok chain.length

/-- Embeds adjacencyList.inDegree (representation.go lines 481-497). -/
def adjInDegree {K : Type} [DecidableEq K] (l : AdjList K) (v : K) :
    Except GErr Nat :=
  match alookup v (if l.digraph then l.inAdj else l.outAdj) with
  | none => Except.error GErr.vertexNotExists
  | some chain => Except.ok chain.length

/-- Embeds adjacencyList.degree (representation.go lines 454-467). -/
def adjDegree {K : Type} [DecidableEq K] (l : AdjList K) (v : K) :
    Except GErr Nat :=
  match adjOutDegree l v with
  | Except.error e => Except.error e
  | Except.ok d =>
      if l.digraph then
        match adjInDegree l v with
        | Except.error e => Except.error e
        | Except.ok dIn => Except.ok (d + dIn)
      else Except.ok d

/-- Embeds adjacencyList.neighbours (representation.go lines 499-523):
the key set of the out-chain, united for directed graphs with the key
set of the in-chain.  The multiple flag is ignored by the source. -/
def adjNeighbours {K : Type} [DecidableEq K] (l : AdjList K) (v : K) :
    Except GErr (List K) :=
  match alookup v l.outAdj with
  | none => Except.error GErr.vertexNotExists
  | some chain =>
      if l.digraph then
        match alookup v l.inAdj with
        | none => Except.error GErr.vertexNotExists
        | some chain2 =>
            Except.ok (((chain.map EndP.key) ++ (chain2.map EndP.key)).eraseDups)
      else Except.ok ((chain.map EndP.key).eraseDups)

/-- Embeds adjacencyList.sources (representation.go lines 605-616):
vertices with a nil in-chain; only defined for directed graphs. -/
def adjSources {K : Type} [DecidableEq K] (l : AdjList K) :
    Except GErr (List K) :=
  if l.digraph then
    Except.ok ((l.inAdj.filter (fun p => p.2.isEmpty)).map Prod.fst)
  else Except.error GErr.notDigraph

/-- Embeds adjacencyList.sinks (representation.go lines 618-629). -/
def adjSinks {K : Type} [DecidableEq K] (l : AdjList K) :
    Except GErr (List K) :=
  if l.digraph then
    Except.ok ((l.outAdj.filter (fun p => p.2.isEmpty)).map Prod.fst)
  else Except.error GErr.notDigraph

/-- Chain keys counted into a Go map (multiplicity per neighbour,
first-occurrence order). -/
def countOcc {K : Type} [DecidableEq K] (ks : List K) : List (K × Nat) :=
  ks.foldl (fun m k =>
    match alookup k m with
    | none => m ++ [(k, 1)]
    | some n => aset k (n + 1) m) []

/-- Embeds adjacencyList.outNeighbours (representation.go lines
553-573). -/
def adjOutNeighbours {K : Type} [DecidableEq K] (l : AdjList K) (v : K)
    (multiple : Bool) : Except GErr (List K) :=
  match alookup v l.outAdj with
  | none => Except.error GErr.vertexNotExists
  | some chain =>
      Except.ok ((countOcc (chain.map EndP.key)).flatMap
        (fun p => if multiple then List.replicate p.2 p.1 else [p.1]))

/-- Embeds adjacencyList.inNeighbours (representation.go lines
525-551). -/
def adjInNeighbours {K : Type} [DecidableEq K] (l : AdjList K) (v : K)
    (multiple : Bool) : Except GErr (List K) :=
  match alookup v (if l.digraph then l.inAdj else l.outAdj) with
  | none => Except.error GErr.vertexNotExists
  | some chain =>
      Except.ok ((countOcc (chain.map EndP.key)).flatMap
        (fun p => if multiple then List.replicate p.2 p.1 else [p.1]))

/-- The inner chain scan of the directed branch of
adjacencyList.isSimple (representation.go lines 836-858). -/
def isSimpleChainD {K : Type} [DecidableEq K] (l : AdjList K) (k : K) :
    List (EndP K) → List (K × Nat) → Bool
  | [], _ => true
  | p :: rest, tails =>
      if p.key = k then false
      else
        let t := (alookup p.key tails).getD 0
        if t ≥ 1 then false
        else
          let inChain := (alookup k l.inAdj).getD []
          if inChain.any (fun q => q.key = p.key) then false
          else isSimpleChainD l k rest (aset p.key (t + 1) tails)

/-- The inner chain scan of the undirected branch of
adjacencyList.isSimple (representation.go lines 861-873). -/
def isSimpleChainU {K : Type} [DecidableEq K] (k : K) :
    List (EndP K) → List K → Bool
  | [], _ => true
  | p :: rest, vs =>
      if p.key = k then false
      else if p.key ∈ vs then false
      else isSimpleChainU k rest (p.key :: vs)

/-- Embeds adjacencyList.isSimple (representation.go lines 834-874). -/
def adjIsSimple {K : Type} [DecidableEq K] (l : AdjList K) : Bool :=
  if l.digraph then
    l.outAdj.all (fun p => isSimpleChainD l p.1 p.2 [])
  else
    l.outAdj.all (fun p => isSimpleChainU p.1 p.2 [])

/-- The loop of adjacencyList.isRegular (representation.go lines
876-892), carrying the first-seen degree (negative = none yet). -/
def adjIsRegularLoop {K : Type} [DecidableEq K] (l : AdjList K) :
    List (K × List (EndP K)) → Int → Except GErr Bool
  | [], _ => Except.ok true
  | (k, _) :: rest, d =>
      match adjDegree l k with
      | Except.error e => Except.error e
      | Except.ok n =>
          if d ≥ 0 then
            if (n : Int) ≠ d then Except.ok false
            else adjIsRegularLoop l rest d
          else adjIsRegularLoop l rest (n : Int)

/-- Embeds adjacencyList.isRegular. -/
def adjIsRegular {K : Type} [DecidableEq K] (l : AdjList K) :
    Except GErr Bool :=
  adjIsRegularLoop l l.outAdj (-1)

/-- Embeds adjacencyList.hasLoop (representation.go lines 898-907). -/
def adjHasLoop {K : Type} [DecidableEq K] (l : AdjList K) : Bool :=
  l.outAdj.any (fun p => p.2.any (fun q => q.key = p.1))

/-- Embeds adjacencyList.hasNegativeWeight (representation.go lines
909-927). -/
def adjHasNegativeWeight {K : Type} (l : AdjList K) : Bool :=
  l.outAdj.any (fun p => p.2.any (fun q => q.weight < 0)) ||
    (l.digraph && l.inAdj.any (fun p => p.2.any (fun q => q.weight < 0)))

/-- Embeds adjacencyList.isUC (representation.go lines 777-794): the
conservative unilateral-connectivity check. -/
def adjIsUC {K : Type} [DecidableEq K] (l : AdjList K) :
    Except GErr Bool :=
  if l.outAdj.isEmpty then Except.ok false
  else
    match adjSources l with
    | Except.error e => Except.error e
    | Except.ok source =>
        match adjSinks l with
        | Except.error e => Except.error e
        | Except.ok sink =>
            Except.ok (decide (source.length ≤ 1 ∧ sink.length ≤ 1))

/-- Builds the in-degree table of adjacencyList.isDAG
(representation.go lines 678-685). -/
def buildInDeg {K : Type} [DecidableEq K] (l : AdjList K) :
    List (K × List (EndP K)) → Except GErr (List (K × Int))
  | [] => Except.ok []
  | (k, _) :: rest =>
      match adjInDegree l k with
      | Except.error e => Except.error e
      | Except.ok d => (buildInDeg l rest).map (aset k (d : Int))

/-- Processing of one batch of zero-in-degree vertices in
adjacencyList.isDAG (representation.go lines 697-711); none signals a
self-loop, which makes the whole check fail. -/
def dagProcess {K : Type} [DecidableEq K] (l : AdjList K) :
    List K → List (K × Int) → Except GErr (Option (List (K × Int)))
  | [], inDeg => Except.ok (some inDeg)
  | k :: rest, inDeg =>
      match adjOutNeighbours l k true with
      | Except.error e => Except.error e
      | Except.ok vs =>
          if k ∈ vs then Except.ok none
          else
            let inDeg1 := vs.foldl
              (fun m v => aset v ((alookup v m).getD 0 - 1) m) inDeg
            dagProcess l rest (aremove k inDeg1)

/-- The Kahn loop of adjacencyList.isDAG (representation.go lines
687-712), fuelled; every round removes at least one key, so any fuel
above the table size is enough (the zero-fuel fallback is never
reached from adjIsDAG). -/
def isDAGF {K : Type} [DecidableEq K] (l : AdjList K) :
    Nat → List (K × Int) → Except GErr Bool
  | _, [] => Except.ok true
  | 0, _ => Except.ok false
  | fuel + 1, inDeg =>
      let ks := (inDeg.filter (fun p => p.2 = 0)).map Prod.fst
      if ks.isEmpty then Except.ok false
      else
        match dagProcess l ks inDeg with
        | Except.error e => Except.error e
        | Except.ok none => Except.ok false
        | Except.ok (some inDeg1) => isDAGF l fuel inDeg1

/-- Embeds adjacencyList.isDAG (representation.go lines 674-714). -/
def adjIsDAG {K : Type} [DecidableEq K] (l : AdjList K) :
    Except GErr Bool :=
  if l.outAdj.isEmpty then Except.ok true
  else
    match buildInDeg l l.outAdj with
    | Except.error e => Except.error e
    | Except.ok inDeg => isDAGF l (inDeg.length + 1) inDeg

/-- The neighbour loop of the undirected acyclicity DFS
(representation.go lines 745-763); none signals a detected cycle.
Go map reads of absent keys yield zero values, modelled by default. -/
def acycProcess {K : Type} [DecidableEq K] [Inhabited K] (v : K) :
    List K → List K → List (K × K) → List (K × Bool) →
      Option (List K × List (K × K))
  | [], st, pr, _ => some (st, pr)
  | k :: rest, st, pr, vis =>
      if k = v then none
      else
        if v ≠ (alookup k pr).getD default ∧ (alookup v pr).getD default ≠ k then
          let pv := (alookup v pr).isSome
          let vk := (alookup k vis).isSome
          if vk ∧ pv then none
          else acycProcess v rest (k :: st) (aset k v pr) vis
        else acycProcess v rest st pr vis

/-- The DFS loop of the undirected branch of adjacencyList.isAcyclic
(representation.go lines 736-773), fuelled (the zero-fuel fallback is
unreachable for the fuel chosen by adjIsAcyclic). -/
def isAcycUF {K : Type} [DecidableEq K] [Inhabited K] (l : AdjList K) :
    Nat → List K → List (K × Bool) → List (K × K) → Except GErr Bool
  | 0, _, _, _ => Except.ok false
  | fuel + 1, st, vis, pr =>
      match st with
      | [] => Except.ok true
      | v :: st1 =>
          let vis1 := if (alookup v vis).isSome then vis else aset v true vis
          match adjNeighbours l v with
          | Except.error e => Except.error e
          | Except.ok vs =>
              match acycProcess v vs st1 pr vis1 with
              | none => Except.ok false
              | some (st2, pr1) =>
                  let st3 :=
                    if st2.isEmpty ∧ vis1.length < l.outAdj.length then
                      match l.outAdj.find?
                          (fun p => ¬ (alookup p.1 vis1).isSome) with
                      | some p => [p.1]
                      | none => st2
                    else st2
                  isAcycUF l fuel st3 vis1 pr1

/-- A generously over-approximated iteration bound for the fuelled
worklist loops of representation.go (all of them terminate in Go). -/
def adjFuel {K : Type} (l : AdjList K) : Nat :=
  let sz := l.outAdj.length + l.inAdj.length +
    (l.outAdj.map (fun p => p.2.length)).sum +
    (l.inAdj.map (fun p => p.2.length)).sum + 2
  sz ^ sz

/-- Embeds adjacencyList.isAcyclic (representation.go lines 716-775). -/
def adjIsAcyclic {K : Type} [DecidableEq K] [Inhabited K]
    (l : AdjList K) : Except GErr Bool :=
  if l.digraph then adjIsDAG l
  else if l.outAdj.isEmpty then Except.ok true
  else
    match l.outAdj with
    | [] => Except.ok true
    | p :: _ => isAcycUF l (adjFuel l) [p.1] [] []

/-- Embeds adjacencyList.isForest (representation.go lines 894-896). -/
def adjIsForest {K : Type} [DecidableEq K] [Inhabited K]
    (l : AdjList K) : Except GErr Bool :=
  adjIsAcyclic l

/-- The BFS loop of adjacencyList.isConnected (representation.go lines
813-827), fuelled: pops the queue head, marks it visited, and appends
its not-yet-visited neighbours; none signals exhausted fuel. -/
def bfsLoopF {K : Type} [DecidableEq K] (l : AdjList K) :
    Nat → List K → List (K × Bool) →
      Except GErr (Option (List (K × Bool)))
  | 0, _, _ => Except.ok none
  | fuel + 1, que, vis =>
      match que with
      | [] => Except.ok (some vis)
      | v :: que1 =>
          let vis1 := if (alookup v vis).isSome then vis else aset v true vis
          match adjNeighbours l v with
          | Except.error e => Except.error e
          | Except.ok vs =>
              bfsLoopF l fuel
                (vs.foldl
                  (fun q u => if (alookup u vis1).isSome then q else q ++ [u])
                  que1)
                vis1

/-- Embeds adjacencyList.isConnected (representation.go lines
796-832): the unidirectional flag routes directed graphs to isUC, and
otherwise a single BFS over the union of out- and in-neighbours must
visit every vertex. -/
def adjIsConnected {K : Type} [DecidableEq K] (l : AdjList K)
    (unidirectional : Bool) : Except GErr Bool :=
  if unidirectional ∧ l.digraph then adjIsUC l
  else if l.outAdj.isEmpty then Except.ok false
  else
    match l.outAdj with
    | [] => Except.ok false
    | p :: _ =>
        match bfsLoopF l (adjFuel l) [p.1] [] with
        | Except.error e => Except.error e
        | Except.ok none => Except.ok false
        | Except.ok (some vis) =>
            Except.ok (decide (vis.length = l.outAdj.length))

/-- The loop of adjacencyList.minDegree (representation.go lines
631-643). -/
def adjMinDegreeLoop {K : Type} [DecidableEq K] (l : AdjList K) :
    List (K × List (EndP K)) → Nat → Except GErr Nat
  | [], minD => Except.ok minD
  | (v, _) :: rest, minD =>
      match adjDegree l v with
      | Except.error e => Except.error e
      | Except.ok d => adjMinDegreeLoop l rest (if d < minD then d else minD)

/-- Embeds adjacencyList.minDegree. -/
def adjMinDegree {K : Type} [DecidableEq K] (l : AdjList K) :
    Except GErr Nat :=
  adjMinDegreeLoop l l.outAdj l.outAdj.length

/-- The loop of adjacencyList.maxDegree (representation.go lines
645-657). -/
def adjMaxDegreeLoop {K : Type} [DecidableEq K] (l : AdjList K) :
    List (K × List (EndP K)) → Nat → Except GErr Nat
  | [], maxD => Except.ok maxD
  | (v, _) :: rest, maxD =>
      match adjDegree l v with
      | Except.error e => Except.error e
      | Except.ok d => adjMaxDegreeLoop l rest (if d > maxD then d else maxD)

/-- Embeds adjacencyList.maxDegree. -/
def adjMaxDegree {K : Type} [DecidableEq K] (l : AdjList K) :
    Except GErr Nat :=
  adjMaxDegreeLoop l l.outAdj l.outAdj.length

/-- The property name constants of src/unnamed/part_002 lines 24-34
(iota order). -/
def pDigraph : Nat := 0
def pAcyclic : Nat := 1
def pSimple : Nat := 2
def pRegular : Nat := 3
def pConnected : Nat := 4
def pForest : Nat := 5
def pLoop : Nat := 6
def pNegativeWeight : Nat := 7
def pUnilateralConnected : Nat := 8

/-- The property record of src/unnamed/part_002 lines 36-40. -/
structure GProperty (T : Type) where
  version : Int
  name : Nat
  value : T
  deriving DecidableEq, Repr

/-- Embeds adjacencyList.property (representation.go lines 929-959). -/
def adjProperty {K : Type} [DecidableEq K] [Inhabited K] (l : AdjList K)
    (p : Nat) : Except GErr (GProperty Bool) :=
  let r : Except GErr Bool :=
    if p = pAcyclic then adjIsAcyclic l
    else if p = pConnected then adjIsConnected l false
    else if p = pUnilateralConnected then adjIsConnected l true
    else if p = pSimple then Except.ok (adjIsSimple l)
    else if p = pRegular then adjIsRegular l
    else if p = pForest then adjIsForest l
    else if p = pNegativeWeight then Except.ok (adjHasNegativeWeight l)
    else if p = pLoop then Except.ok (adjHasLoop l)
    else Except.error GErr.unknownProperty
  match r with
  | Except.error e => Except.error e
  | Except.ok v => Except.ok ⟨0, p, v⟩

/-!
## The graph facade (src/unnamed/part_002)

The graph record holds the version counter, the cached properties, the
vertex and edge maps and the adjacency store.  Vertex and edge payload
values are carried generically; the label maps are not modelled since
no embedded operation reads them.
-/

/-- The Vertex record (key and payload). -/
structure GVertex (K V : Type) where
  key : K
  value : V
  deriving Repr

/-- The Edge record (key, endpoints, weight). -/
structure GEdge (K : Type) where
  key : K
  head : K
  tail : K
  weight : Int
  deriving Repr, DecidableEq

/-- The basicPropertySet record of part_002 lines 50-60. -/
structure BasicPropertySet where
  digraph : Bool
  acyclic : GProperty Bool
  simple : GProperty Bool
  regular : GProperty Bool
  connected : GProperty Bool
  forest : GProperty Bool
  loop : GProperty Bool
  negativeWeight : GProperty Bool
  unilateralConnected : GProperty Bool
  deriving Repr

/-- The graph record of part_002 lines 63-73. -/
structure GraphSt (K V : Type) where
  version : Int
  name : String
  properties : BasicPropertySet
  minDe : GProperty Int
  maxDe : GProperty Int
  avgDe : GProperty Rat
  vertexes : List (K × GVertex K V)
  edges : List (K × GEdge K)
  adjList : AdjList K
  deriving Repr

/-- The zero value of a cached boolean property. -/
def gZeroProp : GProperty Bool := ⟨0, 0, false⟩

/-- Embeds newGraph (part_002 lines 75-91): version starts at 1,
caches start at version 0. -/
def newGraphSt (K V : Type) [DecidableEq K] (digraph : Bool)
    (name : String) : GraphSt K V :=
  { version := 1
    name := name
    properties := ⟨digraph, gZeroProp, gZeroProp, gZeroProp, gZeroProp,
      gZeroProp, gZeroProp, gZeroProp, gZeroProp⟩
    minDe := ⟨0, 0, 0⟩
    maxDe := ⟨0, 0, 0⟩
    avgDe := ⟨0, 0, 0⟩
    vertexes := []
    edges := []
    adjList := newAdjacencyLis K digraph }

/-- Embeds graph.AddVertex (part_002 lines 362-372). -/
def graphAddVertex {K V : Type} [DecidableEq K] (g : GraphSt K V)
    (v : GVertex K V) : Option GErr × GraphSt K V :=
  if (alookup v.key g.vertexes).isSome then (some GErr.vertexExists, g)
  else
    (none, { g with
      adjList := adjAddVertex g.adjList v.key
      vertexes := aset v.key v g.vertexes
      version := g.version + 1 })

/-- Embeds graph.RemoveVertex (part_002 lines 374-394). -/
def graphRemoveVertex {K V : Type} [DecidableEq K] (g : GraphSt K V)
    (key : K) : Option GErr × GraphSt K V :=
  if (alookup key g.vertexes).isSome then
    let adj := adjDelVertex g.adjList key
    let doomed := (g.edges.filter
      (fun p => p.2.head = key ∨ p.2.tail = key)).map Prod.fst
    (none, { g with
      adjList := adj
      edges := doomed.foldl (fun es k => aremove k es) g.edges
      vertexes := aremove key g.vertexes
      version := g.version + 1 })
  else (some GErr.vertexNotExists, g)

/-- Embeds graph.AddEdge (part_002 lines 396-409).  The nil-key
auto-generation branch cannot trigger for value-typed keys and is not
modelled.  A failing adjacency insert leaves the partially mutated
adjacency store behind, exactly as the Go pointer receiver does. -/
def graphAddEdge {K V : Type} [DecidableEq K] (g : GraphSt K V)
    (e : GEdge K) : Option GErr × GraphSt K V :=
  if (alookup e.key g.edges).isSome then (some GErr.edgeExists, g)
  else
    match adjAddEdge g.adjList e.head e.tail e.key e.weight with
    | (some err, l1) => (some err, { g with adjList := l1 })
    | (none, l1) =>
        (none, { g with
          adjList := l1
          edges := aset e.key e g.edges
          version := g.version + 1 })

/-- Embeds graph.RemoveEdgeByKey (part_002 lines 411-422). -/
def graphRemoveEdgeByKey {K V : Type} [DecidableEq K] (g : GraphSt K V)
    (key : K) : Option GErr × GraphSt K V :=
  match alookup key g.edges with
  | none => (some GErr.edgeNotExists, g)
  | some e =>
      match adjDelEdge g.adjList e.head e.tail e.key with
      | (some err, l1) => (some err, { g with adjList := l1 })
      | (none, l1) =>
          (none, { g with
            adjList := l1
            edges := aremove key g.edges
            version := g.version + 1 })

/-- The loop of adjacencyList.delEdges (representation.go lines
445-452), stopping at the first failure. -/
def adjDelEdges {K : Type} [DecidableEq K] (l : AdjList K) :
    List (GEdge K) → Option GErr × AdjList K
  | [] => (none, l)
  | e :: rest =>
      match adjDelEdge l e.head e.tail e.key with
      | (some err, l1) => (some err, l1)
      | (none, l1) => adjDelEdges l1 rest

/-- Embeds graph.RemoveEdge (part_002 lines 424-447). -/
def graphRemoveEdge {K V : Type} [DecidableEq K] (g : GraphSt K V)
    (v1 v2 : K) : Option GErr × GraphSt K V :=
  let es := (g.edges.filter (fun p =>
    (p.2.head = v1 ∧ p.2.tail = v2) ∨
    (g.adjList.digraph ∧ p.2.head = v2 ∧ p.2.tail = v1))).map Prod.snd
  match adjDelEdges g.adjList es with
  | (some err, l1) => (some err, { g with adjList := l1 })
  | (none, l1) =>
      (none, { g with
        adjList := l1
        edges := es.foldl (fun m e => aremove e.key m) g.edges
        version := g.version + 1 })

/-- Embeds graph.Degree (part_002 lines 449-454). -/
def graphDegree {K V : Type} [DecidableEq K] (g : GraphSt K V)
    (key : K) : Except GErr Nat :=
  if (alookup key g.vertexes).isSome then adjDegree g.adjList key
  else Except.error GErr.vertexNotExists

/-- Embeds graph.OutDegree (digraph.go lines 77-79). -/
def graphOutDegree {K V : Type} [DecidableEq K] (g : GraphSt K V)
    (key : K) : Except GErr Nat :=
  adjOutDegree g.adjList key

/-- The error fallback of the cached getters: the discarded error
leaves the zero property, whose version is then set to the current
one. -/
def adjPropertyOrZero {K : Type} [DecidableEq K] [Inhabited K]
    (l : AdjList K) (p : Nat) : GProperty Bool :=
  match adjProperty l p with
  | Except.ok q => q
  | Except.error _ => gZeroProp

/-- Embeds graph.IsSimple (part_002 lines 143-153). -/
def graphIsSimple {K V : Type} [DecidableEq K] [Inhabited K]
    (g : GraphSt K V) : Bool × GraphSt K V :=
  if g.properties.simple.version = g.version then
    (g.properties.simple.value, g)
  else
    let p := { adjPropertyOrZero g.adjList pSimple with version := g.version }
    (p.value, { g with properties := { g.properties with simple := p } })

/-- Embeds graph.HasNegativeWeight (part_002 lines 155-164). -/
def graphHasNegativeWeight {K V : Type} [DecidableEq K] [Inhabited K]
    (g : GraphSt K V) : Bool × GraphSt K V :=
  if g.properties.negativeWeight.version = g.version then
    (g.properties.negativeWeight.value, g)
  else
    let p := { adjPropertyOrZero g.adjList pNegativeWeight with
      version := g.version }
    (p.value,
     { g with properties := { g.properties with negativeWeight := p } })

/-- Embeds graph.IsRegular (part_002 lines 166-175). -/
def graphIsRegular {K V : Type} [DecidableEq K] [Inhabited K]
    (g : GraphSt K V) : Bool × GraphSt K V :=
  if g.properties.regular.version = g.version then
    (g.properties.regular.value, g)
  else
    let p := { adjPropertyOrZero g.adjList pRegular with version := g.version }
    (p.value, { g with properties := { g.properties with regular := p } })

/-- Embeds graph.IsAcyclic (part_002 lines 177-186). -/
def graphIsAcyclic {K V : Type} [DecidableEq K] [Inhabited K]
    (g : GraphSt K V) : Bool × GraphSt K V :=
  if g.properties.acyclic.version = g.version then
    (g.properties.acyclic.value, g)
  else
    let p := { adjPropertyOrZero g.adjList pAcyclic with version := g.version }
    (p.value, { g with properties := { g.properties with acyclic := p } })

/-- Embeds graph.IsConnected (part_002 lines 187-206). -/
def graphIsConnected {K V : Type} [DecidableEq K] [Inhabited K]
    (g : GraphSt K V) (unidirectional : Bool) : Bool × GraphSt K V :=
  if unidirectional ∧ g.adjList.digraph then
    if g.properties.unilateralConnected.version = g.version then
      (g.properties.unilateralConnected.value, g)
    else
      let p := { adjPropertyOrZero g.adjList pUnilateralConnected with
        version := g.version }
      (p.value,
       { g with properties :=
          { g.properties with unilateralConnected := p } })
  else
    if g.properties.connected.version = g.version then
      (g.properties.connected.value, g)
    else
      let p := { adjPropertyOrZero g.adjList pConnected with
        version := g.version }
      (p.value, { g with properties := { g.properties with connected := p } })

/-- Embeds graph.IsForest (part_002 lines 219-228). -/
def graphIsForest {K V : Type} [DecidableEq K] [Inhabited K]
    (g : GraphSt K V) : Bool × GraphSt K V :=
  if g.properties.forest.version = g.version then
    (g.properties.forest.value, g)
  else
    let p := { adjPropertyOrZero g.adjList pForest with version := g.version }
    (p.value, { g with properties := { g.properties with forest := p } })

/-- Embeds graph.HasLoop (part_002 lines 230-239). -/
def graphHasLoop {K V : Type} [DecidableEq K] [Inhabited K]
    (g : GraphSt K V) : Bool × GraphSt K V :=
  if g.properties.loop.version = g.version then
    (g.properties.loop.value, g)
  else
    let p := { adjPropertyOrZero g.adjList pLoop with version := g.version }
    (p.value, { g with properties := { g.properties with loop := p } })

/-- Embeds graph.MinDegree (part_002 lines 249-260): the error path
returns -1 without caching. -/
def graphMinDegree {K V : Type} [DecidableEq K] (g : GraphSt K V) :
    Int × GraphSt K V :=
  if g.minDe.version = g.version then (g.minDe.value, g)
  else
    match adjMinDegree g.adjList with
    | Except.error _ => (-1, g)
    | Except.ok d =>
        ((d : Int), { g with minDe := ⟨g.version, g.minDe.name, (d : Int)⟩ })

/-- Embeds graph.MaxDegree (part_002 lines 262-273). -/
def graphMaxDegree {K V : Type} [DecidableEq K] (g : GraphSt K V) :
    Int × GraphSt K V :=
  if g.maxDe.version = g.version then (g.maxDe.value, g)
  else
    match adjMaxDegree g.adjList with
    | Except.error _ => (-1, g)
    | Except.ok d =>
        ((d : Int), { g with maxDe := ⟨g.version, g.maxDe.name, (d : Int)⟩ })

/-- Embeds graph.AvgDegree (part_002 lines 275-286); the float64
division is modelled over the rationals. -/
def graphAvgDegree {K V : Type} [DecidableEq K] (g : GraphSt K V) :
    Rat × GraphSt K V :=
  if g.avgDe.version = g.version then (g.avgDe.value, g)
  else
    let avg : Rat :=
      if g.vertexes.length ≠ 0 then
        (2 * (g.edges.length : Rat)) / (g.vertexes.length : Rat)
      else 0
    (avg, { g with avgDe := ⟨g.version, g.avgDe.name, avg⟩ })

theorem alookup_aset_other {K : Type} [DecidableEq K] {V : Type}
    {k k' : K} (h : k ≠ k') (v : V) (m : List (K × V)) :
    alookup k (aset k' v m) = alookup k m := by
  induction m with
  | nil => simp [aset, alookup, h]
  | cons p rest ih =>
      by_cases h2 : k' = p.1
      · subst h2
        simp [aset, alookup, h, Ne.symm h]
      · by_cases h3 : k = p.1
        · simp [aset, alookup, h2, h3]
        · simp [aset, alookup, h2, h3, ih]

theorem alookup_isSome_of_mem {K : Type} [DecidableEq K] {V : Type}
    {p : K × V} {m : List (K × V)} (h : p ∈ m) :
    (alookup p.1 m).isSome := by
  induction m with
  | nil => simp at h
  | cons q rest ih =>
      rcases List.mem_cons.mp h with h1 | h1
      · subst h1
        simp [alookup]
      · by_cases h2 : p.1 = q.1
        · simp [alookup, h2]
        · simp [alookup, h2]
          exact ih h1

/-- Directed well-formedness of the adjacency store: every vertex of
the out-adjacency map is present in the in-adjacency map (the facade
maintains this through addVertexes and delVertex). -/
def adjWF {K : Type} [DecidableEq K] (l : AdjList K) : Prop :=
  l.digraph = true → ∀ k, (alookup k l.outAdj).isSome →
    (alookup k l.inAdj).isSome

theorem adjDegree_ok {K : Type} [DecidableEq K] {l : AdjList K}
    (hwf : adjWF l) {v : K} (hv : (alookup v l.outAdj).isSome) :
    ∃ d, adjDegree l v = Except.ok d := by
  rw [adjDegree, adjOutDegree]
  rcases ho : alookup v l.outAdj with _ | chain
  · rw [ho] at hv; simp at hv
  · simp only
    cases hd : l.digraph with
    | false => exact ⟨chain.length, by simp [hd]⟩
    | true =>
        have hin := hwf hd v hv
        rw [adjInDegree, hd]
        rcases hi : alookup v l.inAdj with _ | chain2
        · rw [hi] at hin; simp at hin
        · exact ⟨chain.length + chain2.length, by simp [hd, hi]⟩

theorem adjMinDegreeLoop_ok {K : Type} [DecidableEq K] {l : AdjList K}
    (hwf : adjWF l) :
    ∀ (es : List (K × List (EndP K))) (a : Nat),
      (∀ p ∈ es, (alookup p.1 l.outAdj).isSome) →
      ∃ d, adjMinDegreeLoop l es a = Except.ok d := by
  intro es
  induction es with
  | nil => intro a _; exact ⟨a, rfl⟩
  | cons p rest ih =>
      intro a hmem
      obtain ⟨d0, hd0⟩ := adjDegree_ok hwf (hmem p (by simp))
      rw [adjMinDegreeLoop]
      rw [show p = (p.1, p.2) from rfl] at hd0 ⊢
      rw [hd0]
      exact ih _ (fun q hq => hmem q (by simp [hq]))

theorem adjMaxDegreeLoop_ok {K : Type} [DecidableEq K] {l : AdjList K}
    (hwf : adjWF l) :
    ∀ (es : List (K × List (EndP K))) (a : Nat),
      (∀ p ∈ es, (alookup p.1 l.outAdj).isSome) →
      ∃ d, adjMaxDegreeLoop l es a = Except.ok d := by
  intro es
  induction es with
  | nil => intro a _; exact ⟨a, rfl⟩
  | cons p rest ih =>
      intro a hmem
      obtain ⟨d0, hd0⟩ := adjDegree_ok hwf (hmem p (by simp))
      rw [adjMaxDegreeLoop]
      rw [show p = (p.1, p.2) from rfl] at hd0 ⊢
      rw [hd0]
      exact ih _ (fun q hq => hmem q (by simp [hq]))

theorem adjMinDegree_ok {K : Type} [DecidableEq K] {l : AdjList K}
    (hwf : adjWF l) : ∃ d, adjMinDegree l = Except.ok d :=
  adjMinDegreeLoop_ok hwf l.outAdj l.outAdj.length
    (fun p hp => alookup_isSome_of_mem hp)

theorem adjMaxDegree_ok {K : Type} [DecidableEq K] {l : AdjList K}
    (hwf : adjWF l) : ∃ d, adjMaxDegree l = Except.ok d :=
  adjMaxDegreeLoop_ok hwf l.outAdj l.outAdj.length
    (fun p hp => alookup_isSome_of_mem hp)

/-- Specification of a cached boolean getter: a cache hit (matching
stored version) answers from the cache without touching the state; a
miss recomputes through the adjacency store and stores the result at
the current version, leaving everything else unchanged. -/
def cachedBoolGetterOK {K V : Type} [DecidableEq K] [Inhabited K]
    (getter : GraphSt K V → Bool × GraphSt K V)
    (field : GraphSt K V → GProperty Bool) (code : Nat)
    (g : GraphSt K V) : Prop :=
  ((field g).version = g.version → getter g = ((field g).value, g)) ∧
  ((field g).version ≠ g.version →
    (getter g).1 = (adjPropertyOrZero g.adjList code).value ∧
    field (getter g).2 =
      { adjPropertyOrZero g.adjList code with version := g.version } ∧
    (getter g).2.version = g.version ∧
    (getter g).2.vertexes = g.vertexes ∧
    (getter g).2.edges = g.edges ∧
    (getter g).2.adjList = g.adjList)

/-- C7: every successful structural mutation strictly increases the
version counter, and every cached derived property is served from the
cache exactly when its stored version equals the current version and
is otherwise recomputed and stored at the current version. -/
theorem graph_version_and_cache {K V : Type} [DecidableEq K]
    [Inhabited K] (g : GraphSt K V) (hwf : adjWF g.adjList) :
    (∀ v, (graphAddVertex g v).1 = none →
      g.version < (graphAddVertex g v).2.version) ∧
    (∀ k, (graphRemoveVertex g k).1 = none →
      g.version < (graphRemoveVertex g k).2.version) ∧
    (∀ e, (graphAddEdge g e).1 = none →
      g.version < (graphAddEdge g e).2.version) ∧
    (∀ k, (graphRemoveEdgeByKey g k).1 = none →
      g.version < (graphRemoveEdgeByKey g k).2.version) ∧
    (∀ a b, (graphRemoveEdge g a b).1 = none →
      g.version < (graphRemoveEdge g a b).2.version) ∧
    cachedBoolGetterOK graphIsSimple
      (fun s => s.properties.simple) pSimple g ∧
    cachedBoolGetterOK graphHasNegativeWeight
      (fun s => s.properties.negativeWeight) pNegativeWeight g ∧
    cachedBoolGetterOK graphIsRegular
      (fun s => s.properties.regular) pRegular g ∧
    cachedBoolGetterOK graphIsAcyclic
      (fun s => s.properties.acyclic) pAcyclic g ∧
    cachedBoolGetterOK graphIsForest
      (fun s => s.properties.forest) pForest g ∧
    cachedBoolGetterOK graphHasLoop
      (fun s => s.properties.loop) pLoop g ∧
    cachedBoolGetterOK (graphIsConnected (K := K) (V := V) · false)
      (fun s => s.properties.connected) pConnected g ∧
    (g.adjList.digraph = true →
      cachedBoolGetterOK (graphIsConnected (K := K) (V := V) · true)
        (fun s => s.properties.unilateralConnected)
        pUnilateralConnected g) ∧
    (g.adjList.digraph = false →
      cachedBoolGetterOK (graphIsConnected (K := K) (V := V) · true)
        (fun s => s.properties.connected) pConnected g) ∧
    ((g.minDe.version = g.version →
        graphMinDegree g = (g.minDe.value, g)) ∧
     (g.minDe.version ≠ g.version → ∃ d, adjMinDegree g.adjList =
        Except.ok d ∧ graphMinDegree g = ((d : Int),
          { g with minDe := ⟨g.version, g.minDe.name, (d : Int)⟩ }))) ∧
    ((g.maxDe.version = g.version →
        graphMaxDegree g = (g.maxDe.value, g)) ∧
     (g.maxDe.version ≠ g.version → ∃ d, adjMaxDegree g.adjList =
        Except.ok d ∧ graphMaxDegree g = ((d : Int),
          { g with maxDe := ⟨g.version, g.maxDe.name, (d : Int)⟩ }))) ∧
    ((g.avgDe.version = g.version →
        graphAvgDegree g = (g.avgDe.value, g)) ∧
     (g.avgDe.version ≠ g.version →
        graphAvgDegree g =
          (if g.vertexes.length ≠ 0 then
            (2 * (g.edges.length : Rat)) / (g.vertexes.length : Rat)
          else 0,
          { g with avgDe := ⟨g.version, g.avgDe.name,
            if g.vertexes.length ≠ 0 then
              (2 * (g.edges.length : Rat)) / (g.vertexes.length : Rat)
            else 0⟩ }))) := by
  refine ⟨?_, ?_, ?_, ?_, ?_, ?_, ?_, ?_, ?_, ?_, ?_, ?_, ?_, ?_, ?_, ?_, ?_⟩
  · intro v hsucc
    rw [graphAddVertex] at hsucc ⊢
    by_cases h : (alookup v.key g.vertexes).isSome
    · rw [if_pos h] at hsucc
      simp at hsucc
    · rw [if_neg h]
      simp
  · intro k hsucc
    rw [graphRemoveVertex] at hsucc ⊢
    by_cases h : (alookup k g.vertexes).isSome
    · rw [if_pos h]
      simp
    · rw [if_neg h] at hsucc
      simp at hsucc
  · intro e hsucc
    by_cases h : (alookup e.key g.edges).isSome
    · simp only [graphAddEdge, if_pos h] at hsucc
      simp at hsucc
    · rcases hadd : adjAddEdge g.adjList e.head e.tail e.key e.weight with
        ⟨err, l1⟩
      simp only [graphAddEdge, if_neg h, hadd] at hsucc ⊢
      cases err with
      | some e2 => simp at hsucc
      | none => simp
  · intro k hsucc
    rcases he : alookup k g.edges with _ | e
    · simp only [graphRemoveEdgeByKey, he] at hsucc
      simp at hsucc
    · rcases hdel : adjDelEdge g.adjList e.head e.tail e.key with ⟨err, l1⟩
      simp only [graphRemoveEdgeByKey, he, hdel] at hsucc ⊢
      cases err with
      | some e2 => simp at hsucc
      | none => simp
  · intro a b hsucc
    rw [graphRemoveEdge] at hsucc ⊢
    rcases hdel : adjDelEdges g.adjList ((g.edges.filter (fun p =>
      (p.2.head = a ∧ p.2.tail = b) ∨
      (g.adjList.digraph ∧ p.2.head = b ∧ p.2.tail = a))).map Prod.snd)
      with ⟨err, l1⟩
    rw [hdel] at hsucc ⊢
    cases err with
    | some e2 => simp at hsucc
    | none => simp
  · constructor
    · intro h
      rw [graphIsSimple, if_pos h]
    · intro h
      rw [graphIsSimple, if_neg h]
      exact ⟨rfl, rfl, rfl, rfl, rfl, rfl⟩
  · constructor
    · intro h
      rw [graphHasNegativeWeight, if_pos h]
    · intro h
      rw [graphHasNegativeWeight, if_neg h]
      exact ⟨rfl, rfl, rfl, rfl, rfl, rfl⟩
  · constructor
    · intro h
      rw [graphIsRegular, if_pos h]
    · intro h
      rw [graphIsRegular, if_neg h]
      exact ⟨rfl, rfl, rfl, rfl, rfl, rfl⟩
  · constructor
    · intro h
      rw [graphIsAcyclic, if_pos h]
    · intro h
      rw [graphIsAcyclic, if_neg h]
      exact ⟨rfl, rfl, rfl, rfl, rfl, rfl⟩
  · constructor
    · intro h
      rw [graphIsForest, if_pos h]
    · intro h
      rw [graphIsForest, if_neg h]
      exact ⟨rfl, rfl, rfl, rfl, rfl, rfl⟩
  · constructor
    · intro h
      rw [graphHasLoop, if_pos h]
    · intro h
      rw [graphHasLoop, if_neg h]
      exact ⟨rfl, rfl, rfl, rfl, rfl, rfl⟩
  · simp only [cachedBoolGetterOK]
    constructor
    · intro h
      rw [graphIsConnected, if_neg (by simp), if_pos h]
    · intro h
      rw [graphIsConnected, if_neg (by simp), if_neg h]
      exact ⟨rfl, rfl, rfl, rfl, rfl, rfl⟩
  · intro hdig
    simp only [cachedBoolGetterOK]
    constructor
    · intro h
      rw [graphIsConnected, if_pos (by simp [hdig]), if_pos h]
    · intro h
      rw [graphIsConnected, if_pos (by simp [hdig]), if_neg h]
      exact ⟨rfl, rfl, rfl, rfl, rfl, rfl⟩
  · intro hdig
    simp only [cachedBoolGetterOK]
    constructor
    · intro h
      rw [graphIsConnected, if_neg (by simp [hdig]), if_pos h]
    · intro h
      rw [graphIsConnected, if_neg (by simp [hdig]), if_neg h]
      exact ⟨rfl, rfl, rfl, rfl, rfl, rfl⟩
  · constructor
    · intro h
      rw [graphMinDegree, if_pos h]
    · intro h
      obtain ⟨d, hd⟩ := adjMinDegree_ok hwf
      exact ⟨d, hd, by rw [graphMinDegree, if_neg h, hd]⟩
  · constructor
    · intro h
      rw [graphMaxDegree, if_pos h]
    · intro h
      obtain ⟨d, hd⟩ := adjMaxDegree_ok hwf
      exact ⟨d, hd, by rw [graphMaxDegree, if_neg h, hd]⟩
  · constructor
    · intro h
      rw [graphAvgDegree, if_pos h]
    · intro h
      rw [graphAvgDegree, if_neg h]

/-- Witness for C7 on a concrete undirected graph over keys Fin 3
with one vertex, cold caches (stored version 0 against version 2). -/
theorem graph_version_and_cache_witness :
    ∃ g : GraphSt (Fin 3) Unit, adjWF g.adjList ∧
      ((∀ v, (graphAddVertex g v).1 = none →
        g.version < (graphAddVertex g v).2.version) ∧
       (∀ k, (graphRemoveVertex g k).1 = none →
        g.version < (graphRemoveVertex g k).2.version) ∧
       (∀ e, (graphAddEdge g e).1 = none →
        g.version < (graphAddEdge g e).2.version) ∧
       (∀ k, (graphRemoveEdgeByKey g k).1 = none →
        g.version < (graphRemoveEdgeByKey g k).2.version) ∧
       (∀ a b, (graphRemoveEdge g a b).1 = none →
        g.version < (graphRemoveEdge g a b).2.version) ∧
       cachedBoolGetterOK graphIsSimple
        (fun s => s.properties.simple) pSimple g ∧
       cachedBoolGetterOK graphHasNegativeWeight
        (fun s => s.properties.negativeWeight) pNegativeWeight g ∧
       cachedBoolGetterOK graphIsRegular
        (fun s => s.properties.regular) pRegular g ∧
       cachedBoolGetterOK graphIsAcyclic
        (fun s => s.properties.acyclic) pAcyclic g ∧
       cachedBoolGetterOK graphIsForest
        (fun s => s.properties.forest) pForest g ∧
       cachedBoolGetterOK graphHasLoop
        (fun s => s.properties.loop) pLoop g ∧
       cachedBoolGetterOK (graphIsConnected (K := Fin 3) (V := Unit) · false)
        (fun s => s.properties.connected) pConnected g ∧
       (g.adjList.digraph = true →
        cachedBoolGetterOK (graphIsConnected (K := Fin 3) (V := Unit) · true)
          (fun s => s.properties.unilateralConnected)
          pUnilateralConnected g) ∧
       (g.adjList.digraph = false →
        cachedBoolGetterOK (graphIsConnected (K := Fin 3) (V := Unit) · true)
          (fun s => s.properties.connected) pConnected g) ∧
       ((g.minDe.version = g.version →
          graphMinDegree g = (g.minDe.value, g)) ∧
        (g.minDe.version ≠ g.version → ∃ d, adjMinDegree g.adjList =
          Except.ok d ∧ graphMinDegree g = ((d : Int),
            { g with minDe := ⟨g.version, g.minDe.name, (d : Int)⟩ }))) ∧
       ((g.maxDe.version = g.version →
          graphMaxDegree g = (g.maxDe.value, g)) ∧
        (g.maxDe.version ≠ g.version → ∃ d, adjMaxDegree g.adjList =
          Except.ok d ∧ graphMaxDegree g = ((d : Int),
            { g with maxDe := ⟨g.version, g.maxDe.name, (d : Int)⟩ }))) ∧
       ((g.avgDe.version = g.version →
          graphAvgDegree g = (g.avgDe.value, g)) ∧
        (g.avgDe.version ≠ g.version →
          graphAvgDegree g =
            (if g.vertexes.length ≠ 0 then
              (2 * (g.edges.length : Rat)) / (g.vertexes.length : Rat)
            else 0,
            { g with avgDe := ⟨g.version, g.avgDe.name,
              if g.vertexes.length ≠ 0 then
                (2 * (g.edges.length : Rat)) / (g.vertexes.length : Rat)
              else 0⟩ })))) := by
  refine ⟨(graphAddVertex (newGraphSt (Fin 3) Unit false "w") ⟨0, ()⟩).2,
    ?_, ?_⟩
  · intro h
    exact absurd h (by decide)
  · exact graph_version_and_cache _ (by intro h; exact absurd h (by decide))

theorem chainUpdate_nomatch {K : Type} [DecidableEq K] {v k : K} {w : Int}
    {chain : List (EndP K)} (h : ∀ q ∈ chain, ¬ q.edge = k) :
    chainUpdate v k w chain = (false, chain) := by
  induction chain with
  | nil => rfl
  | cons q rest ih =>
      rw [chainUpdate, if_neg (fun hc => h q (by simp) hc.2)]
      simp [ih (fun q2 hq => h q2 (by simp [hq]))]

/-- C10: AddEdge of an edge from a present head to an absent tail
fails with vertexNotExists but is not atomic: the edge map, the
version counter and the vertex map are unchanged, yet the endpoint
already inserted into the head's out-chain stays, so OutDegree and
Degree of the head grow by one. -/
theorem graphAddEdge_not_atomic {K V : Type} [DecidableEq K]
    (g : GraphSt K V) (u v k : K) (w : Int)
    (hkc : ∀ q ∈ (alookup u g.adjList.outAdj).getD [], ¬ q.edge = k)
    (hu : (alookup u g.vertexes).isSome)
    (huo : (alookup u g.adjList.outAdj).isSome)
    (hui : g.adjList.digraph = true → (alookup u g.adjList.inAdj).isSome)
    (hv : alookup v g.vertexes = none)
    (hvo : alookup v g.adjList.outAdj = none)
    (hvi : g.adjList.digraph = true → alookup v g.adjList.inAdj = none)
    (hk : alookup k g.edges = none) :
    (graphAddEdge g ⟨k, u, v, w⟩).1 = some GErr.vertexNotExists ∧
    (graphAddEdge g ⟨k, u, v, w⟩).2.edges = g.edges ∧
    (graphAddEdge g ⟨k, u, v, w⟩).2.version = g.version ∧
    (graphAddEdge g ⟨k, u, v, w⟩).2.vertexes = g.vertexes ∧
    (∃ d, graphOutDegree g u = Except.ok d ∧
      graphOutDegree (graphAddEdge g ⟨k, u, v, w⟩).2 u =
        Except.ok (d + 1)) ∧
    (∃ d, graphDegree g u = Except.ok d ∧
      graphDegree (graphAddEdge g ⟨k, u, v, w⟩).2 u =
        Except.ok (d + 1)) := by
  have hvu : v ≠ u := by
    intro hh
    subst hh
    rw [hv] at hu
    simp at hu
  rcases ho : alookup u g.adjList.outAdj with _ | chain
  · rw [ho] at huo
    simp at huo
  rw [ho] at hkc
  have hnom : chainUpdate v k w chain = (false, chain) :=
    chainUpdate_nomatch (fun q hq => hkc q hq)
  have hins1 : adjInsert u v k w g.adjList.outAdj =
      Except.ok (aset u (⟨v, k, w⟩ :: chain) g.adjList.outAdj) := by
    simp only [adjInsert, ho, hnom]
    simp
  have hadd : adjAddEdge g.adjList u v k w =
      (some GErr.vertexNotExists,
       { g.adjList with
          outAdj := aset u (⟨v, k, w⟩ :: chain) g.adjList.outAdj }) := by
    cases hd : g.adjList.digraph with
    | true =>
        have hins2 : adjInsert v u k w g.adjList.inAdj =
            Except.error GErr.vertexNotExists := by
          simp only [adjInsert, hvi hd]
        simp only [adjAddEdge, hins1, hd, hins2]
        simp
    | false =>
        have hl : alookup v (aset u (⟨v, k, w⟩ :: chain) g.adjList.outAdj) =
            alookup v g.adjList.outAdj :=
          alookup_aset_other hvu _ _
        have hins2 : adjInsert v u k w
            (aset u (⟨v, k, w⟩ :: chain) g.adjList.outAdj) =
            Except.error GErr.vertexNotExists := by
          simp only [adjInsert, hl, hvo]
        simp only [adjAddEdge, hins1, hd, hins2]
        simp
  have hmain : graphAddEdge g ⟨k, u, v, w⟩ =
      (some GErr.vertexNotExists,
       { g with adjList := { g.adjList with
          outAdj := aset u (⟨v, k, w⟩ :: chain) g.adjList.outAdj } }) := by
    simp [graphAddEdge, hk, hadd]
  refine ⟨by rw [hmain], by rw [hmain], by rw [hmain], by rw [hmain],
    ?_, ?_⟩
  · refine ⟨chain.length, ?_, ?_⟩
    · simp [graphOutDegree, adjOutDegree, ho]
    · rw [hmain]
      simp [graphOutDegree, adjOutDegree, alookup_aset_self]
  · cases hd : g.adjList.digraph with
    | false =>
        refine ⟨chain.length, ?_, ?_⟩
        · simp [graphDegree, hu, adjDegree, adjOutDegree, ho, hd]
        · rw [hmain]
          simp [graphDegree, hu, adjDegree, adjOutDegree,
            alookup_aset_self, hd]
    | true =>
        have hin := hui hd
        rcases hi : alookup u g.adjList.inAdj with _ | chain2
        · rw [hi] at hin
          simp at hin
        refine ⟨chain.length + chain2.length, ?_, ?_⟩
        · simp [graphDegree, hu, adjDegree, adjOutDegree, adjInDegree,
            ho, hi, hd]
        · rw [hmain]
          simp [graphDegree, hu, adjDegree, adjOutDegree, adjInDegree,
            alookup_aset_self, hi, hd]
          omega

/-- Witness for C10: a directed graph over keys Fin 3 holding only
vertex 0; adding edge 2 from vertex 0 to the absent vertex 1 fails yet
bumps the degree of vertex 0. -/
theorem graphAddEdge_not_atomic_witness :
    ∃ g : GraphSt (Fin 3) Unit,
      (graphAddEdge g ⟨2, 0, 1, 5⟩).1 = some GErr.vertexNotExists ∧
      (graphAddEdge g ⟨2, 0, 1, 5⟩).2.edges = g.edges ∧
      (graphAddEdge g ⟨2, 0, 1, 5⟩).2.version = g.version ∧
      (graphAddEdge g ⟨2, 0, 1, 5⟩).2.vertexes = g.vertexes ∧
      (∃ d, graphOutDegree g 0 = Except.ok d ∧
        graphOutDegree (graphAddEdge g ⟨2, 0, 1, 5⟩).2 0 =
          Except.ok (d + 1)) ∧
      (∃ d, graphDegree g 0 = Except.ok d ∧
        graphDegree (graphAddEdge g ⟨2, 0, 1, 5⟩).2 0 =
          Except.ok (d + 1)) := by
  refine ⟨(graphAddVertex (newGraphSt (Fin 3) Unit true "w") ⟨0, ()⟩).2,
    graphAddEdge_not_atomic _ 0 1 2 5 ?_ ?_ ?_ ?_ ?_ ?_ ?_ ?_⟩
  · intro q hq
    have hq2 : q ∈ ([] : List (EndP (Fin 3))) := hq
    simp at hq2
  · decide
  · decide
  · intro _
    decide
  · rfl
  · rfl
  · intro _
    rfl
  · rfl

/-- Modelled from the spec: getMaxValue is referenced by tree.go and
path.go but its source file is not in src/; the spec describes it as
the maximum of the weight type, which for 64-bit integer weights is
2^63-1. -/
def getMaxValue : Int := 9223372036854775807

/-- Embeds IsNotExists (error.go lines 34-36): the substring test
holds exactly for the two sentinels whose message contains
"not exists". -/
def isNotExistsErr : GErr → Bool
  | GErr.vertexNotExists => true
  | GErr.edgeNotExists => true
  | _ => false

/-- Embeds graph.AllVertexes (part_002 lines 331-343): a copy of the
vertex map's values, in model order. -/
def gAllVertexes {K V : Type} [DecidableEq K] (g : GraphSt K V) :
    Except GErr (List (GVertex K V)) :=
  Except.ok (g.vertexes.map Prod.snd)

/-- Embeds graph.GetEdge (part_002 lines 484-506): the stored edges
joining the two vertices, reversed orientation admitted for
undirected graphs; an empty selection is the edgeNotExists error. -/
def gGetEdge {K V : Type} [DecidableEq K] (g : GraphSt K V)
    (v1 v2 : K) : Except GErr (List (GEdge K)) :=
  let es := (g.edges.filter (fun p =>
    decide ((p.2.head = v1 ∧ p.2.tail = v2) ∨
      (g.adjList.digraph = false ∧ p.2.head = v2 ∧ p.2.tail = v1)))).map
    Prod.snd
  if es.length = 0 then Except.error GErr.edgeNotExists else Except.ok es

/-- The scan loop of getMinWeightEdge (path.go lines 77-96): keeps the
lightest matching edge; for undirected graphs the recorded copy has
its endpoints reoriented to the query order. -/
def gmweScan {K : Type} [DecidableEq K] (dig : Bool) (v1 v2 : K) :
    List (GEdge K) → Option (GEdge K) × Int → Option (GEdge K) × Int
  | [], acc => acc
  | e :: rest, (edge, w) =>
      if dig then
        if e.head = v1 ∧ e.tail = v2 ∧ e.weight < w then
          gmweScan dig v1 v2 rest (some e, e.weight)
        else gmweScan dig v1 v2 rest (edge, w)
      else
        if e.weight < w then
          gmweScan dig v1 v2 rest
            (some { e with head := v1, tail := v2 }, e.weight)
        else gmweScan dig v1 v2 rest (edge, w)

/-- Embeds getMinWeightEdge (path.go lines 70-98): a "not exists"
GetEdge error is swallowed, leaving an empty scan that reports no edge
and the maximal weight. -/
def getMinWeightEdge {K V : Type} [DecidableEq K] (g : GraphSt K V)
    (v1 v2 : K) : Except GErr (Option (GEdge K) × Int) :=
  match gGetEdge g v1 v2 with
  | Except.error e =>
      if isNotExistsErr e then Except.ok (none, getMaxValue)
      else Except.error e
  | Except.ok es =>
      Except.ok (gmweScan g.adjList.digraph v1 v2 es (none, getMaxValue))

/-- The comparator closure passed by mstPrimWithPQ (tree.go line
129). -/
def intLess (p1 p2 : Int) : Bool := decide (p1 < p2)

/-- The unvisited-neighbour scan inside the Prim loop (tree.go lines
145-154): lowers the cost of each unvisited vertex joined to u by a
lighter edge and records u as its parent. -/
def mstInner {K V : Type} [DecidableEq K] [Inhabited K] (g : GraphSt K V)
    (u : K) : List K → List (K × K) × PriorityQueue K Int Int →
    Except GErr (List (K × K) × PriorityQueue K Int Int)
  | [], st => Except.ok st
  | v :: rest, (prev, cost) =>
      match getMinWeightEdge g u v with
      | Except.error e => Except.error e
      | Except.ok (_, w) =>
          if w < pqGet cost v then
            mstInner g u rest (aset v u prev, pqUpdate intLess cost v w)
          else mstInner g u rest (prev, cost)

/-- The main loop of mstPrimWithPQ (tree.go lines 135-168), fuelled;
the Go loop pops one element per iteration, so the caller's fuel of
queue length plus one is never exhausted. -/
def mstLoopF {K V : Type} [DecidableEq K] [Inhabited K] (g : GraphSt K V) :
    Nat → PriorityQueue K Int Int → List K → List (K × K) → List K →
    List (GEdge K) → Int → Except GErr (List K × List (GEdge K) × Int)
  | 0, _, _, _, keys, edges, wT => Except.ok (keys, edges, wT)
  | fuel + 1, cost, unvisited, prev, keys, edges, wT =>
      if pqLen cost = 0 then Except.ok (keys, edges, wT)
      else
        match pqPop intLess cost with
        | ((u, _, c, _), cost1) =>
            if c = getMaxValue then Except.error GErr.notConnected
            else
              match mstInner g u (unvisited.erase u) (prev, cost1) with
              | Except.error e => Except.error e
              | Except.ok (prev1, cost2) =>
                  let v := (alookup u prev1).getD default
                  if v ≠ u then
                    match getMinWeightEdge g u v with
                    | Except.error e => Except.error e
                    | Except.ok (eo, _) =>
                        mstLoopF g fuel cost2 (unvisited.erase u) prev1
                          (keys ++ [u]) (edges ++ eo.toList) (wT + c)
                  else
                    mstLoopF g fuel cost2 (unvisited.erase u) prev1
                      (keys ++ [u]) edges (wT + c)

/-- Embeds mstPrimWithPQ (tree.go lines 111-170). -/
def mstPrimWithPQ {K V : Type} [DecidableEq K] [Inhabited K]
    (g : GraphSt K V) : Except GErr (List K × List (GEdge K) × Int) :=
  match gAllVertexes g with
  | Except.error e => Except.error e
  | Except.ok vertexes =>
      if vertexes.length = 0 then Except.error GErr.emptyGraph
      else
        let cost0 := vertexes.foldl
          (fun q v => pqPush intLess q v.key 0 getMaxValue)
          (newPriorityQueue intLess)
        let cost := pqUpdate intLess cost0
          ((vertexes.head?.map GVertex.key).getD default) 0
        mstLoopF g (pqLen cost + 1) cost (vertexes.map GVertex.key) [] []
          [] 0

/-- Embeds MinWeightSpanningTree (tree.go lines 355-358): the edge set
and weight sum of the Prim run. -/
def MinWeightSpanningTree {K V : Type} [DecidableEq K] [Inhabited K]
    (g : GraphSt K V) : Except GErr (List (GEdge K) × Int) :=
  (mstPrimWithPQ g).map (fun r => (r.2.1, r.2.2))

/-- Two vertices are joined when some stored edge has them as its
endpoints in either orientation (the undirected reading of the edge
map, matching the GetEdge filter). -/
def edgeAdj {K V : Type} (g : GraphSt K V) (a b : K) : Prop :=
  ∃ p ∈ g.edges, (p.2.head = a ∧ p.2.tail = b) ∨
    (p.2.head = b ∧ p.2.tail = a)

theorem lessOK_intLess : LessOK intLess := by
  constructor
  · intro a b h
    simp only [intLess, decide_eq_true_eq] at h
    simp only [intLess, decide_eq_false_iff_not]
    omega
  · intro a b c h1 h2
    simp only [intLess, decide_eq_false_iff_not] at h1 h2
    simp only [intLess, decide_eq_false_iff_not]
    omega

theorem getMinWeightEdge_ok {K V : Type} [DecidableEq K]
    (g : GraphSt K V) (v1 v2 : K) :
    ∃ r, getMinWeightEdge g v1 v2 = Except.ok r := by
  rw [getMinWeightEdge, gGetEdge]
  by_cases h : ((g.edges.filter (fun p =>
      decide ((p.2.head = v1 ∧ p.2.tail = v2) ∨
        (g.adjList.digraph = false ∧ p.2.head = v2 ∧ p.2.tail = v1)))).map
      Prod.snd).length = 0
  · rw [if_pos h]
    exact ⟨(none, getMaxValue), rfl⟩
  · rw [if_neg h]
    exact ⟨_, rfl⟩

theorem gGetEdge_adj {K V : Type} [DecidableEq K] {g : GraphSt K V}
    {v1 v2 : K} {es : List (GEdge K)}
    (h : gGetEdge g v1 v2 = Except.ok es) : edgeAdj g v1 v2 := by
  rw [gGetEdge] at h
  set fl := (g.edges.filter (fun p =>
    decide ((p.2.head = v1 ∧ p.2.tail = v2) ∨
      (g.adjList.digraph = false ∧ p.2.head = v2 ∧ p.2.tail = v1)))).map
    Prod.snd with hfl
  by_cases hz : fl.length = 0
  · rw [if_pos hz] at h
    exact absurd h (by simp)
  · have hne : fl ≠ [] := by
      intro hh
      rw [hh] at hz
      simp at hz
    rcases fl with _ | ⟨e, rest⟩
    · exact absurd rfl hne
    · have hmem : e ∈ (g.edges.filter (fun p =>
          decide ((p.2.head = v1 ∧ p.2.tail = v2) ∨
            (g.adjList.digraph = false ∧ p.2.head = v2 ∧
              p.2.tail = v1)))).map Prod.snd := by
        rw [← hfl]
        simp
      obtain ⟨p, hp, hpe⟩ := List.mem_map.mp hmem
      have hcond := List.of_mem_filter hp
      have hpm := List.mem_of_mem_filter hp
      simp only [decide_eq_true_eq] at hcond
      rcases hcond with ⟨h1, h2⟩ | ⟨_, h1, h2⟩
      · exact ⟨p, hpm, Or.inl ⟨h1, h2⟩⟩
      · exact ⟨p, hpm, Or.inr ⟨h1, h2⟩⟩

theorem getMinWeightEdge_lt_adj {K V : Type} [DecidableEq K]
    {g : GraphSt K V} {v1 v2 : K} {eo : Option (GEdge K)} {w : Int}
    (h : getMinWeightEdge g v1 v2 = Except.ok (eo, w))
    (hw : w < getMaxValue) : edgeAdj g v1 v2 := by
  rcases hge : gGetEdge g v1 v2 with e | es
  · simp only [getMinWeightEdge, hge] at h
    by_cases hne : isNotExistsErr e = true
    · rw [if_pos hne] at h
      have h2 := Except.ok.inj h
      have h3 := congrArg Prod.snd h2
      simp only at h3
      omega
    · rw [if_neg hne] at h
      exact absurd h (by simp)
  · exact gGetEdge_adj hge

theorem pqLen_update {K V P : Type} [DecidableEq K] [Inhabited K]
    [Inhabited V] [Inhabited P] (less : P → P → Bool)
    (q : PriorityQueue K V P) (k : K) (p : P) :
    pqLen (pqUpdate less q k p) = pqLen q := by
  rw [pqUpdate]
  rcases hf : pqFind q.heap.elems k with _ | i
  · rfl
  · simp only [pqLen, heapShift_length, List.length_set]

theorem pqUpdate_mem {K V P : Type} [DecidableEq K] [Inhabited K]
    [Inhabited V] [Inhabited P] {less : P → P → Bool}
    {q : PriorityQueue K V P} {k : K} {p : P} :
    ∀ x ∈ (pqUpdate less q k p).heap.elems,
      x ∈ q.heap.elems ∨ (x.key = k ∧ x.rank = p) := by
  intro x hx
  rw [pqUpdate] at hx
  rcases hf : pqFind q.heap.elems k with _ | i
  · rw [hf] at hx
    exact Or.inl hx
  · rw [hf] at hx
    simp only at hx
    obtain ⟨hlt, hkey⟩ := pqFind_some hf
    rw [mem_heapShift] at hx
    obtain ⟨n, hn, hne⟩ := mem_iff_elAt.mp hx
    rw [List.length_set] at hn
    by_cases hni : n = i
    · subst hni
      rw [elAt_set_self _ hn] at hne
      right
      rw [← hne]
      exact ⟨hkey, rfl⟩
    · rw [elAt_set_other _ (Ne.symm hni)] at hne
      left
      exact hne ▸ mem_of_elAt hn

theorem pqUpdate_key_mem {K V P : Type} [DecidableEq K] [Inhabited K]
    [Inhabited V] [Inhabited P] {less : P → P → Bool}
    {q : PriorityQueue K V P} {k : K} {p : P} :
    ∀ x ∈ q.heap.elems,
      ∃ y ∈ (pqUpdate less q k p).heap.elems, y.key = x.key := by
  intro x hx
  rw [pqUpdate]
  rcases hf : pqFind q.heap.elems k with _ | i
  · exact ⟨x, hx, rfl⟩
  · simp only
    obtain ⟨hlt, hkey⟩ := pqFind_some hf
    obtain ⟨n, hn, hne⟩ := mem_iff_elAt.mp hx
    by_cases hni : n = i
    · subst hni
      refine ⟨{ elAt q.heap.elems n with rank := p }, ?_, ?_⟩
      · rw [mem_heapShift]
        exact mem_iff_elAt.mpr ⟨n, by rw [List.length_set]; exact hn,
          elAt_set_self _ hn⟩
      · rw [← hne]
    · refine ⟨x, ?_, rfl⟩
      rw [mem_heapShift]
      refine mem_iff_elAt.mpr ⟨n, by rw [List.length_set]; exact hn, ?_⟩
      rw [elAt_set_other _ (Ne.symm hni)]
      exact hne

theorem pqPush_mem {K V P : Type} [DecidableEq K] [Inhabited K]
    [Inhabited V] [Inhabited P] {less : P → P → Bool}
    {q : PriorityQueue K V P} (hready : q.heap.ready = true)
    {k : K} {v : V} {p : P} :
    ∀ x ∈ (pqPush less q k v p).heap.elems,
      x ∈ q.heap.elems ∨ x = ⟨k, v, p⟩ := by
  intro x hx
  rw [pqPush] at hx
  rcases hf : pqFind q.heap.elems k with _ | i
  · rw [hf] at hx
    simp only [heapPush, hready, if_pos] at hx
    rw [mem_heapShift] at hx
    rcases List.mem_append.mp hx with h | h
    · exact Or.inl h
    · exact Or.inr (by simpa using h)
  · rw [hf] at hx
    simp only at hx
    rw [mem_heapShift] at hx
    obtain ⟨n, hn, hne⟩ := mem_iff_elAt.mp hx
    rw [List.length_set] at hn
    by_cases hni : n = i
    · subst hni
      rw [elAt_set_self _ hn] at hne
      exact Or.inr hne.symm
    · rw [elAt_set_other _ (Ne.symm hni)] at hne
      exact Or.inl (hne ▸ mem_of_elAt hn)

theorem pqPush_key_mem {K V P : Type} [DecidableEq K] [Inhabited K]
    [Inhabited V] [Inhabited P] {less : P → P → Bool}
    {q : PriorityQueue K V P} {k : K} {v : V} {p : P} :
    ∀ x ∈ q.heap.elems,
      ∃ y ∈ (pqPush less q k v p).heap.elems, y.key = x.key := by
  intro x hx
  rw [pqPush]
  rcases hf : pqFind q.heap.elems k with _ | i
  · rw [heapPush]
    by_cases hr : q.heap.ready = true
    · rw [if_pos hr]
      refine ⟨x, ?_, rfl⟩
      simp only
      rw [mem_heapShift]
      exact List.mem_append.mpr (Or.inl hx)
    · rw [if_neg hr]
      exact ⟨x, hx, rfl⟩
  · simp only
    obtain ⟨hlt, hkey⟩ := pqFind_some hf
    obtain ⟨n, hn, hne⟩ := mem_iff_elAt.mp hx
    by_cases hni : n = i
    · subst hni
      refine ⟨⟨k, v, p⟩, ?_, ?_⟩
      · rw [mem_heapShift]
        exact mem_iff_elAt.mpr ⟨n, by rw [List.length_set]; exact hn,
          elAt_set_self _ hn⟩
      · rw [← hne]
        simp [hkey]
    · refine ⟨x, ?_, rfl⟩
      rw [mem_heapShift]
      refine mem_iff_elAt.mpr ⟨n, by rw [List.length_set]; exact hn, ?_⟩
      rw [elAt_set_other _ (Ne.symm hni)]
      exact hne

theorem pqPush_self_mem {K V P : Type} [DecidableEq K] [Inhabited K]
    [Inhabited V] [Inhabited P] {less : P → P → Bool}
    {q : PriorityQueue K V P} (hready : q.heap.ready = true)
    (k : K) (v : V) (p : P) :
    ∃ y ∈ (pqPush less q k v p).heap.elems, y.key = k := by
  rw [pqPush]
  rcases hf : pqFind q.heap.elems k with _ | i
  · rw [heapPush, if_pos hready]
    refine ⟨⟨k, v, p⟩, ?_, rfl⟩
    simp only
    rw [mem_heapShift]
    exact List.mem_append.mpr (Or.inr (by simp))
  · simp only
    obtain ⟨hlt, hkey⟩ := pqFind_some hf
    refine ⟨⟨k, v, p⟩, ?_, rfl⟩
    rw [mem_heapShift]
    exact mem_iff_elAt.mpr ⟨i, by rw [List.length_set]; exact hlt,
      elAt_set_self _ hlt⟩

theorem pqGet_le_max {K : Type} [DecidableEq K] [Inhabited K]
    {q : PriorityQueue K Int Int}
    (h : ∀ x ∈ q.heap.elems, x.rank ≤ getMaxValue) (k : K) :
    pqGet q k ≤ getMaxValue := by
  rcases hf : q.heap.elems.find? (fun e => e.key = k) with _ | e
  · simp only [pqGet, hf]
    show (0 : Int) ≤ getMaxValue
    rw [getMaxValue]
    omega
  · simp only [pqGet, hf]
    exact h e (List.mem_of_find?_eq_some hf)

/-- The invariant of the Prim cost queue: well-formed, every rank at
most the maximal weight, and every rank strictly below it certifies a
path from the root. -/
def mstInv {K V : Type} [DecidableEq K] [Inhabited K] (g : GraphSt K V)
    (root : K) (q : PriorityQueue K Int Int) : Prop :=
  pqInv intLess q ∧
  (∀ x ∈ q.heap.elems, x.rank ≤ getMaxValue) ∧
  (∀ x ∈ q.heap.elems, x.rank < getMaxValue →
    Relation.ReflTransGen (edgeAdj g) root x.key)

theorem rtg_symm {α : Type} {r : α → α → Prop}
    (hs : ∀ x y, r x y → r y x) {a b : α}
    (h : Relation.ReflTransGen r a b) :
    Relation.ReflTransGen r b a := by
  induction h with
  | refl => exact Relation.ReflTransGen.refl
  | tail hab hbc ih => exact Relation.ReflTransGen.head (hs _ _ hbc) ih

theorem newPQ_elems {K V P : Type} [DecidableEq K] [Inhabited K]
    [Inhabited V] [Inhabited P] (less : P → P → Bool) :
    (newPriorityQueue (K := K) (V := V) less).heap.elems =
      ([] : List (Element K V P)) := by
  simp [newPriorityQueue, heapInit, heapInitLoop]

theorem mstInner_spec {K V : Type} [DecidableEq K] [Inhabited K]
    {g : GraphSt K V} {root u : K}
    (hu : Relation.ReflTransGen (edgeAdj g) root u) :
    ∀ (vs : List K) (prev : List (K × K)) (q : PriorityQueue K Int Int),
      mstInv g root q →
      ∃ prev2 q2, mstInner g u vs (prev, q) = Except.ok (prev2, q2) ∧
        mstInv g root q2 ∧ pqLen q2 = pqLen q ∧
        (∀ x ∈ q.heap.elems, ∃ y ∈ q2.heap.elems, y.key = x.key) := by
  intro vs
  induction vs with
  | nil =>
      intro prev q hq
      exact ⟨prev, q, rfl, hq, rfl, fun x hx => ⟨x, hx, rfl⟩⟩
  | cons v rest ih =>
      intro prev q hq
      obtain ⟨⟨eo, w⟩, hgw⟩ := getMinWeightEdge_ok g u v
      by_cases hlt : w < pqGet q v
      · have hwmax : w < getMaxValue :=
          lt_of_lt_of_le hlt (pqGet_le_max hq.2.1 v)
        have hadj : edgeAdj g u v := getMinWeightEdge_lt_adj hgw hwmax
        have hreach : Relation.ReflTransGen (edgeAdj g) root v :=
          hu.tail hadj
        have hq' : mstInv g root (pqUpdate intLess q v w) := by
          refine ⟨pqInv_update lessOK_intLess hq.1 v w, ?_, ?_⟩
          · intro x hx
            rcases pqUpdate_mem x hx with h | ⟨hk, hr⟩
            · exact hq.2.1 x h
            · rw [hr]
              omega
          · intro x hx hxlt
            rcases pqUpdate_mem x hx with h | ⟨hk, hr⟩
            · exact hq.2.2 x h hxlt
            · rw [hk]
              exact hreach
        obtain ⟨p2, q2, h1, h2, h3, h4⟩ :=
          ih (aset v u prev) (pqUpdate intLess q v w) hq'
        refine ⟨p2, q2, ?_, h2, ?_, ?_⟩
        · simp only [mstInner, hgw]
          rw [if_pos hlt]
          exact h1
        · rw [h3, pqLen_update]
        · intro x hx
          obtain ⟨y, hy, hyk⟩ := pqUpdate_key_mem x hx
          obtain ⟨z2, hz2, hz2k⟩ := h4 y hy
          exact ⟨z2, hz2, by rw [hz2k, hyk]⟩
      · obtain ⟨p2, q2, h1, h2, h3, h4⟩ := ih prev q hq
        refine ⟨p2, q2, ?_, h2, h3, h4⟩
        simp only [mstInner, hgw]
        rw [if_neg hlt]
        exact h1

theorem mstLoopF_unreachable {K V : Type} [DecidableEq K] [Inhabited K]
    {g : GraphSt K V} {root z : K}
    (hz : ¬ Relation.ReflTransGen (edgeAdj g) root z) :
    ∀ (fuel : Nat) (q : PriorityQueue K Int Int) (unvisited : List K)
      (prev : List (K × K)) (keys : List K) (edges : List (GEdge K))
      (wT : Int), pqLen q < fuel → mstInv g root q →
      (∃ x ∈ q.heap.elems, x.key = z) →
      mstLoopF g fuel q unvisited prev keys edges wT =
        Except.error GErr.notConnected := by
  intro fuel
  induction fuel with
  | zero =>
      intro q _ _ _ _ _ hf _ _
      omega
  | succ fuel ih =>
      intro q unvisited prev keys edges wT hf hq hzq
      obtain ⟨xz, hxz, hxzkey⟩ := hzq
      have hne : q.heap.elems ≠ [] := by
        intro hh
        rw [hh] at hxz
        simp at hxz
      have hlen0 : ¬ pqLen q = 0 := by
        show ¬ q.heap.elems.length = 0
        intro hh
        exact hne (List.length_eq_zero.mp hh)
      obtain ⟨e, he0, hpop1, hmin, hlen', hmem', hinv'⟩ :=
        pqPop_spec lessOK_intLess hq.1 hne
      rcases hp : pqPop intLess q with ⟨⟨u, vv, c, b⟩, cost1⟩
      rw [hp] at hpop1
      simp only [Prod.mk.injEq] at hpop1
      obtain ⟨hu, hvv, hc, hb⟩ := hpop1
      rw [hp] at hlen' hmem' hinv'
      simp only at hlen' hmem' hinv'
      have hemem : e ∈ q.heap.elems := by
        rw [he0]
        refine mem_of_elAt ?_
        have := List.length_pos.mpr hne
        omega
      rw [mstLoopF, if_neg hlen0, hp]
      simp only
      by_cases hcmax : c = getMaxValue
      · rw [if_pos hcmax]
      · rw [if_neg hcmax]
        have hcle : e.rank ≤ getMaxValue := hq.2.1 e hemem
        have hclt : e.rank < getMaxValue := by
          rw [hc] at hcmax
          omega
        have hreach : Relation.ReflTransGen (edgeAdj g) root u := by
          rw [hu]
          exact hq.2.2 e hemem hclt
        have hzu : xz.key ≠ e.key := by
          intro hh
          apply hz
          rw [← hxzkey, hh, ← hu]
          exact hreach
        have hzc1 : xz ∈ cost1.heap.elems :=
          (hmem' xz).mpr ⟨hxz, hzu⟩
        have hinv1 : mstInv g root cost1 := by
          refine ⟨hinv', ?_, ?_⟩
          · intro x hx
            exact hq.2.1 x ((hmem' x).mp hx).1
          · intro x hx hxlt
            exact hq.2.2 x ((hmem' x).mp hx).1 hxlt
        obtain ⟨prev1, cost2, hinner, hinv2, hlen2, hkey2⟩ :=
          mstInner_spec hreach (unvisited.erase u) prev cost1 hinv1
        simp only [hinner]
        have hflen : pqLen cost2 < fuel := by
          have h1 : q.heap.elems.length < fuel + 1 := hf
          have h2 : 0 < q.heap.elems.length := List.length_pos.mpr hne
          have h3 : cost2.heap.elems.length = cost1.heap.elems.length :=
            hlen2
          have h4 : cost1.heap.elems.length = q.heap.elems.length - 1 :=
            hlen'
          show cost2.heap.elems.length < fuel
          omega
        have hzc2 : ∃ x ∈ cost2.heap.elems, x.key = z := by
          obtain ⟨y, hy, hyk⟩ := hkey2 xz hzc1
          exact ⟨y, hy, by rw [hyk, hxzkey]⟩
        by_cases hvne : (alookup u prev1).getD default ≠ u
        · rw [if_pos hvne]
          obtain ⟨⟨eo2, w2⟩, hg2⟩ :=
            getMinWeightEdge_ok g u ((alookup u prev1).getD default)
          simp only [hg2]
          exact ih cost2 (unvisited.erase u) prev1 (keys ++ [u])
            (edges ++ eo2.toList) (wT + c) hflen hinv2 hzc2
        · rw [if_neg hvne]
          exact ih cost2 (unvisited.erase u) prev1 (keys ++ [u])
            edges (wT + c) hflen hinv2 hzc2

theorem mstFold_spec {K V : Type} [DecidableEq K] [Inhabited K] :
    ∀ (vs : List (GVertex K V)) (q : PriorityQueue K Int Int),
      pqInv intLess q → (∀ x ∈ q.heap.elems, x.rank = getMaxValue) →
      pqInv intLess (vs.foldl
        (fun q v => pqPush intLess q v.key 0 getMaxValue) q) ∧
      (∀ x ∈ (vs.foldl
        (fun q v => pqPush intLess q v.key 0 getMaxValue) q).heap.elems,
        x.rank = getMaxValue) ∧
      (∀ x ∈ q.heap.elems, ∃ y ∈ (vs.foldl
        (fun q v => pqPush intLess q v.key 0 getMaxValue) q).heap.elems,
        y.key = x.key) ∧
      (∀ v ∈ vs, ∃ y ∈ (vs.foldl
        (fun q v => pqPush intLess q v.key 0 getMaxValue) q).heap.elems,
        y.key = v.key) := by
  intro vs
  induction vs with
  | nil =>
      intro q hq hmax
      refine ⟨hq, hmax, fun x hx => ⟨x, hx, rfl⟩, ?_⟩
      intro v hv
      simp at hv
  | cons v rest ih =>
      intro q hq hmax
      have hready : q.heap.ready = true := hq.1
      have hq1 := pqInv_push lessOK_intLess hq v.key 0 getMaxValue
      have hmax1 : ∀ x ∈ (pqPush intLess q v.key 0
          getMaxValue).heap.elems, x.rank = getMaxValue := by
        intro x hx
        rcases pqPush_mem hready x hx with h | h
        · exact hmax x h
        · rw [h]
      obtain ⟨ha, hb, hc, hd⟩ :=
        ih (pqPush intLess q v.key 0 getMaxValue) hq1 hmax1
      rw [List.foldl_cons]
      refine ⟨ha, hb, ?_, ?_⟩
      · intro x hx
        obtain ⟨y, hy, hyk⟩ := pqPush_key_mem x hx
        obtain ⟨z2, hz2, hz2k⟩ := hc y hy
        exact ⟨z2, hz2, by rw [hz2k, hyk]⟩
      · intro v2 hv2
        rcases List.mem_cons.mp hv2 with h | h
        · subst h
          obtain ⟨y, hy, hyk⟩ := pqPush_self_mem hready v2.key 0 getMaxValue
          obtain ⟨z2, hz2, hz2k⟩ := hc y hy
          exact ⟨z2, hz2, by rw [hz2k, hyk]⟩
        · exact hd v2 h

/-- C9: MinWeightSpanningTree fails with emptyGraph on the empty graph
and with notConnected on every non-empty undirected graph holding two
vertices with no path of stored edges between them. -/
theorem minWeightSpanningTree_error_cases {K V : Type} [DecidableEq K]
    [Inhabited K] (g : GraphSt K V)
    (hd : g.adjList.digraph = false)
    (hvk : ∀ p ∈ g.vertexes, p.2.key = p.1) :
    (g.vertexes = [] →
      MinWeightSpanningTree g = Except.error GErr.emptyGraph) ∧
    (∀ a b, a ∈ g.vertexes.map Prod.fst → b ∈ g.vertexes.map Prod.fst →
      ¬ Relation.ReflTransGen (edgeAdj g) a b →
      MinWeightSpanningTree g = Except.error GErr.notConnected) := by
  constructor
  · intro h
    simp [MinWeightSpanningTree, mstPrimWithPQ, gAllVertexes, h,
      Except.map]
  · intro a b ha hb hnab
    have hgne : g.vertexes ≠ [] := by
      intro hh
      rw [hh] at ha
      simp at ha
    -- the root is the key of the first vertex of the model order
    rcases hgv : g.vertexes with _ | ⟨⟨k0, v0⟩, restv⟩
    · exact absurd hgv hgne
    have hroot : ((g.vertexes.map Prod.snd).head?.map GVertex.key).getD
        default = k0 := by
      rw [hgv]
      simp only [List.map_cons, List.head?_cons, Option.map_some,
        Option.getD_some]
      exact hvk (k0, v0) (by rw [hgv]; simp)
    set root : K := k0 with hrootdef
    -- pick an unreachable vertex among a and b
    have hsym : ∀ x y, edgeAdj g x y → edgeAdj g y x := by
      intro x y ⟨p, hp, ho⟩
      exact ⟨p, hp, ho.symm⟩
    have hrootmem : root ∈ g.vertexes.map Prod.fst := by
      rw [hgv]
      simp
    obtain ⟨z, hzmem, hz⟩ : ∃ z, z ∈ g.vertexes.map Prod.fst ∧
        ¬ Relation.ReflTransGen (edgeAdj g) root z := by
      by_cases hra : Relation.ReflTransGen (edgeAdj g) root a
      · by_cases hrb : Relation.ReflTransGen (edgeAdj g) root b
        · exact absurd ((rtg_symm hsym hra).trans hrb) hnab
        · exact ⟨b, hb, hrb⟩
      · exact ⟨a, ha, hra⟩
    -- initial queue facts
    have hnew := pqInv_new (K := K) (V := Int) (P := Int) intLess
    have hnewe := newPQ_elems (K := K) (V := Int) (P := Int) intLess
    obtain ⟨hf1, hf2, hf3, hf4⟩ :=
      mstFold_spec (g.vertexes.map Prod.snd) (newPriorityQueue intLess)
        hnew (by rw [hnewe]; intro x hx; simp at hx)
    -- the z entry of the filled queue
    have hzvert : ∃ v ∈ g.vertexes.map Prod.snd, v.key = z := by
      obtain ⟨p, hp, hpz⟩ := List.mem_map.mp hzmem
      exact ⟨p.2, List.mem_map.mpr ⟨p, hp, rfl⟩, by rw [hvk p hp, hpz]⟩
    obtain ⟨vz, hvz, hvzk⟩ := hzvert
    obtain ⟨y0, hy0, hy0k⟩ := hf4 vz hvz
    set cost0 : PriorityQueue K Int Int := (g.vertexes.map Prod.snd).foldl
      (fun q v => pqPush intLess q v.key 0 getMaxValue)
      (newPriorityQueue intLess) with hcost0
    set cost : PriorityQueue K Int Int :=
      pqUpdate intLess cost0 root 0 with hcost
    have hmaxpos : (0 : Int) < getMaxValue := by
      rw [getMaxValue]
      omega
    have hinv : mstInv g root cost := by
      refine ⟨pqInv_update lessOK_intLess hf1 root 0, ?_, ?_⟩
      · intro x hx
        rcases pqUpdate_mem x hx with h | ⟨hk, hr⟩
        · rw [hf2 x h]
        · rw [hr]
          omega
      · intro x hx hxlt
        rcases pqUpdate_mem x hx with h | ⟨hk, hr⟩
        · exact absurd (hf2 x h ▸ hxlt) (lt_irrefl getMaxValue)
        · rw [hk]
    have hzcost : ∃ x ∈ cost.heap.elems, x.key = z := by
      obtain ⟨y, hy, hyk⟩ := pqUpdate_key_mem y0 hy0
      exact ⟨y, hy, by rw [hyk, hy0k, hvzk]⟩
    have hloop := mstLoopF_unreachable hz (pqLen cost + 1) cost
      ((g.vertexes.map Prod.snd).map GVertex.key) [] [] [] 0
      (by omega) hinv hzcost
    have hlen : ¬ (g.vertexes.map Prod.snd).length = 0 := by
      rw [hgv]
      simp
    rw [MinWeightSpanningTree]
    simp only [mstPrimWithPQ, gAllVertexes]
    rw [if_neg hlen, hroot]
    rw [hloop]
    rfl

/-- Witness for C9: the empty graph on Fin 3 yields the emptyGraph
error; an edgeless undirected graph holding the two vertices 0 and 1
yields the notConnected error. -/
theorem minWeightSpanningTree_error_cases_witness :
    MinWeightSpanningTree (newGraphSt (Fin 3) Unit false "w") =
      Except.error GErr.emptyGraph ∧
    MinWeightSpanningTree
      (graphAddVertex (graphAddVertex (newGraphSt (Fin 3) Unit false "w")
        ⟨0, ()⟩).2 ⟨1, ()⟩).2 = Except.error GErr.notConnected := by
  constructor
  · refine (minWeightSpanningTree_error_cases _ rfl ?_).1 rfl
    intro p hp
    have hp2 : p ∈ ([] : List (Fin 3 × GVertex (Fin 3) Unit)) := hp
    simp at hp2
  · refine (minWeightSpanningTree_error_cases _ rfl ?_).2 0 1
      (by decide) (by decide) ?_
    · intro p hp
      have hp2 : p ∈ [((0 : Fin 3), (⟨0, ()⟩ : GVertex (Fin 3) Unit)),
          (1, ⟨1, ()⟩)] := hp
      simp only [List.mem_cons, List.not_mem_nil, or_false] at hp2
      rcases hp2 with h | h
      · rw [h]
      · rw [h]
    · intro h
      rcases Relation.ReflTransGen.cases_head h with heq | ⟨c, hstep, _⟩
      · exact absurd heq (by decide)
      · rcases hstep with ⟨p, hp, _⟩
        have hp2 : p ∈ ([] : List (Fin 3 × GEdge (Fin 3))) := hp
        simp at hp2

/-- One step of the neighbour walk performed by the isConnected BFS:
b occurs in the neighbour list of a (union of out- and in-chains for
directed graphs). -/
def weakAdj {K : Type} [DecidableEq K] (l : AdjList K) (a b : K) : Prop :=
  ∃ vs, adjNeighbours l a = Except.ok vs ∧ b ∈ vs

/-- One directed step along a stored out-chain. -/
def outEdgeStep {K : Type} [DecidableEq K] (l : AdjList K)
    (a b : K) : Prop :=
  ∃ c, alookup a l.outAdj = some c ∧ ∃ q ∈ c, q.key = b

/-- Chain closure: every endpoint key stored in an out- or in-chain is
itself a vertex of the out-adjacency map (addEdge only links existing
vertices, so the facade maintains this). -/
def adjClosed {K : Type} [DecidableEq K] (l : AdjList K) : Prop :=
  (∀ p ∈ l.outAdj, ∀ q ∈ p.2, (alookup q.key l.outAdj).isSome) ∧
  (∀ p ∈ l.inAdj, ∀ q ∈ p.2, (alookup q.key l.outAdj).isSome)

/-- The digraph 1 → 2 (two vertices, one directed edge). -/
def c6Graph : AdjList (Fin 3) :=
  (adjAddEdge (adjAddVertex (adjAddVertex (newAdjacencyLis (Fin 3) true)
    1) 2) 1 2 0 5).2

theorem mem_of_mem_eraseDupsLoop {α : Type} [DecidableEq α] :
    ∀ (as bs : List α) (a : α),
      a ∈ List.eraseDups.loop as bs → a ∈ as ∨ a ∈ bs := by
  intro as
  induction as with
  | nil =>
      intro bs a h
      rw [List.eraseDups.loop] at h
      exact Or.inr (List.mem_reverse.mp h)
  | cons x rest ih =>
      intro bs a h
      rw [List.eraseDups.loop] at h
      rcases hel : bs.elem x with _ | _
      · rw [hel] at h
        simp only at h
        rcases ih (x :: bs) a h with h2 | h2
        · exact Or.inl (by simp [h2])
        · rcases List.mem_cons.mp h2 with h3 | h3
          · exact Or.inl (by simp [h3])
          · exact Or.inr h3
      · rw [hel] at h
        simp only at h
        rcases ih bs a h with h2 | h2
        · exact Or.inl (by simp [h2])
        · exact Or.inr h2

theorem mem_of_mem_eraseDups {α : Type} [DecidableEq α] {xs : List α}
    {a : α} (h : a ∈ xs.eraseDups) : a ∈ xs := by
  rcases mem_of_mem_eraseDupsLoop xs [] a h with h2 | h2
  · exact h2
  · simp at h2

theorem alookup_some_mem {K V : Type} [DecidableEq K] {k : K} {c : V} :
    ∀ {m : List (K × V)}, alookup k m = some c → (k, c) ∈ m := by
  intro m
  induction m with
  | nil => intro h; simp [alookup] at h
  | cons p rest ih =>
      intro h
      rw [alookup] at h
      by_cases hk : k = p.1
      · rw [if_pos hk] at h
        have h2 := Option.some.inj h
        have h3 : (k, c) = p := by
          rw [hk, ← h2]
        rw [h3]
        exact List.mem_cons_self _ _
      · rw [if_neg hk] at h
        exact List.mem_cons.mpr (Or.inr (ih h))

theorem alookup_isSome_mem_keys {K V : Type} [DecidableEq K] {k : K}
    {m : List (K × V)} (h : (alookup k m).isSome) :
    k ∈ m.map Prod.fst := by
  rcases ho : alookup k m with _ | c
  · rw [ho] at h
    simp at h
  · exact List.mem_map.mpr ⟨(k, c), alookup_some_mem ho, rfl⟩

theorem mem_keys_alookup_isSome {K V : Type} [DecidableEq K] {k : K}
    {m : List (K × V)} (h : k ∈ m.map Prod.fst) :
    (alookup k m).isSome := by
  obtain ⟨p, hp, hpk⟩ := List.mem_map.mp h
  rw [← hpk]
  exact alookup_isSome_of_mem hp

theorem aset_keys_absent {K V : Type} [DecidableEq K] {k : K} (v : V) :
    ∀ {m : List (K × V)}, alookup k m = none →
      (aset k v m).map Prod.fst = m.map Prod.fst ++ [k] := by
  intro m
  induction m with
  | nil => intro _; rfl
  | cons p rest ih =>
      intro h
      rw [alookup] at h
      by_cases hk : k = p.1
      · rw [if_pos hk] at h
        simp at h
      · rw [if_neg hk] at h
        rw [aset, if_neg hk]
        simp [ih h]

theorem alookup_aset_isSome_mono {K V : Type} [DecidableEq K] {x k : K}
    (v : V) {m : List (K × V)} (h : (alookup x m).isSome) :
    (alookup x (aset k v m)).isSome := by
  by_cases hx : x = k
  · subst hx
    rw [alookup_aset_self]
    rfl
  · rw [alookup_aset_other hx]
    exact h

theorem alookup_aset_isSome_cases {K V : Type} [DecidableEq K] {x k : K}
    {v : V} {m : List (K × V)}
    (h : (alookup x (aset k v m)).isSome) :
    x = k ∨ (alookup x m).isSome := by
  by_cases hx : x = k
  · exact Or.inl hx
  · rw [alookup_aset_other hx] at h
    exact Or.inr h

theorem bfs_fold_sub {K : Type} [DecidableEq K]
    (vis1 : List (K × Bool)) :
    ∀ (vs que1 : List K) (u : K), u ∈ que1 →
      u ∈ vs.foldl
        (fun q u => if (alookup u vis1).isSome then q else q ++ [u])
        que1 := by
  intro vs
  induction vs with
  | nil => intro que1 u h; exact h
  | cons w rest ih =>
      intro que1 u h
      rw [List.foldl_cons]
      by_cases hw : (alookup w vis1).isSome
      · rw [if_pos hw]
        exact ih que1 u h
      · rw [if_neg hw]
        exact ih (que1 ++ [w]) u (List.mem_append.mpr (Or.inl h))

theorem bfs_fold_mem {K : Type} [DecidableEq K]
    (vis1 : List (K × Bool)) :
    ∀ (vs que1 : List K) (u : K), u ∈ vs →
      (alookup u vis1).isSome = true ∨
      u ∈ vs.foldl
        (fun q u => if (alookup u vis1).isSome then q else q ++ [u])
        que1 := by
  intro vs
  induction vs with
  | nil => intro que1 u h; simp at h
  | cons w rest ih =>
      intro que1 u h
      rw [List.foldl_cons]
      rcases List.mem_cons.mp h with h2 | h2
      · subst h2
        by_cases hw : (alookup u vis1).isSome
        · exact Or.inl hw
        · rw [if_neg hw]
          exact Or.inr (bfs_fold_sub vis1 rest (que1 ++ [u]) u
            (List.mem_append.mpr (Or.inr (by simp))))
      · by_cases hw : (alookup w vis1).isSome
        · rw [if_pos hw]
          exact ih que1 u h2
        · rw [if_neg hw]
          exact ih (que1 ++ [w]) u h2

theorem bfs_fold_from {K : Type} [DecidableEq K]
    (vis1 : List (K × Bool)) :
    ∀ (vs que1 : List K) (u : K),
      u ∈ vs.foldl
        (fun q u => if (alookup u vis1).isSome then q else q ++ [u])
        que1 → u ∈ que1 ∨ u ∈ vs := by
  intro vs
  induction vs with
  | nil => intro que1 u h; exact Or.inl h
  | cons w rest ih =>
      intro que1 u h
      rw [List.foldl_cons] at h
      by_cases hw : (alookup w vis1).isSome
      · rw [if_pos hw] at h
        rcases ih que1 u h with h2 | h2
        · exact Or.inl h2
        · exact Or.inr (by simp [h2])
      · rw [if_neg hw] at h
        rcases ih (que1 ++ [w]) u h with h2 | h2
        · rcases List.mem_append.mp h2 with h3 | h3
          · exact Or.inl h3
          · exact Or.inr (by simp at h3; simp [h3])
        · exact Or.inr (by simp [h2])

theorem adjNeighbours_ok {K : Type} [DecidableEq K] {l : AdjList K}
    {v : K} (ho : (alookup v l.outAdj).isSome)
    (hi : l.digraph = true → (alookup v l.inAdj).isSome) :
    ∃ vs, adjNeighbours l v = Except.ok vs := by
  rcases hoc : alookup v l.outAdj with _ | chain
  · rw [hoc] at ho
    simp at ho
  · cases hd : l.digraph with
    | false =>
        exact ⟨(chain.map EndP.key).eraseDups, by
          simp only [adjNeighbours, hoc, hd]
          rfl⟩
    | true =>
        have := hi hd
        rcases hic : alookup v l.inAdj with _ | chain2
        · rw [hic] at this
          simp at this
        · exact ⟨((chain.map EndP.key) ++ (chain2.map EndP.key)).eraseDups,
            by simp only [adjNeighbours, hoc, hd, hic]; rfl⟩

theorem adjNeighbours_closed {K : Type} [DecidableEq K] {l : AdjList K}
    (hcl : adjClosed l) {v : K} {vs : List K}
    (h : adjNeighbours l v = Except.ok vs) :
    ∀ u ∈ vs, (alookup u l.outAdj).isSome := by
  intro u hu
  rcases hoc : alookup v l.outAdj with _ | chain
  · simp only [adjNeighbours, hoc] at h
    exact absurd h (by simp)
  · cases hd : l.digraph with
    | false =>
        simp only [adjNeighbours, hoc, hd] at h
        have hvs := Except.ok.inj h
        rw [← hvs] at hu
        have hu2 := mem_of_mem_eraseDups hu
        obtain ⟨q, hq, hqk⟩ := List.mem_map.mp hu2
        rw [← hqk]
        exact hcl.1 (v, chain) (alookup_some_mem hoc) q hq
    | true =>
        simp only [adjNeighbours, hoc, hd] at h
        rcases hic : alookup v l.inAdj with _ | chain2
        · rw [hic] at h
          exact absurd h (by simp)
        · rw [hic] at h
          have hvs := Except.ok.inj h
          rw [← hvs] at hu
          have hu2 := mem_of_mem_eraseDups hu
          rcases List.mem_append.mp hu2 with h3 | h3
          · obtain ⟨q, hq, hqk⟩ := List.mem_map.mp h3
            rw [← hqk]
            exact hcl.1 (v, chain) (alookup_some_mem hoc) q hq
          · obtain ⟨q, hq, hqk⟩ := List.mem_map.mp h3
            rw [← hqk]
            exact hcl.2 (v, chain2) (alookup_some_mem hic) q hq

theorem bfsLoopF_spec {K : Type} [DecidableEq K] {l : AdjList K}
    (hd : l.digraph = true) (hwf : adjWF l) (hcl : adjClosed l)
    (start : K) :
    ∀ (fuel : Nat) (que : List K) (vis visOut : List (K × Bool)),
      bfsLoopF l fuel que vis = Except.ok (some visOut) →
      (∀ k, (alookup k vis).isSome →
        Relation.ReflTransGen (weakAdj l) start k) →
      (∀ u ∈ que, Relation.ReflTransGen (weakAdj l) start u) →
      (∀ k, (alookup k vis).isSome →
        ∀ vs2, adjNeighbours l k = Except.ok vs2 →
          ∀ u ∈ vs2, (alookup u vis).isSome = true ∨ u ∈ que) →
      (∀ k, (alookup k vis).isSome → (alookup k l.outAdj).isSome) →
      (∀ u ∈ que, (alookup u l.outAdj).isSome) →
      (vis.map Prod.fst).Nodup →
      (start ∈ que ∨ (alookup start vis).isSome = true) →
      ((∀ k, (alookup k visOut).isSome →
          Relation.ReflTransGen (weakAdj l) start k ∧
          (alookup k l.outAdj).isSome) ∧
       (∀ k, Relation.ReflTransGen (weakAdj l) start k →
          (alookup k visOut).isSome) ∧
       (visOut.map Prod.fst).Nodup) := by
  intro fuel
  induction fuel with
  | zero =>
      intro que vis visOut hrun
      rw [bfsLoopF] at hrun
      exact absurd hrun (by simp)
  | succ fuel ih =>
      intro que vis visOut hrun h1 h2 h3 h4 h5 h6 h7
      rcases que with _ | ⟨v, que1⟩
      · rw [bfsLoopF] at hrun
        have hvo : vis = visOut :=
          Option.some.inj (Except.ok.inj hrun)
        subst hvo
        refine ⟨fun k hk => ⟨h1 k hk, h4 k hk⟩, ?_, h6⟩
        intro k hk
        induction hk with
        | refl =>
            rcases h7 with h | h
            · simp at h
            · exact h
        | tail hki hstep ihk =>
            obtain ⟨vs2, hok, humem⟩ := hstep
            rcases h3 _ ihk vs2 hok _ humem with h | h
            · exact h
            · simp at h
      · have hvout : (alookup v l.outAdj).isSome := h5 v (by simp)
        obtain ⟨vs, hnb⟩ := adjNeighbours_ok hvout (fun _ => hwf hd v hvout)
        rw [bfsLoopF] at hrun
        simp only [hnb] at hrun
        set vis1 : List (K × Bool) :=
          if (alookup v vis).isSome then vis else aset v true vis with hvis1
        have hreachv : Relation.ReflTransGen (weakAdj l) start v :=
          h2 v (by simp)
        -- facts about the updated visited map
        have p1 : (alookup v vis1).isSome := by
          rw [hvis1]
          by_cases hvv : (alookup v vis).isSome
          · rw [if_pos hvv]
            exact hvv
          · rw [if_neg hvv, alookup_aset_self]
            rfl
        have p2 : ∀ x, (alookup x vis1).isSome →
            x = v ∨ (alookup x vis).isSome := by
          intro x hx
          rw [hvis1] at hx
          by_cases hvv : (alookup v vis).isSome
          · rw [if_pos hvv] at hx
            exact Or.inr hx
          · rw [if_neg hvv] at hx
            exact alookup_aset_isSome_cases hx
        have p3 : ∀ x, (alookup x vis).isSome →
            (alookup x vis1).isSome := by
          intro x hx
          rw [hvis1]
          by_cases hvv : (alookup v vis).isSome
          · rw [if_pos hvv]
            exact hx
          · rw [if_neg hvv]
            exact alookup_aset_isSome_mono _ hx
        have p4 : (vis1.map Prod.fst).Nodup := by
          rw [hvis1]
          by_cases hvv : (alookup v vis).isSome
          · rw [if_pos hvv]
            exact h6
          · rw [if_neg hvv]
            rcases ho : alookup v vis with _ | c
            · rw [aset_keys_absent _ ho]
              refine List.Nodup.append h6 (by simp) ?_
              intro x hx hy
              simp only [List.mem_singleton] at hy
              subst hy
              exact absurd (mem_keys_alookup_isSome hx) (by rw [ho]; simp)
            · rw [ho] at hvv
              simp at hvv
        refine ih _ vis1 visOut hrun ?_ ?_ ?_ ?_ ?_ p4 ?_
        · intro k hk
          rcases p2 k hk with h | h
          · subst h
            exact hreachv
          · exact h1 k h
        · intro u hu
          rcases bfs_fold_from vis1 vs que1 u hu with h | h
          · exact h2 u (by simp [h])
          · exact hreachv.tail ⟨vs, hnb, h⟩
        · intro k hk vs2 hok u humem
          rcases p2 k hk with hkv | hkold
          · subst hkv
            have hvs2 : vs2 = vs := Except.ok.inj (hok.symm.trans hnb)
            rw [hvs2] at humem
            rcases bfs_fold_mem vis1 vs que1 u humem with h | h
            · exact Or.inl h
            · exact Or.inr h
          · rcases h3 k hkold vs2 hok u humem with h | h
            · exact Or.inl (p3 u h)
            · rcases List.mem_cons.mp h with h8 | h8
              · subst h8
                exact Or.inl p1
              · exact Or.inr (bfs_fold_sub vis1 vs que1 u h8)
        · intro k hk
          rcases p2 k hk with h | h
          · subst h
            exact hvout
          · exact h4 k h
        · intro u hu
          rcases bfs_fold_from vis1 vs que1 u hu with h | h
          · exact h5 u (by simp [h])
          · exact adjNeighbours_closed hcl hnb u h
        · rcases h7 with h | h
          · rcases List.mem_cons.mp h with h8 | h8
            · subst h8
              exact Or.inr p1
            · exact Or.inl (bfs_fold_sub vis1 vs que1 start h8)
          · exact Or.inr (p3 start h)

/-- C6 counterexample: the digraph with vertices 1,2 and the single
edge 1→2 is reported connected by isConnected(false), although vertex
2 cannot reach vertex 1 along directed edges, so the reported property
is not strong connectivity. -/
theorem isConnected_strong_counterexample :
    c6Graph.digraph = true ∧
    adjIsConnected c6Graph false = Except.ok true ∧
    ¬ (∀ a b : Fin 3, (alookup a c6Graph.outAdj).isSome →
        (alookup b c6Graph.outAdj).isSome →
        Relation.ReflTransGen (outEdgeStep c6Graph) a b) := by
  refine ⟨rfl, rfl, ?_⟩
  intro hstrong
  have h := hstrong 2 1 rfl rfl
  rcases Relation.ReflTransGen.cases_head h with heq | ⟨c, hstep, _⟩
  · exact absurd heq (by decide)
  · obtain ⟨chain, hch, q, hq, _⟩ := hstep
    have hc : alookup (2 : Fin 3) c6Graph.outAdj = some [] := rfl
    have hce : chain = ([] : List (EndP (Fin 3))) :=
      Option.some.inj (hch.symm.trans hc)
    rw [hce] at hq
    simp at hq

/-- C6 (amended): for every directed graph the connected property
computed by isConnected(false) is weak connectivity: one BFS over the
union of out- and in-neighbours from the first vertex, true exactly
when every vertex is weakly reachable from it. -/
theorem adjIsConnected_weak_digraph {K : Type} [DecidableEq K]
    (l : AdjList K) (hd : l.digraph = true) (hwf : adjWF l)
    (hcl : adjClosed l) (hnd : (l.outAdj.map Prod.fst).Nodup)
    (p0 : K × List (EndP K)) (rest : List (K × List (EndP K)))
    (hout : l.outAdj = p0 :: rest) (vis : List (K × Bool))
    (hterm : bfsLoopF l (adjFuel l) [p0.1] [] = Except.ok (some vis)) :
    adjIsConnected l false =
      Except.ok (decide (vis.length = l.outAdj.length)) ∧
    (adjIsConnected l false = Except.ok true ↔
      ∀ k, (alookup k l.outAdj).isSome →
        Relation.ReflTransGen (weakAdj l) p0.1 k) := by
  obtain ⟨o1, o2, o3⟩ := bfsLoopF_spec hd hwf hcl p0.1 (adjFuel l)
    [p0.1] [] vis hterm
    (by intro k hk; simp [alookup] at hk)
    (by intro u hu
        simp only [List.mem_singleton] at hu
        subst hu
        exact Relation.ReflTransGen.refl)
    (by intro k hk; simp [alookup] at hk)
    (by intro k hk; simp [alookup] at hk)
    (by intro u hu
        simp only [List.mem_singleton] at hu
        subst hu
        rw [hout, alookup]
        simp)
    (by simp)
    (Or.inl (by simp))
  have hconn : adjIsConnected l false =
      Except.ok (decide (vis.length = l.outAdj.length)) := by
    rw [adjIsConnected, if_neg (by simp), hout]
    rw [if_neg (by simp)]
    show (match bfsLoopF l (adjFuel l) [p0.1] [] with
      | Except.error e => Except.error e
      | Except.ok none => Except.ok false
      | Except.ok (some vis2) =>
          Except.ok (decide (vis2.length = (p0 :: rest).length))) =
      Except.ok (decide (vis.length = (p0 :: rest).length))
    rw [hterm]
  refine ⟨hconn, ?_⟩
  rw [hconn]
  have hsub : (vis.map Prod.fst).toFinset ⊆
      (l.outAdj.map Prod.fst).toFinset := by
    intro x hx
    rw [List.mem_toFinset] at hx ⊢
    exact alookup_isSome_mem_keys ((o1 x (mem_keys_alookup_isSome hx)).2)
  have hcard1 : (vis.map Prod.fst).toFinset.card = vis.length := by
    rw [List.toFinset_card_of_nodup o3, List.length_map]
  have hcard2 : (l.outAdj.map Prod.fst).toFinset.card =
      l.outAdj.length := by
    rw [List.toFinset_card_of_nodup hnd, List.length_map]
  constructor
  · intro htrue k hk
    have hlen : vis.length = l.outAdj.length :=
      of_decide_eq_true (Except.ok.inj htrue)
    have heq : (vis.map Prod.fst).toFinset =
        (l.outAdj.map Prod.fst).toFinset :=
      Finset.eq_of_subset_of_card_le hsub
        (by rw [hcard1, hcard2, hlen])
    have hkvis : (alookup k vis).isSome := by
      apply mem_keys_alookup_isSome
      rw [← List.mem_toFinset, heq, List.mem_toFinset]
      exact alookup_isSome_mem_keys hk
    exact (o1 k hkvis).1
  · intro hall
    have hsup : (l.outAdj.map Prod.fst).toFinset ⊆
        (vis.map Prod.fst).toFinset := by
      intro x hx
      rw [List.mem_toFinset] at hx ⊢
      exact alookup_isSome_mem_keys
        (o2 x (hall x (mem_keys_alookup_isSome hx)))
    have heq : (vis.map Prod.fst).toFinset =
        (l.outAdj.map Prod.fst).toFinset :=
      Finset.Subset.antisymm hsub hsup
    have hlen : vis.length = l.outAdj.length := by
      rw [← hcard1, ← hcard2, heq]
    rw [hlen]
    simp

/-- Witness for the amended C6 theorem: on the digraph 1→2 the BFS
completes with both vertices visited, isConnected(false) reports true,
and indeed both vertices are weakly reachable from vertex 1. -/
theorem adjIsConnected_weak_digraph_witness :
    adjIsConnected c6Graph false = Except.ok
      (decide ((([((1 : Fin 3), true), (2, true)]) :
        List (Fin 3 × Bool)).length = c6Graph.outAdj.length)) ∧
    (adjIsConnected c6Graph false = Except.ok true ↔
      ∀ k, (alookup k c6Graph.outAdj).isSome →
        Relation.ReflTransGen (weakAdj c6Graph) (1 : Fin 3) k) :=
  adjIsConnected_weak_digraph c6Graph rfl (by unfold adjWF; decide)
    (by unfold adjClosed; decide)
    (by decide) ((1 : Fin 3), [⟨2, 0, 5⟩]) [((2 : Fin 3), [])] rfl
    [((1 : Fin 3), true), (2, true)] rfl

/-- The State string constants of exec.go (lines 29-51). -/
inductive GState where
  | waiting
  | running
  | success
  | stopped
  | failed
  | paused
  deriving DecidableEq, Repr

/-- The exec.go error values (lines 57-67) together with the inline
fmt.Errorf errors of Stop/Pause/stop and the scheduledError wrapper
(whose message embeds the blamed job key). -/
inductive GoErr (K : Type) where
  | existsCycle
  | alreadyRunning
  | jobNotExists
  | execCanceled
  | jobCanceled
  | forbidModify
  | jobIsNull
  | noEntrypoint
  | stopOnSuccess
  | pauseOnSuccess
  | jobNotRunning
  | unknownStatus
  | schedFailed (key : K)
  deriving DecidableEq, Repr

/-- Embeds execNode (exec.go lines 296-305).  The context and cancel
handles are modelled as optional tokens (none is Go nil); the runner
is described by its two observable properties: whether it is nil and
whether it is the ContextJob form. -/
structure ENode (K : Type) where
  ctx : Option Nat
  cancel : Option Nat
  key : K
  errMsg : Option (GoErr K)
  status : GState
  startAt : Nat
  endAt : Nat
  retryLimit : Int
  timeout : Nat
  version : Nat
  isCtxJob : Bool
  runnerNil : Bool
  deriving DecidableEq, Repr

/-- Embeds newExecNode (exec.go lines 307-317): note that the ctx and
cancel fields are left at their zero value (nil). -/
def newExecNode {K : Type} (k : K) (isCtxJob runnerNil : Bool)
    (d : Nat) (n : Int) : ENode K :=
  { ctx := none
    cancel := none
    key := k
    errMsg := none
    status := GState.waiting
    startAt := 0
    endAt := 0
    retryLimit := n
    timeout := d
    version := 0
    isCtxJob := isCtxJob
    runnerNil := runnerNil }

/-- Models context.WithCancel of the Go standard library (called by
execNode.run): it panics when the parent context is nil, otherwise
derives a child context and a cancel handle. -/
def contextWithCancel (parent : Option Nat) :
    Except Unit (Nat × Nat) :=
  match parent with
  | none => Except.error ()
  | some c => Except.ok (c + 1, c + 1)

/-- The synchronous prefix of the goroutine spawned by execNode.run
(exec.go lines 353-374): bump the version, mark Running, record the
start time, and for a ContextJob derive the cancellable context from
e.ctx; none models the goroutine dying in the nil-parent panic of
context.WithCancel.  A node already Running is left untouched (the
early return of run). -/
def nodeRunStart {K : Type} (n : ENode K) : Option (ENode K) :=
  if n.status = GState.running then some n
  else
    let n1 := { n with
      version := n.version + 1
      status := GState.running
      startAt := 1 }
    if n1.runnerNil then some n1
    else if n1.isCtxJob then
      match contextWithCancel n1.ctx with
      | Except.error _ => none
      | Except.ok (c, f) => some { n1 with ctx := some c, cancel := some f }
    else some n1

/-- Embeds execNode.stop (exec.go lines 405-425). -/
def nodeStop {K : Type} (n : ENode K) (ignoreErr : Bool) :
    Option (GoErr K) × ENode K :=
  if ¬ n.status = GState.running then (some GoErr.jobNotRunning, n)
  else if ignoreErr then
    (none, { n with endAt := 1, status := GState.success })
  else
    (none, { n with
      endAt := 1
      errMsg := some GoErr.jobCanceled
      status := GState.stopped })

/-- Embeds execNode.reset (exec.go lines 427-439). -/
def nodeReset {K : Type} (n : ENode K) : ENode K :=
  { n with errMsg := none
           status := GState.waiting
           startAt := 0
           endAt := 0
           version := n.version + 1 }

/-- Embeds execGraph (exec.go lines 445-473); channels are modelled by
their observable closed flags, the job map and the candidate
reference-count map as association lists, the finishes set as a
key list. -/
structure ExecSt (K : Type) where
  dag : AdjList K
  complete_closed : Bool
  completed : Bool
  wait_closed : Bool
  err : Option (GoErr K)
  status : GState
  suspend : Bool
  nodes : List (K × ENode K)
  candicates : List (K × Int)
  finishes : List K
  deriving Repr

/-- Embeds scheduledError (exec.go lines 501-506). -/
def scheduledErr {K : Type} (g : ExecSt K) (key : K) : ExecSt K :=
  { g with status := GState.failed
           err := some (GoErr.schedFailed key)
           suspend := true
           wait_closed := true }

/-- Embeds execGraph.stop (exec.go lines 715-722): stop every running
node (ignoreErr false); the helper always returns nil. -/
def stopAllRunning {K : Type} (g : ExecSt K) : ExecSt K :=
  { g with nodes := g.nodes.map (fun p =>
      (p.1, if p.2.status = GState.running then (nodeStop p.2 false).2
            else p.2)) }

/-- Embeds execGraph.Stop (exec.go lines 672-712), including the
deferred close of the complete channel that runs on every exit path. -/
def graphStop {K : Type} [DecidableEq K] (g : ExecSt K) :
    Option (GoErr K) × ExecSt K :=
  let fin := fun (g1 : ExecSt K) =>
    if ¬ g1.completed then
      { g1 with complete_closed := true, completed := true }
    else g1
  match g.status with
  | GState.stopped => (none, fin g)
  | GState.failed =>
      (none, fin (stopAllRunning { g with suspend := true }))
  | GState.waiting | GState.running | GState.paused =>
      let g2 := stopAllRunning { g with suspend := true }
      (none, fin { g2 with status := GState.stopped
                           err := some GoErr.execCanceled
                           wait_closed := true })
  | GState.success => (some GoErr.stopOnSuccess, fin g)

/-- Embeds execGraph.reset (exec.go lines 657-670): reset every node,
clear the bookkeeping maps, reopen both channels, clear error and
suspension and return to Waiting. -/
def graphResetInner {K : Type} (g : ExecSt K) : ExecSt K :=
  { g with nodes := g.nodes.map (fun p => (p.1, nodeReset p.2))
           candicates := []
           finishes := []
           complete_closed := false
           completed := false
           wait_closed := false
           suspend := false
           err := none
           status := GState.waiting }

/-- Embeds execGraph.Reset (exec.go lines 770-794): Stop first -- its
error aborts the reset -- then reset every node and the graph. -/
def graphReset {K : Type} [DecidableEq K] (g : ExecSt K) :
    Option (GoErr K) × ExecSt K :=
  match graphStop g with
  | (some e, g1) => (some e, g1)
  | (none, g1) =>
      (none, graphResetInner
        { g1 with nodes := g1.nodes.map (fun p => (p.1, nodeReset p.2)) })

/-- Set-style insert into the finishes list (a Go map write). -/
def finInsert {K : Type} [DecidableEq K] (k : K) (fs : List K) :
    List K :=
  if k ∈ fs then fs else k :: fs

/-- The ready keys of the candidate map (reference count zero), in
model order (Go map iteration order is arbitrary). -/
def readyKeys {K : Type} [DecidableEq K] (cands : List (K × Int)) :
    List K :=
  (cands.filter (fun p => p.2 = 0)).map Prod.fst

/-- The successor-update loop of the scheduler (exec.go lines
546-589): decrement known candidates, skip vertices without a
registered job node, skip finished nodes, otherwise create an entry
from the in-degree; an in-degree error aborts via scheduledError on
the blamed key. -/
def updateCands {K : Type} [DecidableEq K] (nodes : List (K × ENode K))
    (finishes : List K) (dag : AdjList K) :
    List K → List (K × Int) → Bool →
      Except K (List (K × Int) × Bool)
  | [], cands, hasReady => Except.ok (cands, hasReady)
  | v :: rest, cands, hasReady =>
      match alookup v cands with
      | some dep =>
          updateCands nodes finishes dag rest (aset v (dep - 1) cands)
            (if dep = 1 then true else hasReady)
      | none =>
          if (alookup v nodes).isSome = false then
            updateCands nodes finishes dag rest cands hasReady
          else if v ∈ finishes then
            updateCands nodes finishes dag rest cands hasReady
          else
            match adjInDegree dag v with
            | Except.error _ => Except.error v
            | Except.ok n =>
                if n ≠ 0 then
                  updateCands nodes finishes dag rest
                    (aset v ((n : Int) - 1) cands)
                    (if n = 1 then true else hasReady)
                else updateCands nodes finishes dag rest cands hasReady

/-- The events the scheduler loop reacts to: a result delivered on
resCh, or a pass through the default branch (scheduling). -/
inductive Ev (K : Type) where
  | result (key : K) (err : Option (GoErr K))
  | schedule
  deriving Repr

/-- The effect of calling node.run on launch, for nodes whose
goroutine prefix does not panic; a missing node is left untouched
(node == nil guard). -/
def launchNode {K : Type} [DecidableEq K] (nodes : List (K × ENode K))
    (k : K) : List (K × ENode K) :=
  match alookup k nodes with
  | none => nodes
  | some n =>
      match nodeRunStart n with
      | none => nodes
      | some n1 => aset k n1 nodes

/-- One reaction of the scheduler loop (exec.go lines 524-619) to an
event: the result branch records errors or propagates completions to
successors; the schedule branch launches the ready, unfinished,
job-bearing candidates unless suspended.  Returns the new state, the
new hasReady flag, the keys on which run was invoked, and whether the
loop aborted through scheduledError. -/
def schedStep {K : Type} [DecidableEq K] (g : ExecSt K)
    (hasReady : Bool) : Ev K → ExecSt K × Bool × List K × Bool
  | Ev.result key err =>
      match err with
      | some e =>
          let g1 := { g with err := some e }
          let g2 :=
            if g1.status = GState.running ∨ g1.status = GState.paused then
              { g1 with status := GState.failed, wait_closed := true }
            else g1
          ({ g2 with finishes := finInsert key g2.finishes },
            hasReady, [], false)
      | none =>
          match adjOutNeighbours g.dag key false with
          | Except.error _ => (scheduledErr g key, hasReady, [], true)
          | Except.ok outs =>
              match updateCands g.nodes g.finishes g.dag outs
                  g.candicates hasReady with
              | Except.error vkey =>
                  (scheduledErr g vkey, hasReady, [], true)
              | Except.ok (cands1, hr1) =>
                  ({ g with candicates := cands1
                            finishes := finInsert key g.finishes },
                    hr1, [], false)
  | Ev.schedule =>
      if hasReady then
        if g.suspend = false then
          let ready := readyKeys g.candicates
          let launched := ready.filter (fun k =>
            ¬ k ∈ g.finishes ∧ (alookup k g.nodes).isSome)
          let nodes1 := launched.foldl launchNode g.nodes
          let cands1 := ready.foldl (fun cs k => aremove k cs) g.candicates
          ({ g with nodes := nodes1, candicates := cands1 },
            false, launched, false)
        else (g, hasReady, [], false)
      else (g, hasReady, [], false)

/-- Runs the scheduler loop over a list of events, collecting every
launched key; an abort through scheduledError ends the run. -/
def schedRun {K : Type} [DecidableEq K] (g : ExecSt K)
    (hasReady : Bool) : List (Ev K) → ExecSt K × Bool × List K
  | [] => (g, hasReady, [])
  | ev :: rest =>
      match schedStep g hasReady ev with
      | (g1, hr1, ls, aborted) =>
          if aborted then (g1, hr1, ls)
          else
            match schedRun g1 hr1 rest with
            | (g2, hr2, ls2) => (g2, hr2, ls ++ ls2)

/-- The seeding prefix of execGraph.start (exec.go lines 508-521):
mark Running, load the DAG sources, and register a zero reference
count for exactly those sources that carry a job node; the returned
flag is the initial hasReady value of the loop. -/
def execStart {K : Type} [DecidableEq K] [Inhabited K]
    (g : ExecSt K) : ExecSt K × Bool :=
  let g0 := { g with status := GState.running }
  match adjSources g.dag with
  | Except.error _ => (scheduledErr g0 default, true)
  | Except.ok srcs =>
      let cs1 := srcs.foldl (fun cs v =>
        if (alookup v g.nodes).isSome then aset v 0 cs else cs) g.candicates
      ({ g0 with candicates := cs1 }, true)

/-- A plain (non-context) job node in the Waiting state. -/
def plainNode (k : Fin 4) : ENode (Fin 4) :=
  newExecNode k false false 0 0

/-- The DAG of the C2 run: vertices 0,1,2 with the single dependency
1 → 2. -/
def c2Dag : AdjList (Fin 4) :=
  (adjAddEdge (adjAddVertex (adjAddVertex (adjAddVertex
    (newAdjacencyLis (Fin 4) true) 0) 1) 2) 1 2 9 1).2

/-- The C2 graph before Start: jobs registered on all three
vertices. -/
def c2St0 : ExecSt (Fin 4) :=
  { dag := c2Dag
    complete_closed := false
    completed := false
    wait_closed := false
    err := none
    status := GState.waiting
    suspend := false
    nodes := [(0, plainNode 0), (1, plainNode 1), (2, plainNode 2)]
    candicates := []
    finishes := [] }

/-- The DAG of the C3 run: the chain 0 → 1 → 2. -/
def c3Dag : AdjList (Fin 4) :=
  (adjAddEdge (adjAddEdge (adjAddVertex (adjAddVertex (adjAddVertex
    (newAdjacencyLis (Fin 4) true) 0) 1) 2) 0 1 7 1).2 1 2 8 1).2

/-- The C3 graph before Start: jobs registered only on vertices 0 and
2; the middle vertex 1 carries no job node. -/
def c3St0 : ExecSt (Fin 4) :=
  { dag := c3Dag
    complete_closed := false
    completed := false
    wait_closed := false
    err := none
    status := GState.waiting
    suspend := false
    nodes := [(0, plainNode 0), (2, plainNode 2)]
    candicates := []
    finishes := [] }

/-- A graph that has completed successfully (for C1). -/
def c1St : ExecSt (Fin 4) :=
  { dag := c2Dag
    complete_closed := false
    completed := false
    wait_closed := true
    err := none
    status := GState.success
    suspend := false
    nodes := [(0, { plainNode 0 with status := GState.success })]
    candicates := []
    finishes := [0] }

theorem seedLoop_lookup {K : Type} [DecidableEq K]
    (nodes : List (K × ENode K)) :
    ∀ (srcs : List K) (cs : List (K × Int)) (k : K),
      alookup k (srcs.foldl (fun cs v =>
        if (alookup v nodes).isSome then aset v 0 cs else cs) cs) =
      if k ∈ srcs ∧ (alookup k nodes).isSome = true then some 0
      else alookup k cs := by
  intro srcs
  induction srcs with
  | nil =>
      intro cs k
      simp
  | cons v rest ih =>
      intro cs k
      rw [List.foldl_cons]
      rw [ih]
      by_cases hkr : k ∈ rest ∧ (alookup k nodes).isSome = true
      · rw [if_pos hkr, if_pos ⟨by simp [hkr.1], hkr.2⟩]
      · rw [if_neg hkr]
        by_cases hkv : k = v
        · subst hkv
          by_cases hn : (alookup k nodes).isSome = true
          · rw [if_pos hn, alookup_aset_self,
              if_pos ⟨by simp, hn⟩]
          · rw [if_neg hn, if_neg (fun hc => hn hc.2)]
        · by_cases hn : (alookup v nodes).isSome = true
          · rw [if_pos hn, alookup_aset_other hkv]
            rw [if_neg (fun hc => hkr ⟨by
              rcases List.mem_cons.mp hc.1 with h | h
              · exact absurd h hkv
              · exact h, hc.2⟩)]
          · rw [if_neg hn]
            rw [if_neg (fun hc => hkr ⟨by
              rcases List.mem_cons.mp hc.1 with h | h
              · exact absurd h hkv
              · exact h, hc.2⟩)]

theorem updateCands_skip {K : Type} [DecidableEq K]
    (nodes : List (K × ENode K)) (finishes : List K)
    (dag : AdjList K) :
    ∀ (outs : List K) (cands : List (K × Int)) (hr : Bool)
      (cands1 : List (K × Int)) (hr1 : Bool),
      updateCands nodes finishes dag outs cands hr =
        Except.ok (cands1, hr1) →
      ∀ v, alookup v nodes = none → alookup v cands = none →
        alookup v cands1 = none := by
  intro outs
  induction outs with
  | nil =>
      intro cands hr cands1 hr1 hrun v hn hc
      rw [updateCands] at hrun
      have h2 := Except.ok.inj hrun
      have h3 : cands = cands1 := by
        have h4 := congrArg Prod.fst h2
        simpa using h4
      rw [← h3]
      exact hc
  | cons w rest ih =>
      intro cands hr cands1 hr1 hrun v hn hc
      rw [updateCands] at hrun
      rcases hw : alookup w cands with _ | dep
      · rw [hw] at hrun
        simp only at hrun
        by_cases hwn : (alookup w nodes).isSome = false
        · rw [if_pos hwn] at hrun
          exact ih cands hr cands1 hr1 hrun v hn hc
        · rw [if_neg hwn] at hrun
          by_cases hwf : w ∈ finishes
          · rw [if_pos hwf] at hrun
            exact ih cands hr cands1 hr1 hrun v hn hc
          · rw [if_neg hwf] at hrun
            rcases hdeg : adjInDegree dag w with e | m
            · simp only [hdeg] at hrun
              exact absurd hrun (by simp)
            · simp only [hdeg] at hrun
              have hvw : v ≠ w := by
                intro hh
                subst hh
                simp at hwn
                rw [hn] at hwn
                simp at hwn
              by_cases hm : m ≠ 0
              · rw [if_pos hm] at hrun
                refine ih _ _ cands1 hr1 hrun v hn ?_
                rw [alookup_aset_other hvw]
                exact hc
              · rw [if_neg hm] at hrun
                exact ih cands hr cands1 hr1 hrun v hn hc
      · rw [hw] at hrun
        simp only at hrun
        have hvw : v ≠ w := by
          intro hh
          subst hh
          rw [hc] at hw
          exact absurd hw (by simp)
        refine ih _ _ cands1 hr1 hrun v hn ?_
        rw [alookup_aset_other hvw]
        exact hc

/-- C1: contrary to the claim, Reset on a graph whose state is
Success does not reset anything: the initial Stop call rejects the
Success state with an error, Reset returns that error before touching
any node, and the graph keeps status Success with nodes, candidates,
finishes and error unchanged (only the deferred close of the complete
channel fires). -/
theorem reset_on_success_rejected {K : Type} [DecidableEq K]
    (g : ExecSt K) (h : g.status = GState.success) :
    (graphReset g).1 = some GoErr.stopOnSuccess ∧
    (graphReset g).2.status = GState.success ∧
    (graphReset g).2.nodes = g.nodes ∧
    (graphReset g).2.candicates = g.candicates ∧
    (graphReset g).2.finishes = g.finishes ∧
    (graphReset g).2.err = g.err ∧
    (graphReset g).2.completed = true := by
  have hstop : graphStop g = (some GoErr.stopOnSuccess,
      if ¬ g.completed = true then
        { g with complete_closed := true, completed := true }
      else g) := by
    simp only [graphStop, h]
  have hres : graphReset g = (some GoErr.stopOnSuccess,
      if ¬ g.completed = true then
        { g with complete_closed := true, completed := true }
      else g) := by
    simp only [graphReset, hstop]
  rw [hres]
  by_cases hc : g.completed = true
  · rw [if_neg (by simp [hc])]
    exact ⟨rfl, h, rfl, rfl, rfl, rfl, hc⟩
  · rw [if_pos (by simp [hc])]
    exact ⟨rfl, h, rfl, rfl, rfl, rfl, rfl⟩

/-- Witness for C1 on a concrete completed graph. -/
theorem reset_on_success_rejected_witness :
    (graphReset c1St).1 = some GoErr.stopOnSuccess ∧
    (graphReset c1St).2.status = GState.success ∧
    (graphReset c1St).2.nodes = c1St.nodes ∧
    (graphReset c1St).2.candicates = c1St.candicates ∧
    (graphReset c1St).2.finishes = c1St.finishes ∧
    (graphReset c1St).2.err = c1St.err ∧
    (graphReset c1St).2.completed = true :=
  reset_on_success_rejected c1St rfl

/-- C2 (amended): a failing result moves a Running/Paused graph to
Failed and records the error, but deliberately does not suspend
scheduling and leaves the candidate map unchanged; the schedule
branch then keeps launching every ready, unfinished, job-bearing
candidate whenever suspend is false -- irrespective of the Failed
status -- and launches nothing only when suspended (which Stop or
Pause set, not the failure itself). -/
theorem sched_failed_keeps_launching {K : Type} [DecidableEq K]
    (g : ExecSt K) (hr : Bool) :
    (∀ k e,
      (schedStep g hr (Ev.result k (some e))).1.status =
        (if g.status = GState.running ∨ g.status = GState.paused then
          GState.failed else g.status) ∧
      (schedStep g hr (Ev.result k (some e))).1.suspend = g.suspend ∧
      (schedStep g hr (Ev.result k (some e))).1.candicates =
        g.candicates ∧
      (schedStep g hr (Ev.result k (some e))).1.err = some e ∧
      (schedStep g hr (Ev.result k (some e))).2.2.1 = []) ∧
    (hr = true → g.suspend = false →
      (schedStep g hr Ev.schedule).2.2.1 =
        (readyKeys g.candicates).filter (fun k =>
          ¬ k ∈ g.finishes ∧ (alookup k g.nodes).isSome)) ∧
    (g.suspend = true →
      (schedStep g hr Ev.schedule).2.2.1 = []) := by
  refine ⟨?_, ?_, ?_⟩
  · intro k e
    by_cases hcnd : g.status = GState.running ∨ g.status = GState.paused
    · simp [schedStep, hcnd]
    · simp [schedStep, hcnd]
  · intro h1 h2
    subst h1
    simp [schedStep, h2]
  · intro h1
    cases hhr : hr with
    | false => simp [schedStep]
    | true => simp [schedStep, h1]

/-- Witness for the amended C2 theorem on the concrete three-job
state right after its failure event. -/
theorem sched_failed_keeps_launching_witness :
    ((schedStep c2St0 true (Ev.result 0 (some GoErr.jobIsNull))).1.status
        = (if c2St0.status = GState.running ∨ c2St0.status = GState.paused
           then GState.failed else c2St0.status) ∧
      (schedStep c2St0 true (Ev.result 0
        (some GoErr.jobIsNull))).1.suspend = c2St0.suspend ∧
      (schedStep c2St0 true (Ev.result 0
        (some GoErr.jobIsNull))).1.candicates = c2St0.candicates ∧
      (schedStep c2St0 true (Ev.result 0
        (some GoErr.jobIsNull))).1.err = some GoErr.jobIsNull ∧
      (schedStep c2St0 true (Ev.result 0
        (some GoErr.jobIsNull))).2.2.1 = []) ∧
    (schedStep c2St0 true Ev.schedule).2.2.1 =
      (readyKeys c2St0.candicates).filter (fun k =>
        ¬ k ∈ c2St0.finishes ∧ (alookup k c2St0.nodes).isSome) :=
  ⟨(sched_failed_keeps_launching c2St0 true).1 0 GoErr.jobIsNull,
   (sched_failed_keeps_launching c2St0 true).2.1 rfl rfl⟩

/-- C2 counterexample: jobs A=0,B=1,C=2 with the dependency B → C;
the first scheduling pass launches A and B, A's error flips the graph
to Failed, then B's success makes C ready and the very next
scheduling pass launches C -- a job that was not launched before the
failure -- while the state is still Failed. -/
theorem sched_launch_after_failed_counterexample :
    (schedRun (execStart c2St0).1 (execStart c2St0).2
        [Ev.schedule, Ev.result 0 (some GoErr.jobIsNull)]).1.status =
      GState.failed ∧
    (schedRun (execStart c2St0).1 (execStart c2St0).2
        [Ev.schedule, Ev.result 0 (some GoErr.jobIsNull)]).2.2 =
      [0, 1] ∧
    (schedRun (execStart c2St0).1 (execStart c2St0).2
        [Ev.schedule, Ev.result 0 (some GoErr.jobIsNull),
         Ev.result 1 none, Ev.schedule]).2.2 = [0, 1, 2] ∧
    (schedRun (execStart c2St0).1 (execStart c2St0).2
        [Ev.schedule, Ev.result 0 (some GoErr.jobIsNull),
         Ev.result 1 none, Ev.schedule]).1.status = GState.failed := by
  refine ⟨?_, ?_, ?_, ?_⟩ <;> decide

/-- C3 (amended): vertices without a registered job node are excluded
from scheduling rather than treated as completed skip nodes: seeding
registers exactly the sources that carry a node, the successor-update
loop leaves a node-less vertex without any candidate entry (so
nothing is ever decremented on its behalf), and no scheduling step
ever launches a key without a node. -/
theorem jobless_vertices_excluded {K : Type} [DecidableEq K]
    [Inhabited K] (g : ExecSt K) :
    (∀ srcs, adjSources g.dag = Except.ok srcs →
      ∀ k, alookup k (execStart g).1.candicates =
        (if k ∈ srcs ∧ (alookup k g.nodes).isSome = true then some 0
         else alookup k g.candicates)) ∧
    (∀ outs cands hr cands1 hr1,
      updateCands g.nodes g.finishes g.dag outs cands hr =
        Except.ok (cands1, hr1) →
      ∀ v, alookup v g.nodes = none → alookup v cands = none →
        alookup v cands1 = none) ∧
    (∀ hr ev, ∀ k ∈ (schedStep g hr ev).2.2.1,
      (alookup k g.nodes).isSome = true) := by
  refine ⟨?_, ?_, ?_⟩
  · intro srcs hsrc k
    simp only [execStart, hsrc]
    exact seedLoop_lookup g.nodes srcs g.candicates k
  · exact updateCands_skip g.nodes g.finishes g.dag
  · intro hr ev k hk
    cases ev with
    | result key err =>
        cases err with
        | some e => simp [schedStep] at hk
        | none =>
            rcases ho : adjOutNeighbours g.dag key false with e | outs
            · simp [schedStep, ho] at hk
            · simp only [schedStep, ho] at hk
              rcases hu : updateCands g.nodes g.finishes g.dag outs
                  g.candicates hr with vk | r
              · rw [hu] at hk
                simp at hk
              · rw [hu] at hk
                simp at hk
    | schedule =>
        simp only [schedStep] at hk
        cases hhr : hr with
        | false =>
            rw [hhr] at hk
            simp at hk
        | true =>
            rw [hhr] at hk
            by_cases hs : g.suspend = false
            · rw [if_pos rfl, if_pos hs] at hk
              simp only at hk
              have := List.of_mem_filter hk
              simp only [decide_eq_true_eq] at this
              exact this.2
            · rw [if_pos rfl, if_neg hs] at hk
              simp at hk

/-- Witness for the amended C3 theorem on the concrete chain
0 → 1 → 2 whose middle vertex has no job. -/
theorem jobless_vertices_excluded_witness :
    (alookup (0 : Fin 4) (execStart c3St0).1.candicates =
      (if (0 : Fin 4) ∈ [(0 : Fin 4)] ∧
          (alookup (0 : Fin 4) c3St0.nodes).isSome = true then some 0
       else alookup (0 : Fin 4) c3St0.candicates)) ∧
    (∀ v, alookup v c3St0.nodes = none →
      alookup v c3St0.candicates = none →
      alookup v ([] : List (Fin 4 × Int)) = none) :=
  ⟨(jobless_vertices_excluded c3St0).1 [0] rfl 0,
   (jobless_vertices_excluded c3St0).2.1 [1] [] false [] false rfl⟩

/-- C3 counterexample: in the chain 0 → 1 → 2 where vertex 1 has no
job node, after the source job 0 completes, its node-less successor 1
is skipped outright: the out-neighbour 2 of the skip vertex never
receives a candidate entry (its count is not decremented as if 1 had
completed) and is never launched; the whole run only launches job
0. -/
theorem skip_vertex_no_decrement_counterexample :
    alookup (1 : Fin 4) c3St0.nodes = none ∧
    adjOutNeighbours c3St0.dag 1 false = Except.ok [2] ∧
    adjInDegree c3St0.dag 2 = Except.ok 1 ∧
    alookup (2 : Fin 4) (schedRun (execStart c3St0).1
      (execStart c3St0).2
      [Ev.schedule, Ev.result 0 none, Ev.schedule]).1.candicates =
      none ∧
    (schedRun (execStart c3St0).1 (execStart c3St0).2
      [Ev.schedule, Ev.result 0 none, Ev.schedule]).2.2 = [0] :=
  ⟨by decide, rfl, rfl, by decide, by decide⟩

/-- C4: contrary to the claim, launching a ContextJob node faults:
the node's ctx field is nil from construction (newExecNode never sets
it and nothing else does), so the goroutine of run panics inside
context.WithCancel and the cancellation-handle setup never
succeeds. -/
theorem ctxjob_run_panics {K : Type} [DecidableEq K] (k : K)
    (d : Nat) (r : Int) :
    (newExecNode k true false d r).ctx = none ∧
    (∀ n : ENode K, ¬ n.status = GState.running → n.isCtxJob = true →
      n.runnerNil = false → n.ctx = none → nodeRunStart n = none) := by
  refine ⟨rfl, ?_⟩
  intro n h1 h2 h3 h4
  rw [nodeRunStart, if_neg h1]
  simp [h2, h3, h4, contextWithCancel]

/-- Witness for C4 on a freshly constructed ContextJob node. -/
theorem ctxjob_run_panics_witness :
    nodeRunStart (newExecNode (0 : Fin 4) true false 0 0) = none ∧
    (newExecNode (0 : Fin 4) true false 0 0).ctx = none :=
  ⟨(ctxjob_run_panics (0 : Fin 4) 0 0).2 _ (by decide) rfl rfl rfl,
   (ctxjob_run_panics (0 : Fin 4) 0 0).1⟩

end Graphlib
